import Mathlib

/-!
# PasswordCracker: block buffer, single-block MD5 and the `$1$` password hash

A shallow embedding of `block.c`, `md5.c` and `password.c`.

* Bytes (`byte`) and 32-bit words (`word`) are natural numbers; every place
  where the C code truncates (an assignment to a `byte`, arithmetic on a
  `word`) carries an explicit `% 256` or `% 2 ^ 32`. The two types are
  declared in `magic.h`, which is not among the sources, as are `BLOCK_SIZE`,
  `BLOCK_WORDS` and the four tables; they are taken as the spec describes
  them (unsigned 8-bit bytes, unsigned 32-bit words, standard MD5 tables).
* A `Block` is the C struct: the 64-byte `data` array and the `len` counter.
* C strings are the lists of their bytes before the terminator, so `strlen`
  is `List.length`.
* `exit( EXIT_FAILURE )` is the error branch of `Except`; the error value
  records the block as it is when the process stops.
-/

namespace PasswordCracker

/-! ## Constants of `magic.h`, `md5.h` and `password.h` -/

/-- Modelled from the spec: `BLOCK_SIZE` of `magic.h`, the capacity of a block
("a bounded (≤64-byte) append-only buffer"). -/
def BLOCK_SIZE : Nat := 64

/-- Modelled from the spec: `BLOCK_WORDS` of `magic.h`, the number of 32-bit
words in a block ("16 32-bit words"). -/
def BLOCK_WORDS : Nat := 16

def HASH_SIZE : Nat := 16
def WORD_BIT_SIZE : Nat := 32
def BITS_IN_A_BYTE : Nat := 8
def NUMBER_OF_BYTES_IN_WORD : Nat := 4
def BLOCK_ZERO_PADDING_LIMIT : Nat := 56
def SIZE_OF_ROUND : Nat := 16
def WORD_A_FIRST_BYTE : Nat := 0
def WORD_A_LAST_BYTE : Nat := 4
def WORD_B_FIRST_BYTE : Nat := 4
def WORD_B_LAST_BYTE : Nat := 8
def WORD_C_FIRST_BYTE : Nat := 8
def WORD_C_LAST_BYTE : Nat := 12
def INIT_VALUE_A : Nat := 0x67452301
def INIT_VALUE_B : Nat := 0xefcdab89
def INIT_VALUE_C : Nat := 0x98badcfe
def INIT_VALUE_D : Nat := 0x10325476
def FIRST_VALUE_AFTER_DATA : Nat := 0x80
def BLOCK_DATA_PADDING : Nat := 0x00

def SALT_LENGTH : Nat := 8
def PW_LIMIT : Nat := 15
def PW_HASH_LIMIT : Nat := 22
def ZERO_BYTE_FLAG : Nat := 1
def FIRST_BYTE_FLAG : Nat := 0
def FIRST_BYTE_OF_BLOCK_DATA_IDX : Nat := 0
def SINGLE_BIT_MOVEMENT : Nat := 1
def BYTE_TO_CHAR_TRANSLATION_ROUNDS : Nat := 6
def SET_OF_BYTES : Nat := 3
def BITS_IN_LETTER : Nat := 6
def LEFTOVER_BITS_MSB : Nat := 2
def LEFTOVER_BITS_LSB : Nat := 2
def LEFTOVER_BITS_MIDDLE : Nat := 4
def BITS_MASK_MSB : Nat := 0x3F
def SECOND_BYTE_IN_SET : Nat := 1
def THIRD_BYTE_IN_SET : Nat := 2
def MASK_FOR_BITS : Nat := 0x3F
def PW_ITERATIONS : Nat := 1000

/-- Modelled from the spec: the table `md5Noise` of `magic.h`, the "64-entry
additive noise constants" of standard MD5, `floor (2^32 * |sin (i + 1)|)`. -/
def md5Noise : List Nat :=
  [ 0xd76aa478, 0xe8c7b756, 0x242070db, 0xc1bdceee,
    0xf57c0faf, 0x4787c62a, 0xa8304613, 0xfd469501,
    0x698098d8, 0x8b44f7af, 0xffff5bb1, 0x895cd7be,
    0x6b901122, 0xfd987193, 0xa679438e, 0x49b40821,
    0xf61e2562, 0xc040b340, 0x265e5a51, 0xe9b6c7aa,
    0xd62f105d, 0x02441453, 0xd8a1e681, 0xe7d3fbc8,
    0x21e1cde6, 0xc33707d6, 0xf4d50d87, 0x455a14ed,
    0xa9e3e905, 0xfcefa3f8, 0x676f02d9, 0x8d2a4c8a,
    0xfffa3942, 0x8771f681, 0x6d9d6122, 0xfde5380c,
    0xa4beea44, 0x4bdecfa9, 0xf6bb4b60, 0xbebfbc70,
    0x289b7ec6, 0xeaa127fa, 0xd4ef3085, 0x04881d05,
    0xd9d4d039, 0xe6db99e5, 0x1fa27cf8, 0xc4ac5665,
    0xf4292244, 0x432aff97, 0xab9423a7, 0xfc93a039,
    0x655b59c3, 0x8f0ccc92, 0xffeff47d, 0x85845dd1,
    0x6fa87e4f, 0xfe2ce6e0, 0xa3014314, 0x4e0811a1,
    0xf7537e82, 0xbd3af235, 0x2ad7d2bb, 0xeb86d391 ]

/-- Modelled from the spec: the table `md5Shift` of `magic.h`, the "64-entry
per-round left-rotation amounts" of standard MD5. -/
def md5Shift : List Nat :=
  [ 7, 12, 17, 22, 7, 12, 17, 22, 7, 12, 17, 22, 7, 12, 17, 22,
    5, 9, 14, 20, 5, 9, 14, 20, 5, 9, 14, 20, 5, 9, 14, 20,
    4, 11, 16, 23, 4, 11, 16, 23, 4, 11, 16, 23, 4, 11, 16, 23,
    6, 10, 15, 21, 6, 10, 15, 21, 6, 10, 15, 21, 6, 10, 15, 21 ]

/-- Modelled from the spec: the table `pwPerm` of `magic.h`, the "16-entry
byte-permutation table used before encoding" of MD5-crypt: the groups
`(0, 6, 12)`, `(1, 7, 13)`, `(2, 8, 14)`, `(3, 9, 15)`, `(4, 10, 5)` and `11`
of the reference `crypt`, each listed from its least significant byte. -/
def pwPerm : List Nat :=
  [ 12, 6, 0, 13, 7, 1, 14, 8, 2, 15, 9, 3, 5, 10, 4, 11 ]

/-- Modelled from the spec: the table `pwCode64` of `magic.h`, the
64-character alphabet `./0-9A-Za-z` of the output encoding. -/
def pwCode64 : List Char :=
  "./0123456789ABCDEFGHIJKLMNOPQRSTUVWXYZabcdefghijklmnopqrstuvwxyz".toList

/-- The bytes of a string literal of ASCII characters. -/
def bytesOf (s : String) : List Nat := s.toList.map Char.toNat

/-! ## `block.c` -/

/-- The struct `Block`: the `data` array (of `BLOCK_SIZE` bytes) and the
number `len` of bytes in use. -/
structure Block where
  data : List Nat
  len : Nat
  deriving DecidableEq, Repr

/-- How a run can stop early. `blockOverflow` is the `Block overflow` exit of
`appendByte` and `appendString`. The other two are accesses the C code makes
without a check and that would fall outside an array: a store at
`data[ len ]` with `len` not below `BLOCK_SIZE`, and a load `altHash[ i ]`
with `i` not below `HASH_SIZE`. -/
inductive HashError where
  | blockOverflow
  | storeOutsideBlock
  | loadOutsideHash
  deriving DecidableEq, Repr

/-- An early stop: its kind, and the block being filled as it is at that
moment. -/
structure Fault where
  error : HashError
  block : Block
  deriving DecidableEq, Repr

/-- The function `makeBlock`. The bytes of a fresh allocation are indeterminate;
the model takes them to be zero (no byte at or after `len` is read before it
has been stored). -/
def makeBlock : Block :=
  { data := List.replicate BLOCK_SIZE 0, len := 0 }

/-- The statement `block->data[ block->len++ ] = b`. -/
def storeNext (block : Block) (b : Nat) : Block :=
  { data := block.data.set block.len b, len := block.len + 1 }

/-- The function `appendByte`. -/
def appendByte (block : Block) (b : Nat) : Except Fault Block :=
  if block.len + 1 > BLOCK_SIZE then
    .error { error := .blockOverflow, block := block }
  else
    .ok (storeNext block b)

/-- The copying loop of `appendString`, `i` running over the bytes of `src`. -/
def appendStringLoop : List Nat → Block → Block
  | [], block => block
  | c :: rest, block => appendStringLoop rest (storeNext block c)

/-- The function `appendString`. -/
def appendString (block : Block) (src : List Nat) : Except Fault Block :=
  let numBytesToBeAdded := src.length
  if block.len + numBytesToBeAdded > BLOCK_SIZE then
    .error { error := .blockOverflow, block := block }
  else
    .ok (appendStringLoop src block)

/-! ## `md5.c` -/

/-- The operator `~` on a `word`. -/
def wordNot (x : Nat) : Nat := x ^^^ 0xFFFFFFFF

/-- The function `fVersion0`: `F0 = ( B & C ) | ( (~B) & D )`. -/
def fVersion0 (B C D : Nat) : Nat :=
  let firstComparison := B &&& C
  let secondComparison := wordNot B &&& D
  firstComparison ||| secondComparison

/-- The function `fVersion1`: `F1 = ( B & D ) | ( C & (~D) )`. -/
def fVersion1 (B C D : Nat) : Nat :=
  let firstComparison := B &&& D
  let secondComparison := C &&& wordNot D
  firstComparison ||| secondComparison

/-- The function `fVersion2`: `F2 = B ^ C ^ D`. -/
def fVersion2 (B C D : Nat) : Nat := B ^^^ C ^^^ D

/-- The function `fVersion3`: `F3 = C ^ ( B | (~D) )`. -/
def fVersion3 (B C D : Nat) : Nat :=
  let firstComaparison := B ||| wordNot D
  C ^^^ firstComaparison

/-- The function `gVersion0`. -/
def gVersion0 (idx : Nat) : Nat := idx

/-- The function `gVersion1`. -/
def gVersion1 (idx : Nat) : Nat := (5 * idx + 1) % 16

/-- The function `gVersion2`. -/
def gVersion2 (idx : Nat) : Nat := (3 * idx + 5) % 16

/-- The function `gVersion3`. -/
def gVersion3 (idx : Nat) : Nat := (7 * idx) % 16

/-- The function `rotateLeft` on a 32-bit `value`. The entries of `md5Shift`,
the only values `s` takes, lie strictly between 0 and 32. -/
def rotateLeft (value : Nat) (s : Nat) : Nat :=
  let getBitsNum := WORD_BIT_SIZE - s
  let topSBits := value >>> getBitsNum
  let value := (value <<< s) % 2 ^ 32
  let newValue := value ||| topSBits
  newValue

/-- The table `arrayF`, indexed by the round number `i / SIZE_OF_ROUND`, which
is at most 3 for the iterations 0 to 63. -/
def arrayF (roundNumber : Nat) : Nat → Nat → Nat → Nat :=
  match roundNumber with
  | 0 => fVersion0
  | 1 => fVersion1
  | 2 => fVersion2
  | _ => fVersion3

/-- The table `arrayG`, indexed by the round number `i / SIZE_OF_ROUND`, which
is at most 3 for the iterations 0 to 63. -/
def arrayG (roundNumber : Nat) : Nat → Nat :=
  match roundNumber with
  | 0 => gVersion0
  | 1 => gVersion1
  | 2 => gVersion2
  | _ => gVersion3

/-- The four state words `A`, `B`, `C`, `D` of MD5. -/
structure MD5State where
  A : Nat
  B : Nat
  C : Nat
  D : Nat
  deriving DecidableEq, Repr

/-- The function `md5Iteration`. -/
def md5Iteration (M : List Nat) (st : MD5State) (i : Nat) : MD5State :=
  let roundNumber := i / SIZE_OF_ROUND
  let A := (st.A + arrayF roundNumber st.B st.C st.D) % 2 ^ 32
  let A := (A + M.getD (arrayG roundNumber i) 0) % 2 ^ 32
  let A := (A + md5Noise.getD i 0) % 2 ^ 32
  let A := rotateLeft A (md5Shift.getD i 0)
  let A := (A + st.B) % 2 ^ 32
  let tempA := A
  let tempB := st.B
  let tempC := st.C
  { A := st.D, B := tempA, C := tempB, D := tempC }

/-- The zero-padding loop of `padBlock`:
`while ( block->len < BLOCK_ZERO_PADDING_LIMIT )`. Every pass adds one to
`len`, so `BLOCK_ZERO_PADDING_LIMIT - len` passes are the most it makes; the
first argument counts them down. -/
def padZeros : Nat → Block → Except Fault Block
  | 0, block => .ok block
  | fuel + 1, block =>
    if block.len < BLOCK_ZERO_PADDING_LIMIT then
      (appendByte block BLOCK_DATA_PADDING).bind (padZeros fuel)
    else
      .ok block

/-- The length loop of `padBlock`, `i` running from its second argument for as
many passes as its first. -/
def padLength (lenBytes : Nat) : Nat → Nat → Block → Except Fault Block
  | 0, _, block => .ok block
  | n + 1, i, block =>
    let lsb := (lenBytes >>> (BITS_IN_A_BYTE * i)) &&& 0xFF
    (appendByte block lsb).bind (padLength lenBytes n (i + 1))

/-- The function `padBlock`. -/
def padBlock (block : Block) : Except Fault Block :=
  let lenBytes := (block.len * BITS_IN_A_BYTE) % 2 ^ 64
  (appendByte block FIRST_VALUE_AFTER_DATA).bind fun block =>
  (padZeros (BLOCK_ZERO_PADDING_LIMIT - block.len) block).bind fun block =>
  padLength lenBytes BITS_IN_A_BYTE 0 block

/-- The inner loop of the message schedule in `md5Hash`: `j` runs from
`mostSigByte` down to `leastSigByte`; the first argument counts its passes. -/
def wordLoop (data : List Nat) (leastSigByte : Nat) : Nat → Nat → Nat → Nat
  | 0, _, w => w
  | n + 1, j, w =>
    if j = leastSigByte then
      w ||| data.getD j 0
    else
      let w := w ||| data.getD j 0
      let w := (w <<< BITS_IN_A_BYTE) % 2 ^ 32
      wordLoop data leastSigByte n (j - 1) w

/-- The word `M[ i ]` of the message schedule in `md5Hash`. -/
def scheduleWord (data : List Nat) (i : Nat) : Nat :=
  let leastSigByte := i * NUMBER_OF_BYTES_IN_WORD
  let mostSigByte := (leastSigByte + NUMBER_OF_BYTES_IN_WORD) - 1
  wordLoop data leastSigByte NUMBER_OF_BYTES_IN_WORD mostSigByte 0

/-- The loop of `md5Hash` that fills `M` with 16 words. -/
def fillSchedule (data : List Nat) : Nat → Nat → List Nat
  | 0, _ => []
  | n + 1, i => scheduleWord data i :: fillSchedule data n (i + 1)

/-- The loop of `md5Hash` over the 64 iterations, `i` running from its second
argument for as many passes as its first. -/
def md5Rounds (M : List Nat) : Nat → Nat → MD5State → MD5State
  | 0, _, st => st
  | n + 1, i, st => md5Rounds M n (i + 1) (md5Iteration M st i)

/-- The loop of `md5Hash` that writes the 16 bytes of `hash`. -/
def writeHash : Nat → Nat → MD5State → List Nat
  | 0, _, _ => []
  | n + 1, i, st =>
    if i ≥ WORD_A_FIRST_BYTE ∧ i < WORD_A_LAST_BYTE then
      (st.A % 256) :: writeHash n (i + 1) { st with A := st.A >>> BITS_IN_A_BYTE }
    else if i ≥ WORD_B_FIRST_BYTE ∧ i < WORD_B_LAST_BYTE then
      (st.B % 256) :: writeHash n (i + 1) { st with B := st.B >>> BITS_IN_A_BYTE }
    else if i ≥ WORD_C_FIRST_BYTE ∧ i < WORD_C_LAST_BYTE then
      (st.C % 256) :: writeHash n (i + 1) { st with C := st.C >>> BITS_IN_A_BYTE }
    else
      (st.D % 256) :: writeHash n (i + 1) { st with D := st.D >>> BITS_IN_A_BYTE }

/-- The state of `md5Hash` after the 64 iterations on a padded block. -/
def md5Compress (data : List Nat) : MD5State :=
  let M := fillSchedule data HASH_SIZE 0
  md5Rounds M BLOCK_SIZE 0
    { A := INIT_VALUE_A, B := INIT_VALUE_B, C := INIT_VALUE_C, D := INIT_VALUE_D }

/-- The rest of `md5Hash` once the block is padded: the 16 bytes of `hash`. -/
def md5Digest (data : List Nat) : List Nat :=
  let st := md5Compress data
  let A := (st.A + INIT_VALUE_A) % 2 ^ 32
  let B := (st.B + INIT_VALUE_B) % 2 ^ 32
  let C := (st.C + INIT_VALUE_C) % 2 ^ 32
  let D := (st.D + INIT_VALUE_D) % 2 ^ 32
  writeHash HASH_SIZE 0 { A := A, B := B, C := C, D := D }

/-- The function `md5Hash`: the padded block and the 16 bytes written to
`hash`. -/
def md5Hash (block : Block) : Except Fault (Block × List Nat) :=
  (padBlock block).bind fun block => .ok (block, md5Digest block.data)

/-! ## `password.c` -/

/-- The function `computeAlternateHash`: the 16 bytes written to `altHash`. -/
def computeAlternateHash (pass salt : List Nat) : Except Fault (List Nat) :=
  let altHashBlock := makeBlock
  (appendString altHashBlock pass).bind fun altHashBlock =>
  (appendString altHashBlock salt).bind fun altHashBlock =>
  (appendString altHashBlock pass).bind fun altHashBlock =>
  (md5Hash altHashBlock).bind fun r => .ok r.2

/-- The loop of `computeFirstIntermediate` that appends `altHash[ i ]` for
`i` below `passwordLength`, `i` running from its second argument for as many
passes as its first. -/
def appendAltHash (altHash : List Nat) : Nat → Nat → Block → Except Fault Block
  | 0, _, block => .ok block
  | n + 1, i, block =>
    if i < altHash.length then
      (appendByte block (altHash.getD i 0)).bind (appendAltHash altHash n (i + 1))
    else
      .error { error := .loadOutsideHash, block := block }

/-- The statement `block->data[ block->len++ ] = b` where the C code makes it
without a capacity check. -/
def storeUnchecked (block : Block) (b : Nat) : Except Fault Block :=
  if block.len < block.data.length then
    .ok (storeNext block b)
  else
    .error { error := .storeOutsideBlock, block := block }

/-- The loop `while ( passwordLength != 0 )` of `computeFirstIntermediate`.
Every pass halves `passwordLength`, so it makes at most `passwordLength`
passes; the first argument counts them down. -/
def bitWalk : Nat → Nat → Block → Except Fault Block
  | 0, _, block => .ok block
  | fuel + 1, passwordLength, block =>
    if passwordLength ≠ 0 then
      let bit := passwordLength &&& 0x1
      if bit = ZERO_BYTE_FLAG then
        (storeUnchecked block 0x00).bind
          (bitWalk fuel (passwordLength >>> SINGLE_BIT_MOVEMENT))
      else if bit = FIRST_BYTE_FLAG then
        (storeUnchecked block (block.data.getD FIRST_BYTE_OF_BLOCK_DATA_IDX 0)).bind
          (bitWalk fuel (passwordLength >>> SINGLE_BIT_MOVEMENT))
      else
        bitWalk fuel passwordLength block
    else
      .ok block

/-- The block that `computeFirstIntermediate` hands to `md5Hash`. -/
def firstIntermediateBlock (pass salt altHash : List Nat) : Except Fault Block :=
  let intHashBlock := makeBlock
  let passwordLength := pass.length
  (appendString intHashBlock pass).bind fun intHashBlock =>
  (appendString intHashBlock (bytesOf "$1$")).bind fun intHashBlock =>
  (appendString intHashBlock salt).bind fun intHashBlock =>
  (appendAltHash altHash passwordLength 0 intHashBlock).bind fun intHashBlock =>
  bitWalk passwordLength passwordLength intHashBlock

/-- The function `computeFirstIntermediate`: the 16 bytes written to
`intHash`. -/
def computeFirstIntermediate (pass salt altHash : List Nat) : Except Fault (List Nat) :=
  (firstIntermediateBlock pass salt altHash).bind fun intHashBlock =>
  (md5Hash intHashBlock).bind fun r => .ok r.2

/-- The loops of `computeNextIntermediate` that append `intHash[ i ]` for `i`
below `HASH_SIZE`, `i` running from its second argument for as many passes as
its first. -/
def appendHash (intHash : List Nat) : Nat → Nat → Block → Except Fault Block
  | 0, _, block => .ok block
  | n + 1, i, block =>
    (appendByte block (intHash.getD i 0)).bind (appendHash intHash n (i + 1))

/-- The block that `computeNextIntermediate` hands to `md5Hash`. -/
def nextIntermediateBlock (pass salt : List Nat) (inum : Nat) (intHash : List Nat) :
    Except Fault Block :=
  let nextHashBlock := makeBlock
  if inum % 2 = 0 then
    (appendHash intHash HASH_SIZE 0 nextHashBlock).bind fun nextHashBlock =>
    (if inum % 3 ≠ 0 then appendString nextHashBlock salt else .ok nextHashBlock).bind
      fun nextHashBlock =>
    (if inum % 7 ≠ 0 then appendString nextHashBlock pass else .ok nextHashBlock).bind
      fun nextHashBlock =>
    appendString nextHashBlock pass
  else
    (appendString nextHashBlock pass).bind fun nextHashBlock =>
    (if inum % 3 ≠ 0 then appendString nextHashBlock salt else .ok nextHashBlock).bind
      fun nextHashBlock =>
    (if inum % 7 ≠ 0 then appendString nextHashBlock pass else .ok nextHashBlock).bind
      fun nextHashBlock =>
    appendHash intHash HASH_SIZE 0 nextHashBlock

/-- The function `computeNextIntermediate`: the 16 bytes written to `intHash`. -/
def computeNextIntermediate (pass salt : List Nat) (inum : Nat) (intHash : List Nat) :
    Except Fault (List Nat) :=
  (nextIntermediateBlock pass salt inum intHash).bind fun nextHashBlock =>
  (md5Hash nextHashBlock).bind fun r => .ok r.2

/-- The loop of `hashToString` that fills `hashRearr`. -/
def rearrange (hash : List Nat) : Nat → Nat → List Nat
  | 0, _ => []
  | n + 1, i => hash.getD (pwPerm.getD i 0) 0 :: rearrange hash n (i + 1)

/-- The alphabet indices `letter1`, ... that one pass of the main loop of
`hashToString` computes, in the order in which it uses them. -/
def letters (hashRearr : List Nat) (i : Nat) : List Nat :=
  let byteSet := i * SET_OF_BYTES
  if byteSet = 15 then
    let letter1 := hashRearr.getD byteSet 0
    let letter1 := letter1 &&& MASK_FOR_BITS
    let letter2 := hashRearr.getD byteSet 0 >>> BITS_IN_LETTER
    [letter1, letter2]
  else
    let letter1 := hashRearr.getD byteSet 0 &&& BITS_MASK_MSB
    let letter2 := hashRearr.getD byteSet 0 >>> BITS_IN_LETTER
    let letter2 :=
      ((hashRearr.getD (byteSet + SECOND_BYTE_IN_SET) 0 <<< LEFTOVER_BITS_LSB) ||| letter2) % 256
    let letter2 := letter2 &&& BITS_MASK_MSB
    let letter3 := hashRearr.getD (byteSet + SECOND_BYTE_IN_SET) 0 >>> LEFTOVER_BITS_MIDDLE ||| 0
    let letter3 :=
      ((hashRearr.getD (byteSet + THIRD_BYTE_IN_SET) 0 <<< LEFTOVER_BITS_MIDDLE) ||| letter3) % 256
    let letter3 := letter3 &&& BITS_MASK_MSB
    let letter4 := hashRearr.getD (byteSet + THIRD_BYTE_IN_SET) 0 >>> LEFTOVER_BITS_MSB
    let letter4 := letter4 &&& BITS_MASK_MSB
    [letter1, letter2, letter3, letter4]

/-- The main loop of `hashToString`: the alphabet indices of the characters
stored in `result`, `i` running from its second argument for as many passes
as its first. -/
def letterLoop (hashRearr : List Nat) : Nat → Nat → List Nat
  | 0, _ => []
  | n + 1, i => letters hashRearr i ++ letterLoop hashRearr n (i + 1)

/-- The alphabet indices that `hashToString` uses, in output order. -/
def hashToIndices (hash : List Nat) : List Nat :=
  let hashRearr := rearrange hash HASH_SIZE 0
  letterLoop hashRearr BYTE_TO_CHAR_TRANSLATION_ROUNDS 0

/-- The function `hashToString`: the characters stored in `result` before the
terminator. A load from `pwCode64` past its end would yield the terminator,
written here as the character 0. -/
def hashToString (hash : List Nat) : List Char :=
  (hashToIndices hash).map fun letter => pwCode64.getD letter (Char.ofNat 0)

/-- The loop of `hashPassword` over the iterations, `i` running from its
third argument for as many passes as its first. -/
def iterate (pass salt : List Nat) : Nat → Nat → List Nat → Except Fault (List Nat)
  | 0, _, intHash => .ok intHash
  | n + 1, i, intHash =>
    (computeNextIntermediate pass salt i intHash).bind (iterate pass salt n (i + 1))

/-- The function `hashPassword`: the characters stored in `result`. -/
def hashPassword (pass salt : List Nat) : Except Fault (List Char) :=
  let b1 := makeBlock
  (appendString b1 pass).bind fun _ =>
  (computeAlternateHash pass salt).bind fun altHash =>
  (computeFirstIntermediate pass salt altHash).bind fun intHash =>
  (iterate pass salt PW_ITERATIONS 0 intHash).bind fun intHash =>
  .ok (hashToString intHash)

/-! ## Rendering a digest -/

/-- The lowercase hexadecimal digit of a value below 16. -/
def hexDigit (n : Nat) : Char :=
  "0123456789abcdef".toList.getD n '0'

/-- Lowercase hexadecimal rendering of a byte string, two digits per byte. -/
def toHex : List Nat → List Char
  | [] => []
  | b :: rest => hexDigit (b / 16) :: hexDigit (b % 16) :: toHex rest

/-! ## The same computation on byte strings

The functions below follow `block.c`, `md5.c` and `password.c` line by line,
with the bytes a block holds (`data[ 0 .. len )`) in place of the block, and
with the kind of an early stop in place of the early stop. The code is
compared with them in the theorems further down. -/

deriving instance DecidableEq for Except

/-- The block `b` holds the bytes `m`: `m` is `data[ 0 .. len )` of a block
whose array has `BLOCK_SIZE` entries. -/
def Holds (b : Block) (m : List Nat) : Prop :=
  b.data.length = BLOCK_SIZE ∧ b.len = m.length ∧ b.data.take b.len = m

/-- A run without the block of its early stop. -/
def kindOf {α : Type} (r : Except Fault α) : Except HashError α :=
  match r with
  | .ok a => .ok a
  | .error f => .error f.error

/-- A run on a block agrees with a run on a byte string: both end normally,
the block holding the byte string, or both stop early for the same reason. -/
inductive Sim : Except Fault Block → Except HashError (List Nat) → Prop where
  | ok {b : Block} {m : List Nat} : Holds b m → Sim (.ok b) (.ok m)
  | error {f : Fault} {e : HashError} : f.error = e → Sim (.error f) (.error e)

/-- The function `appendString` (and, for a one-byte string, `appendByte`) on
the bytes held. -/
def msgAppend (m s : List Nat) : Except HashError (List Nat) :=
  if m.length + s.length > BLOCK_SIZE then .error .blockOverflow else .ok (m ++ s)

/-- The eight bytes that the length loop of `padBlock` appends. -/
def msgLength (lenBytes : Nat) : Nat → Nat → List Nat
  | 0, _ => []
  | n + 1, i => ((lenBytes >>> (BITS_IN_A_BYTE * i)) &&& 0xFF) :: msgLength lenBytes n (i + 1)

/-- The 64 bytes of a padded block that held `m` (of at most 55 bytes). -/
def padMsg (m : List Nat) : List Nat :=
  m ++ FIRST_VALUE_AFTER_DATA ::
    (List.replicate (BLOCK_ZERO_PADDING_LIMIT - (m.length + 1)) BLOCK_DATA_PADDING ++
      msgLength ((m.length * BITS_IN_A_BYTE) % 2 ^ 64) BITS_IN_A_BYTE 0)

/-- The function `padBlock` on the bytes held. -/
def msgPad (m : List Nat) : Except HashError (List Nat) :=
  if m.length ≤ 55 then .ok (padMsg m) else .error .blockOverflow

/-- The function `md5Hash` on the bytes held: the 16 bytes of `hash`. -/
def msgMd5 (m : List Nat) : Except HashError (List Nat) :=
  (msgPad m).bind fun data => .ok (md5Digest data)

/-- The function `computeAlternateHash` on byte strings. -/
def msgAlternateHash (pass salt : List Nat) : Except HashError (List Nat) :=
  (msgAppend [] pass).bind fun m =>
  (msgAppend m salt).bind fun m =>
  (msgAppend m pass).bind fun m =>
  msgMd5 m

/-- The loop `appendAltHash` on the bytes held. -/
def msgAppendAltHash (altHash : List Nat) : Nat → Nat → List Nat → Except HashError (List Nat)
  | 0, _, m => .ok m
  | n + 1, i, m =>
    if i < altHash.length then
      (msgAppend m [altHash.getD i 0]).bind (msgAppendAltHash altHash n (i + 1))
    else
      .error .loadOutsideHash

/-- The unchecked store `storeUnchecked` on the bytes held. -/
def msgStoreUnchecked (m : List Nat) (b : Nat) : Except HashError (List Nat) :=
  if m.length < BLOCK_SIZE then .ok (m ++ [b]) else .error .storeOutsideBlock

/-- The loop `bitWalk` on the bytes held. -/
def msgBitWalk : Nat → Nat → List Nat → Except HashError (List Nat)
  | 0, _, m => .ok m
  | fuel + 1, passwordLength, m =>
    if passwordLength ≠ 0 then
      let bit := passwordLength &&& 0x1
      if bit = ZERO_BYTE_FLAG then
        (msgStoreUnchecked m 0x00).bind
          (msgBitWalk fuel (passwordLength >>> SINGLE_BIT_MOVEMENT))
      else if bit = FIRST_BYTE_FLAG then
        (msgStoreUnchecked m (m.getD FIRST_BYTE_OF_BLOCK_DATA_IDX 0)).bind
          (msgBitWalk fuel (passwordLength >>> SINGLE_BIT_MOVEMENT))
      else
        msgBitWalk fuel passwordLength m
    else
      .ok m

/-- The bytes of the block of `computeFirstIntermediate`. -/
def msgFirstBlock (pass salt altHash : List Nat) : Except HashError (List Nat) :=
  let passwordLength := pass.length
  (msgAppend [] pass).bind fun m =>
  (msgAppend m (bytesOf "$1$")).bind fun m =>
  (msgAppend m salt).bind fun m =>
  (msgAppendAltHash altHash passwordLength 0 m).bind fun m =>
  msgBitWalk passwordLength passwordLength m

/-- The function `computeFirstIntermediate` on byte strings. -/
def msgFirstIntermediate (pass salt altHash : List Nat) : Except HashError (List Nat) :=
  (msgFirstBlock pass salt altHash).bind msgMd5

/-- The loop `appendHash` on the bytes held. -/
def msgAppendHash (intHash : List Nat) : Nat → Nat → List Nat → Except HashError (List Nat)
  | 0, _, m => .ok m
  | n + 1, i, m =>
    (msgAppend m [intHash.getD i 0]).bind (msgAppendHash intHash n (i + 1))

/-- The bytes of the block of `computeNextIntermediate`. -/
def msgNextBlock (pass salt : List Nat) (inum : Nat) (intHash : List Nat) :
    Except HashError (List Nat) :=
  if inum % 2 = 0 then
    (msgAppendHash intHash HASH_SIZE 0 []).bind fun m =>
    (if inum % 3 ≠ 0 then msgAppend m salt else .ok m).bind fun m =>
    (if inum % 7 ≠ 0 then msgAppend m pass else .ok m).bind fun m =>
    msgAppend m pass
  else
    (msgAppend [] pass).bind fun m =>
    (if inum % 3 ≠ 0 then msgAppend m salt else .ok m).bind fun m =>
    (if inum % 7 ≠ 0 then msgAppend m pass else .ok m).bind fun m =>
    msgAppendHash intHash HASH_SIZE 0 m

/-- The function `computeNextIntermediate` on byte strings. -/
def msgNextIntermediate (pass salt : List Nat) (inum : Nat) (intHash : List Nat) :
    Except HashError (List Nat) :=
  (msgNextBlock pass salt inum intHash).bind msgMd5

/-- The loop `iterate` on byte strings. -/
def msgIterate (pass salt : List Nat) : Nat → Nat → List Nat → Except HashError (List Nat)
  | 0, _, intHash => .ok intHash
  | n + 1, i, intHash =>
    (msgNextIntermediate pass salt i intHash).bind (msgIterate pass salt n (i + 1))

/-- The function `hashPassword` on byte strings. -/
def msgHashPassword (pass salt : List Nat) : Except HashError (List Char) :=
  (msgAppend [] pass).bind fun _ =>
  (msgAlternateHash pass salt).bind fun altHash =>
  (msgFirstIntermediate pass salt altHash).bind fun intHash =>
  (msgIterate pass salt PW_ITERATIONS 0 intHash).bind fun intHash =>
  .ok (hashToString intHash)

/-- The MD5 digest of a byte string `m` of at most 55 bytes: what `md5Hash`
writes to `hash` for a block holding `m`. -/
def md5Msg (m : List Nat) : List Nat := md5Digest (padMsg m)

/-- The bytes that `computeNextIntermediate` digests in iteration `inum`. -/
def nextMsg (pass salt : List Nat) (inum : Nat) (intHash : List Nat) : List Nat :=
  if inum % 2 = 0 then
    intHash ++ ((if inum % 3 ≠ 0 then salt else []) ++
      ((if inum % 7 ≠ 0 then pass else []) ++ pass))
  else
    pass ++ ((if inum % 3 ≠ 0 then salt else []) ++
      ((if inum % 7 ≠ 0 then pass else []) ++ intHash))

/-- The intermediate hash after `n` more iterations, numbered from `i`, when
none of them overflows. -/
def digestIterate (pass salt : List Nat) : Nat → Nat → List Nat → List Nat
  | 0, _, intHash => intHash
  | n + 1, i, intHash => digestIterate pass salt n (i + 1) (md5Msg (nextMsg pass salt i intHash))

/-! ## An evaluator for closed runs

The functions below compute the same values as `md5Digest`, `padMsg`,
`nextMsg` and `digestIterate` (theorems `fastDigest_eq`, `fastNext_eq` and
`fastIterate_eq`), written with the primitive recursor of `Nat` and the
primitive operations of `Nat` so that a closed run of the 1000 iterations
can be evaluated inside a proof. -/

/-- The entry `l[ i ]`, or 0 past the end. -/
def fastNth (l : List Nat) (i : Nat) : Nat :=
  (Nat.rec (motive := fun _ => List Nat → Nat) (fun l => l.headD 0)
    (fun _ ih l => ih l.tail) i) l

/-- The function `arrayF[ r ]`. -/
def fastF (r : Nat) (B C D : Nat) : Nat :=
  Nat.rec (motive := fun _ => Nat)
    (Nat.lor (Nat.land B C) (Nat.land (Nat.xor B (nat_lit 4294967295)) D))
    (fun r _ => Nat.rec (motive := fun _ => Nat)
      (Nat.lor (Nat.land B D) (Nat.land C (Nat.xor D (nat_lit 4294967295))))
      (fun r _ => Nat.rec (motive := fun _ => Nat)
        (Nat.xor (Nat.xor B C) D)
        (fun _ _ => Nat.xor C (Nat.lor B (Nat.xor D (nat_lit 4294967295)))) r) r) r

/-- The function `arrayG[ r ]`. -/
def fastG (r : Nat) (i : Nat) : Nat :=
  Nat.rec (motive := fun _ => Nat) i
    (fun r _ => Nat.rec (motive := fun _ => Nat)
      (Nat.mod (Nat.add (Nat.mul (nat_lit 5) i) (nat_lit 1)) (nat_lit 16))
      (fun r _ => Nat.rec (motive := fun _ => Nat)
        (Nat.mod (Nat.add (Nat.mul (nat_lit 3) i) (nat_lit 5)) (nat_lit 16))
        (fun _ _ => Nat.mod (Nat.mul (nat_lit 7) i) (nat_lit 16)) r) r) r

/-- The function `rotateLeft`. -/
def fastRotate (value s : Nat) : Nat :=
  Nat.lor (Nat.mod (Nat.shiftLeft value s) (nat_lit 4294967296))
    (Nat.shiftRight value (Nat.sub (nat_lit 32) s))

/-- The function `md5Iteration`, given the entries `k` of `md5Noise` and `s` of
`md5Shift` for iteration `i`. -/
def fastStep (M : List Nat) (st : MD5State) (i k s : Nat) : MD5State :=
  MD5State.mk st.D
    (Nat.mod (Nat.add (fastRotate (Nat.mod (Nat.add (Nat.mod (Nat.add (Nat.mod (Nat.add st.A
      (fastF (Nat.div i (nat_lit 16)) st.B st.C st.D)) (nat_lit 4294967296))
      (fastNth M (fastG (Nat.div i (nat_lit 16)) i))) (nat_lit 4294967296)) k)
      (nat_lit 4294967296)) s) st.B) (nat_lit 4294967296))
    st.B st.C

/-- The loop `md5Rounds`, walking down the rest of `md5Noise` and `md5Shift`. -/
def fastRounds (M : List Nat) (n : Nat) : Nat → List Nat → List Nat → MD5State → MD5State :=
  Nat.rec (motive := fun _ => Nat → List Nat → List Nat → MD5State → MD5State)
    (fun _ _ _ st => st)
    (fun _ ih i ks ss st =>
      ih (Nat.add i (nat_lit 1)) ks.tail ss.tail (fastStep M st i (ks.headD 0) (ss.headD 0))) n

/-- The word that `scheduleWord` builds from four consecutive bytes. -/
def fastWord (d0 d1 d2 d3 : Nat) : Nat :=
  Nat.lor (Nat.mod (Nat.shiftLeft (Nat.lor (Nat.mod (Nat.shiftLeft (Nat.lor (Nat.mod
    (Nat.shiftLeft (Nat.lor (nat_lit 0) d3) (nat_lit 8)) (nat_lit 4294967296)) d2) (nat_lit 8))
    (nat_lit 4294967296)) d1) (nat_lit 8)) (nat_lit 4294967296)) d0

/-- The loop `fillSchedule`, walking down the rest of the data. -/
def fastWords (n : Nat) : List Nat → List Nat :=
  Nat.rec (motive := fun _ => List Nat → List Nat) (fun _ => [])
    (fun _ ih d => fastWord (d.headD 0) (d.tail.headD 0) (d.tail.tail.headD 0)
      (d.tail.tail.tail.headD 0) :: ih d.tail.tail.tail.tail) n

/-- The four bytes that `writeHash` writes for one state word. -/
def fastBytes (A : Nat) (rest : List Nat) : List Nat :=
  Nat.mod A (nat_lit 256) ::
  Nat.mod (Nat.shiftRight A (nat_lit 8)) (nat_lit 256) ::
  Nat.mod (Nat.shiftRight (Nat.shiftRight A (nat_lit 8)) (nat_lit 8)) (nat_lit 256) ::
  Nat.mod (Nat.shiftRight (Nat.shiftRight (Nat.shiftRight A (nat_lit 8)) (nat_lit 8))
    (nat_lit 8)) (nat_lit 256) :: rest

/-- The function `md5Digest`. -/
def fastDigest (data : List Nat) : List Nat :=
  (fun st : MD5State =>
    fastBytes (Nat.mod (Nat.add st.A (nat_lit 0x67452301)) (nat_lit 4294967296))
      (fastBytes (Nat.mod (Nat.add st.B (nat_lit 0xefcdab89)) (nat_lit 4294967296))
        (fastBytes (Nat.mod (Nat.add st.C (nat_lit 0x98badcfe)) (nat_lit 4294967296))
          (fastBytes (Nat.mod (Nat.add st.D (nat_lit 0x10325476)) (nat_lit 4294967296)) []))))
    (fastRounds (fastWords (nat_lit 16) data) (nat_lit 64) (nat_lit 0) md5Noise md5Shift
      (MD5State.mk (nat_lit 0x67452301) (nat_lit 0xefcdab89) (nat_lit 0x98badcfe)
        (nat_lit 0x10325476)))

/-- The list `rest` after `k` zero bytes. -/
def fastZeros (k : Nat) (rest : List Nat) : List Nat :=
  Nat.rec (motive := fun _ => List Nat) rest (fun _ ih => (nat_lit 0) :: ih) k

/-- The eight length bytes of `padBlock` for `lenBytes`. -/
def fastLength (lenBytes : Nat) : List Nat :=
  [Nat.land (Nat.shiftRight lenBytes (nat_lit 0)) (nat_lit 255),
   Nat.land (Nat.shiftRight lenBytes (nat_lit 8)) (nat_lit 255),
   Nat.land (Nat.shiftRight lenBytes (nat_lit 16)) (nat_lit 255),
   Nat.land (Nat.shiftRight lenBytes (nat_lit 24)) (nat_lit 255),
   Nat.land (Nat.shiftRight lenBytes (nat_lit 32)) (nat_lit 255),
   Nat.land (Nat.shiftRight lenBytes (nat_lit 40)) (nat_lit 255),
   Nat.land (Nat.shiftRight lenBytes (nat_lit 48)) (nat_lit 255),
   Nat.land (Nat.shiftRight lenBytes (nat_lit 56)) (nat_lit 255)]

/-- What `padMsg` puts after a byte string of length `n`. -/
def fastPadTail (n : Nat) : List Nat :=
  (nat_lit 128) :: fastZeros (Nat.sub (nat_lit 56) (Nat.add n (nat_lit 1)))
    (fastLength (Nat.mod (Nat.mul n (nat_lit 8)) (nat_lit 18446744073709551616)))

/-- The bytes of `a` (at most `fuel` of them), then `k` applied to `n` plus
their number. -/
def fastAppend (fuel : Nat) : List Nat → Nat → (Nat → List Nat) → List Nat :=
  Nat.rec (motive := fun _ => List Nat → Nat → (Nat → List Nat) → List Nat)
    (fun _ n k => k n)
    (fun _ ih a n k =>
      List.casesOn (motive := fun _ => List Nat) a (k n)
        (fun x t => x :: ih t (Nat.add n (nat_lit 1)) k)) fuel

/-- The value `k`, once the number `x` has been evaluated. -/
def seqNat {α : Type} (x : Nat) (k : α) : α :=
  Nat.rec (motive := fun _ => α) k (fun _ _ => k) x

/-- The value `k`, once the first `fuel` entries of `l` have been evaluated. -/
def seqList {α : Type} (fuel : Nat) : List Nat → α → α :=
  Nat.rec (motive := fun _ => List Nat → α → α) (fun _ k => k)
    (fun _ ih l k => seqNat (l.headD 0) (ih l.tail k)) fuel

/-- The padded block `padMsg (nextMsg pass salt inum intHash)`. -/
def fastNext (pass salt : List Nat) (inum : Nat) (intHash : List Nat) : List Nat :=
  if inum % 2 = 0 then
    fastAppend 64 intHash 0 fun n =>
    fastAppend 64 (if inum % 3 ≠ 0 then salt else []) n fun n =>
    fastAppend 64 (if inum % 7 ≠ 0 then pass else []) n fun n =>
    fastAppend 64 pass n fastPadTail
  else
    fastAppend 64 pass 0 fun n =>
    fastAppend 64 (if inum % 3 ≠ 0 then salt else []) n fun n =>
    fastAppend 64 (if inum % 7 ≠ 0 then pass else []) n fun n =>
    fastAppend 64 intHash n fastPadTail

/-- The function `digestIterate`. -/
def fastIterate (pass salt : List Nat) (n : Nat) : Nat → List Nat → List Nat :=
  Nat.rec (motive := fun _ => Nat → List Nat → List Nat) (fun _ intHash => intHash)
    (fun _ ih i intHash =>
      seqList 16 intHash (ih (i + 1) (fastDigest (fastNext pass salt i intHash)))) n

/-! ## What the code is compared with

The buffer invariant, the bytes that `computeFirstIntermediate` digests, the
round functions of MD5 as formulas, and the reading of an output string back
into bytes. -/

/-- The buffer invariant of a block: the array has `BLOCK_SIZE` entries and
`len` does not exceed `BLOCK_SIZE`. -/
def InBounds (b : Block) : Prop := b.data.length = BLOCK_SIZE ∧ b.len ≤ BLOCK_SIZE

/-- The buffer invariant at the end of a run on a block, whether it ends
normally or stops early. -/
def Bounded (r : Except Fault Block) : Prop :=
  match r with
  | .ok b => InBounds b
  | .error f => InBounds f.block

/-- The buffer invariant on the block of an early stop. -/
def FaultInBounds {α : Type} (r : Except Fault α) : Prop :=
  match r with
  | .ok _ => True
  | .error f => InBounds f.block

/-- The bytes that the bit-walk of `computeFirstIntermediate` appends for a
password of `passwordLength` bytes when the byte at index 0 of the block is
`first`: one byte per binary digit of `passwordLength`, from the least
significant digit upward, `0x00` for a digit 1 and `first` for a digit 0. -/
def walkBytes (first passwordLength : Nat) : List Nat :=
  (Nat.digits 2 passwordLength).map fun d => if d = 1 then 0x00 else first

/-- The bytes that `computeFirstIntermediate` digests. -/
def firstMsg (pass salt altHash : List Nat) : List Nat :=
  pass ++ bytesOf "$1$" ++ salt ++ altHash.take pass.length ++
    walkBytes (pass.getD 0 0) pass.length

/-- The round function `F_r` as the specification writes it, on 32-bit
words, `~x` being `2 ^ 32 - 1 - x`. -/
def specF (r B C D : Nat) : Nat :=
  match r with
  | 0 => (B &&& C) ||| ((2 ^ 32 - 1 - B) &&& D)
  | 1 => (B &&& D) ||| (C &&& (2 ^ 32 - 1 - D))
  | 2 => B ^^^ C ^^^ D
  | 3 => C ^^^ (B ||| (2 ^ 32 - 1 - D))
  | _ => 0

/-- The word selection `G_r` as the specification writes it. -/
def specG (r i : Nat) : Nat :=
  match r with
  | 0 => i
  | 1 => (5 * i + 1) % 16
  | 2 => (3 * i + 5) % 16
  | 3 => (7 * i) % 16
  | _ => 0

/-- The index of a character in the alphabet `pwCode64`, as the specification
reads an output character back. -/
def charIndex (c : Char) : Nat := pwCode64.indexOf c

/-- The bytes that a list of 6-bit values stands for, as the specification
reassembles them: four values make three bytes, least significant bits first,
and the last two values make one byte. -/
def decodeGroups : List Nat → List Nat
  | v0 :: v1 :: v2 :: v3 :: rest =>
    let v := v0 + 64 * v1 + 64 ^ 2 * v2 + 64 ^ 3 * v3
    v % 256 :: v / 256 % 256 :: v / 65536 % 256 :: decodeGroups rest
  | [v0, v1] => [(v0 + 64 * v1) % 256]
  | _ => []

/-- The bytes that an output string of `hashToString` stands for, as the
specification reads it back. -/
def decodeString (s : List Char) : List Nat := decodeGroups (s.map charIndex)

/-! ## Counting the calls of `md5Hash`

The functions of `password.c` once more, each passing along the number of
calls of `md5Hash` made so far. -/

/-- The function `md5Hash` with a counter of its calls: `calls` have been made
before this one. -/
def md5HashCounted (block : Block) (calls : Nat) :
    Except Fault ((Block × List Nat) × Nat) :=
  (md5Hash block).bind fun r => .ok (r, calls + 1)

/-- The function `computeAlternateHash` with the counter of `md5Hash` calls. -/
def computeAlternateHashCounted (pass salt : List Nat) (calls : Nat) :
    Except Fault (List Nat × Nat) :=
  let altHashBlock := makeBlock
  (appendString altHashBlock pass).bind fun altHashBlock =>
  (appendString altHashBlock salt).bind fun altHashBlock =>
  (appendString altHashBlock pass).bind fun altHashBlock =>
  (md5HashCounted altHashBlock calls).bind fun r => .ok (r.1.2, r.2)

/-- The function `computeFirstIntermediate` with the counter of `md5Hash`
calls. -/
def computeFirstIntermediateCounted (pass salt altHash : List Nat) (calls : Nat) :
    Except Fault (List Nat × Nat) :=
  (firstIntermediateBlock pass salt altHash).bind fun intHashBlock =>
  (md5HashCounted intHashBlock calls).bind fun r => .ok (r.1.2, r.2)

/-- The function `computeNextIntermediate` with the counter of `md5Hash`
calls. -/
def computeNextIntermediateCounted (pass salt : List Nat) (inum : Nat) (intHash : List Nat)
    (calls : Nat) : Except Fault (List Nat × Nat) :=
  (nextIntermediateBlock pass salt inum intHash).bind fun nextHashBlock =>
  (md5HashCounted nextHashBlock calls).bind fun r => .ok (r.1.2, r.2)

/-- The loop of `hashPassword` over the iterations with the counter of
`md5Hash` calls. -/
def iterateCounted (pass salt : List Nat) :
    Nat → Nat → List Nat → Nat → Except Fault (List Nat × Nat)
  | 0, _, intHash, calls => .ok (intHash, calls)
  | n + 1, i, intHash, calls =>
    (computeNextIntermediateCounted pass salt i intHash calls).bind fun r =>
      iterateCounted pass salt n (i + 1) r.1 r.2

/-- The function `hashPassword` with the counter of `md5Hash` calls, which
starts at 0: the characters stored in `result` and the number of calls. -/
def hashPasswordCounted (pass salt : List Nat) : Except Fault (List Char × Nat) :=
  let b1 := makeBlock
  (appendString b1 pass).bind fun _ =>
  (computeAlternateHashCounted pass salt 0).bind fun r =>
  (computeFirstIntermediateCounted pass salt r.1 r.2).bind fun r =>
  (iterateCounted pass salt PW_ITERATIONS 0 r.1 r.2).bind fun r =>
  .ok (hashToString r.1, r.2)

/-! ## The bit-walk on a frozen copy -/

/-- The block of `computeFirstIntermediate` when it reaches the loop
`while ( passwordLength != 0 )`. -/
def firstBlockBeforeWalk (pass salt altHash : List Nat) : Except Fault Block :=
  let intHashBlock := makeBlock
  let passwordLength := pass.length
  (appendString intHashBlock pass).bind fun intHashBlock =>
  (appendString intHashBlock (bytesOf "$1$")).bind fun intHashBlock =>
  (appendString intHashBlock salt).bind fun intHashBlock =>
  appendAltHash altHash passwordLength 0 intHashBlock

/-- The loop `bitWalk` as the frozen-copy variant has it: a byte copied from
index 0 is read from `frozen`, a copy of the block made before the loop, and
not from the block being filled. -/
def bitWalkFrozen (frozen : Block) : Nat → Nat → Block → Except Fault Block
  | 0, _, block => .ok block
  | fuel + 1, passwordLength, block =>
    if passwordLength ≠ 0 then
      let bit := passwordLength &&& 0x1
      if bit = ZERO_BYTE_FLAG then
        (storeUnchecked block 0x00).bind
          (bitWalkFrozen frozen fuel (passwordLength >>> SINGLE_BIT_MOVEMENT))
      else if bit = FIRST_BYTE_FLAG then
        (storeUnchecked block (frozen.data.getD FIRST_BYTE_OF_BLOCK_DATA_IDX 0)).bind
          (bitWalkFrozen frozen fuel (passwordLength >>> SINGLE_BIT_MOVEMENT))
      else
        bitWalkFrozen frozen fuel passwordLength block
    else
      .ok block

/-- The block that `computeFirstIntermediate` would hand to `md5Hash` if its
loop read a copy of the block frozen before the loop. -/
def firstIntermediateBlockFrozen (pass salt altHash : List Nat) : Except Fault Block :=
  (firstBlockBeforeWalk pass salt altHash).bind fun intHashBlock =>
  bitWalkFrozen intHashBlock pass.length pass.length intHashBlock

/-! ## Blocks and the bytes they hold -/

theorem holds_length_le {b : Block} {m : List Nat} (h : Holds b m) : m.length ≤ 64 := by
  obtain ⟨h1, h2, h3⟩ := h
  have := congrArg List.length h3
  simp [List.length_take, BLOCK_SIZE] at *
  omega

theorem holds_makeBlock : Holds makeBlock [] := by
  simp [Holds, makeBlock, BLOCK_SIZE]

theorem take_set_self (l : List Nat) (n a : Nat) : (l.set n a).take n = l.take n := by
  rw [List.set_take]
  exact List.set_eq_of_length_le (by simp)

theorem holds_storeNext {b : Block} {m : List Nat} (x : Nat) (h : Holds b m)
    (hlt : m.length < 64) : Holds (storeNext b x) (m ++ [x]) := by
  obtain ⟨h1, h2, h3⟩ := h
  simp only [BLOCK_SIZE] at h1
  refine ⟨by simp [storeNext, h1, BLOCK_SIZE], by simp [storeNext, h2], ?_⟩
  have hl : b.len < (b.data.set b.len x).length := by simp; omega
  simp only [storeNext]
  rw [← List.take_concat_get _ _ hl]
  simp [take_set_self, h3]

theorem holds_appendStringLoop (s : List Nat) : ∀ {b : Block} {m : List Nat}, Holds b m →
    m.length + s.length ≤ 64 → Holds (appendStringLoop s b) (m ++ s) := by
  induction s with
  | nil => intro b m h _; simpa [appendStringLoop] using h
  | cons c rest ih =>
    intro b m h hle
    simp only [List.length_cons] at hle
    have := ih (holds_storeNext c h (by omega)) (by simp; omega)
    simpa [appendStringLoop] using this

theorem holds_of_sim {b : Block} {m : List Nat} (h : Sim (.ok b) (.ok m)) : Holds b m := by
  cases h; assumption

theorem sim_bind {r : Except Fault Block} {q : Except HashError (List Nat)}
    {f : Block → Except Fault Block} {g : List Nat → Except HashError (List Nat)}
    (h : Sim r q) (hfg : ∀ b m, Holds b m → Sim (f b) (g m)) : Sim (r.bind f) (q.bind g) := by
  cases h with
  | ok hh => exact hfg _ _ hh
  | error he => exact Sim.error he

theorem kindOf_bind {α : Type} {r : Except Fault Block} {q : Except HashError (List Nat)}
    {f : Block → Except Fault α} {g : List Nat → Except HashError α}
    (h : Sim r q) (hfg : ∀ b m, Holds b m → kindOf (f b) = g m) :
    kindOf (r.bind f) = q.bind g := by
  cases h with
  | ok hh => exact hfg _ _ hh
  | error he => exact congrArg Except.error he

theorem kindOf_bind_eq {α β : Type} {r : Except Fault α} {q : Except HashError α}
    {f : α → Except Fault β} {g : α → Except HashError β}
    (h : kindOf r = q) (hfg : ∀ a, kindOf (f a) = g a) :
    kindOf (r.bind f) = q.bind g := by
  subst h
  cases r with
  | ok a => exact hfg a
  | error e => rfl

theorem sim_appendByte {b : Block} {m : List Nat} (x : Nat) (h : Holds b m) :
    Sim (appendByte b x) (msgAppend m [x]) := by
  have h2 := h.2.1
  by_cases hlt : m.length < 64
  · have : ¬ (m.length + 1 > 64) := by omega
    simp only [appendByte, msgAppend, BLOCK_SIZE, h2, List.length_singleton, this, if_false]
    exact Sim.ok (holds_storeNext x h hlt)
  · have : m.length + 1 > 64 := by omega
    simp only [appendByte, msgAppend, BLOCK_SIZE, h2, List.length_singleton, this, if_true]
    exact Sim.error rfl

theorem sim_appendString {b : Block} {m : List Nat} (s : List Nat) (h : Holds b m) :
    Sim (appendString b s) (msgAppend m s) := by
  have h2 := h.2.1
  by_cases hle : m.length + s.length ≤ 64
  · have : ¬ (m.length + s.length > 64) := by omega
    simp only [appendString, msgAppend, BLOCK_SIZE, h2, this, if_false]
    exact Sim.ok (holds_appendStringLoop s h hle)
  · have : m.length + s.length > 64 := by omega
    simp only [appendString, msgAppend, BLOCK_SIZE, h2, this, if_true]
    exact Sim.error rfl

theorem padZeros_holds : ∀ (fuel : Nat) {b : Block} {m : List Nat}, Holds b m →
    fuel = 56 - m.length →
    ∃ b', padZeros fuel b = .ok b' ∧ Holds b' (m ++ List.replicate fuel 0) := by
  intro fuel
  induction fuel with
  | zero => intro b m h _; exact ⟨b, rfl, by simpa using h⟩
  | succ fuel ih =>
    intro b m h hf
    have h2 := h.2.1
    have hlt : b.len < 56 := by omega
    obtain ⟨b', hb', hh⟩ := ih (holds_storeNext 0 h (by omega)) (by simp; omega)
    refine ⟨b', ?_, ?_⟩
    · simp only [padZeros, BLOCK_ZERO_PADDING_LIMIT, hlt, if_true, BLOCK_DATA_PADDING]
      have : appendByte b 0 = .ok (storeNext b 0) := by
        simp [appendByte, BLOCK_SIZE]; omega
      rw [this]
      exact hb'
    · simpa [List.replicate_succ] using hh

theorem sim_padLength (lenBytes : Nat) : ∀ (n i : Nat) {b : Block} {m : List Nat}, Holds b m →
    Sim (padLength lenBytes n i b)
      (if m.length + n ≤ 64 then .ok (m ++ msgLength lenBytes n i) else .error .blockOverflow) := by
  intro n
  induction n with
  | zero =>
    intro i b m h
    have := holds_length_le h
    simpa [padLength, msgLength, this] using Sim.ok h
  | succ n ih =>
    intro i b m h
    have hs := sim_appendByte ((lenBytes >>> (BITS_IN_A_BYTE * i)) &&& 0xFF) h
    have := sim_bind hs (fun b1 m1 h1 => ih (i + 1) h1)
    simp only [padLength]
    convert this using 1
    simp only [msgAppend, BLOCK_SIZE, List.length_singleton, msgLength]
    by_cases h1 : m.length + 1 > 64
    · have h2 : ¬ (m.length + (n + 1) ≤ 64) := by omega
      simp [h1, h2, Except.bind]
    · simp only [h1, if_false, Except.bind, List.length_append, List.length_singleton,
        List.append_assoc, List.singleton_append]
      have : (m.length + 1 + n ≤ 64) ↔ (m.length + (n + 1) ≤ 64) := by omega
      simp only [this]

theorem sim_padBlock {b : Block} {m : List Nat} (h : Holds b m) :
    Sim (padBlock b) (msgPad m) := by
  have h2 := h.2.1
  have hle := holds_length_le h
  simp only [padBlock, msgPad]
  by_cases h64 : m.length < 64
  · have hb : appendByte b FIRST_VALUE_AFTER_DATA = .ok (storeNext b FIRST_VALUE_AFTER_DATA) := by
      simp [appendByte, BLOCK_SIZE]; omega
    have h1 := holds_storeNext FIRST_VALUE_AFTER_DATA h h64
    obtain ⟨b2, hb2, hh2⟩ := padZeros_holds (56 - (m ++ [FIRST_VALUE_AFTER_DATA]).length) h1 rfl
    have hlen : (storeNext b FIRST_VALUE_AFTER_DATA).len = (m ++ [FIRST_VALUE_AFTER_DATA]).length :=
      h1.2.1
    have h3 := sim_padLength ((b.len * BITS_IN_A_BYTE) % 2 ^ 64) BITS_IN_A_BYTE 0 hh2
    simp only [hb, Except.bind, BLOCK_ZERO_PADDING_LIMIT, hlen, hb2]
    convert h3 using 1
    by_cases h55 : m.length ≤ 55
    · rw [if_pos h55, if_pos (by simp [BITS_IN_A_BYTE]; omega)]
      simp [padMsg, BLOCK_ZERO_PADDING_LIMIT, BLOCK_DATA_PADDING, BITS_IN_A_BYTE, h2]
    · rw [if_neg h55, if_neg (by simp [BITS_IN_A_BYTE]; omega)]
  · have hb : appendByte b FIRST_VALUE_AFTER_DATA =
        .error { error := .blockOverflow, block := b } := by
      simp [appendByte, BLOCK_SIZE]; omega
    have : ¬ (m.length ≤ 55) := by omega
    simp only [hb, Except.bind, this, if_false]
    exact Sim.error rfl

theorem padMsg_length {m : List Nat} (h : m.length ≤ 55) : (padMsg m).length = 64 := by
  have : ∀ lb n i, (msgLength lb n i).length = n := by
    intro lb n
    induction n with
    | zero => intro i; rfl
    | succ n ih => intro i; simp [msgLength, ih]
  simp [padMsg, this, BLOCK_ZERO_PADDING_LIMIT, BITS_IN_A_BYTE]
  omega

theorem kindOf_md5Hash {b : Block} {m : List Nat} (h : Holds b m) :
    kindOf ((md5Hash b).bind fun r => .ok r.2) = msgMd5 m := by
  have hs := sim_padBlock h
  simp only [md5Hash, msgMd5]
  by_cases h55 : m.length ≤ 55
  · simp only [msgPad, h55, if_true] at hs ⊢
    cases hp : padBlock b with
    | error f => rw [hp] at hs; cases hs
    | ok b' =>
      rw [hp] at hs
      have hh : Holds b' (padMsg m) := holds_of_sim hs
      have hl := padMsg_length h55
      have hd : b'.data = padMsg m := by
        obtain ⟨h1, h2, h3⟩ := hh
        rw [← h3, h2, hl]
        exact (List.take_of_length_le (by simp [h1, BLOCK_SIZE])).symm
      simp [Except.bind, kindOf, hd]
  · simp only [msgPad, h55, if_false] at hs ⊢
    cases hp : padBlock b with
    | error f =>
      rw [hp] at hs
      cases hs with
      | error he => exact congrArg Except.error he
    | ok b' => rw [hp] at hs; cases hs

/-! ## `password.c` on blocks and on byte strings -/

theorem sim_bind_ok {r : Except Fault Block} {q : Except HashError (List Nat)}
    {f : Block → Except Fault Block} {g : List Nat → Except HashError (List Nat)}
    (h : Sim r q) (hfg : ∀ b m, Holds b m → q = .ok m → Sim (f b) (g m)) :
    Sim (r.bind f) (q.bind g) := by
  cases h with
  | ok hh => exact hfg _ _ hh rfl
  | error he => exact Sim.error he

theorem msgAppend_ok {m s m' : List Nat} (h : msgAppend m s = .ok m') : m' = m ++ s := by
  unfold msgAppend at h
  split at h
  · cases h
  · cases h; rfl

theorem sim_appendAltHash (altHash : List Nat) : ∀ (n i : Nat) {b : Block} {m : List Nat},
    Holds b m → Sim (appendAltHash altHash n i b) (msgAppendAltHash altHash n i m) := by
  intro n
  induction n with
  | zero => intro i b m h; exact Sim.ok h
  | succ n ih =>
    intro i b m h
    simp only [appendAltHash, msgAppendAltHash]
    split
    · exact sim_bind (sim_appendByte _ h) (fun b1 m1 h1 => ih (i + 1) h1)
    · exact Sim.error rfl

theorem msgAppendAltHash_ne_nil (altHash : List Nat) : ∀ (n i : Nat) {m m' : List Nat},
    msgAppendAltHash altHash n i m = .ok m' → m ≠ [] → m' ≠ [] := by
  intro n
  induction n with
  | zero => intro i m m' h hm; cases h; exact hm
  | succ n ih =>
    intro i m m' h hm
    simp only [msgAppendAltHash] at h
    split at h
    · cases h1 : msgAppend m [altHash.getD i 0] with
      | error e => rw [h1] at h; cases h
      | ok m1 =>
        rw [h1] at h
        have := msgAppend_ok h1
        exact ih (i + 1) h (by simp [this])
    · cases h

theorem sim_storeUnchecked {b : Block} {m : List Nat} (x : Nat) (h : Holds b m) :
    Sim (storeUnchecked b x) (msgStoreUnchecked m x) := by
  obtain ⟨h1, h2, h3⟩ := h
  by_cases hlt : m.length < 64
  · have : b.len < b.data.length := by rw [h1, h2]; exact hlt
    simp only [storeUnchecked, msgStoreUnchecked, this, if_true, BLOCK_SIZE, hlt]
    exact Sim.ok (holds_storeNext x ⟨h1, h2, h3⟩ hlt)
  · have : ¬ (b.len < b.data.length) := by rw [h1, h2]; exact hlt
    simp only [storeUnchecked, msgStoreUnchecked, this, if_false, BLOCK_SIZE, hlt]
    exact Sim.error rfl

theorem holds_getD_zero {b : Block} {m : List Nat} (h : Holds b m) (hm : m ≠ []) :
    b.data.getD 0 0 = m.getD 0 0 := by
  obtain ⟨h1, h2, h3⟩ := h
  subst h3
  cases hd : b.data with
  | nil => simp [hd] at hm
  | cons x t =>
    cases hl : b.len with
    | zero => simp [hl] at hm
    | succ k => simp

theorem msgStoreUnchecked_ne_nil {m m' : List Nat} {x : Nat}
    (h : msgStoreUnchecked m x = .ok m') : m' ≠ [] := by
  unfold msgStoreUnchecked at h
  split at h
  · cases h; simp
  · cases h

theorem sim_bitWalk : ∀ (fuel passwordLength : Nat) {b : Block} {m : List Nat},
    Holds b m → m ≠ [] → Sim (bitWalk fuel passwordLength b) (msgBitWalk fuel passwordLength m) := by
  intro fuel
  induction fuel with
  | zero => intro pl b m h _; exact Sim.ok h
  | succ fuel ih =>
    intro pl b m h hm
    simp only [bitWalk, msgBitWalk]
    split
    · split
      · exact sim_bind_ok (sim_storeUnchecked _ h)
          (fun b1 m1 h1 hq => ih _ h1 (msgStoreUnchecked_ne_nil hq))
      · split
        · rw [show b.data.getD FIRST_BYTE_OF_BLOCK_DATA_IDX 0 = m.getD FIRST_BYTE_OF_BLOCK_DATA_IDX 0
            from holds_getD_zero h hm]
          exact sim_bind_ok (sim_storeUnchecked _ h)
            (fun b1 m1 h1 hq => ih _ h1 (msgStoreUnchecked_ne_nil hq))
        · exact ih _ h hm
    · exact Sim.ok h

theorem sim_firstIntermediateBlock (pass salt altHash : List Nat) :
    Sim (firstIntermediateBlock pass salt altHash) (msgFirstBlock pass salt altHash) := by
  simp only [firstIntermediateBlock, msgFirstBlock]
  refine sim_bind (sim_appendString _ holds_makeBlock) (fun b1 m1 h1 => ?_)
  refine sim_bind_ok (sim_appendString _ h1) (fun b2 m2 h2 hq2 => ?_)
  have hm2 : m2 ≠ [] := by rw [msgAppend_ok hq2]; simp [bytesOf]
  refine sim_bind_ok (sim_appendString _ h2) (fun b3 m3 h3 hq3 => ?_)
  have hm3 : m3 ≠ [] := by rw [msgAppend_ok hq3]; simp [hm2]
  refine sim_bind_ok (sim_appendAltHash altHash pass.length 0 h3) (fun b4 m4 h4 hq4 => ?_)
  exact sim_bitWalk pass.length pass.length h4 (msgAppendAltHash_ne_nil altHash pass.length 0 hq4 hm3)

theorem sim_appendHash (intHash : List Nat) : ∀ (n i : Nat) {b : Block} {m : List Nat},
    Holds b m → Sim (appendHash intHash n i b) (msgAppendHash intHash n i m) := by
  intro n
  induction n with
  | zero => intro i b m h; exact Sim.ok h
  | succ n ih =>
    intro i b m h
    simp only [appendHash, msgAppendHash]
    exact sim_bind (sim_appendByte _ h) (fun b1 m1 h1 => ih (i + 1) h1)

theorem sim_nextIntermediateBlock (pass salt : List Nat) (inum : Nat) (intHash : List Nat) :
    Sim (nextIntermediateBlock pass salt inum intHash) (msgNextBlock pass salt inum intHash) := by
  simp only [nextIntermediateBlock, msgNextBlock]
  split
  · refine sim_bind (sim_appendHash intHash HASH_SIZE 0 holds_makeBlock) (fun b1 m1 h1 => ?_)
    refine sim_bind ?_ (fun b2 m2 h2 => ?_)
    · split
      · exact sim_appendString _ h1
      · exact Sim.ok h1
    refine sim_bind ?_ (fun b3 m3 h3 => ?_)
    · split
      · exact sim_appendString _ h2
      · exact Sim.ok h2
    exact sim_appendString _ h3
  · refine sim_bind (sim_appendString _ holds_makeBlock) (fun b1 m1 h1 => ?_)
    refine sim_bind ?_ (fun b2 m2 h2 => ?_)
    · split
      · exact sim_appendString _ h1
      · exact Sim.ok h1
    refine sim_bind ?_ (fun b3 m3 h3 => ?_)
    · split
      · exact sim_appendString _ h2
      · exact Sim.ok h2
    exact sim_appendHash intHash HASH_SIZE 0 h3

theorem kindOf_computeAlternateHash (pass salt : List Nat) :
    kindOf (computeAlternateHash pass salt) = msgAlternateHash pass salt := by
  simp only [computeAlternateHash, msgAlternateHash]
  have hs : Sim ((appendString makeBlock pass).bind fun b =>
      (appendString b salt).bind fun b => appendString b pass)
      ((msgAppend [] pass).bind fun m => (msgAppend m salt).bind fun m => msgAppend m pass) :=
    sim_bind (sim_appendString _ holds_makeBlock) (fun b1 m1 h1 =>
      sim_bind (sim_appendString _ h1) (fun b2 m2 h2 => sim_appendString _ h2))
  have := kindOf_bind (α := List Nat) hs (fun b m h => kindOf_md5Hash h)
  convert this using 1
  · congr 1
    cases appendString makeBlock pass with
    | error e => rfl
    | ok b1 =>
      simp only [Except.bind]
      cases appendString b1 salt with
      | error e => rfl
      | ok b2 => rfl
  · cases msgAppend [] pass with
    | error e => rfl
    | ok m1 =>
      simp only [Except.bind]
      cases msgAppend m1 salt with
      | error e => rfl
      | ok m2 => rfl

theorem kindOf_computeFirstIntermediate (pass salt altHash : List Nat) :
    kindOf (computeFirstIntermediate pass salt altHash) =
      msgFirstIntermediate pass salt altHash :=
  kindOf_bind (sim_firstIntermediateBlock pass salt altHash) (fun _ _ h => kindOf_md5Hash h)

theorem kindOf_computeNextIntermediate (pass salt : List Nat) (inum : Nat) (intHash : List Nat) :
    kindOf (computeNextIntermediate pass salt inum intHash) =
      msgNextIntermediate pass salt inum intHash :=
  kindOf_bind (sim_nextIntermediateBlock pass salt inum intHash) (fun _ _ h => kindOf_md5Hash h)

theorem kindOf_iterate (pass salt : List Nat) : ∀ (n i : Nat) (intHash : List Nat),
    kindOf (iterate pass salt n i intHash) = msgIterate pass salt n i intHash := by
  intro n
  induction n with
  | zero => intro i h; rfl
  | succ n ih =>
    intro i h
    exact kindOf_bind_eq (kindOf_computeNextIntermediate pass salt i h) (fun a => ih (i + 1) a)

theorem kindOf_hashPassword (pass salt : List Nat) :
    kindOf (hashPassword pass salt) = msgHashPassword pass salt := by
  simp only [hashPassword, msgHashPassword]
  refine kindOf_bind (sim_appendString _ holds_makeBlock) (fun _ _ _ => ?_)
  refine kindOf_bind_eq (kindOf_computeAlternateHash pass salt) (fun altHash => ?_)
  refine kindOf_bind_eq (kindOf_computeFirstIntermediate pass salt altHash) (fun intHash => ?_)
  exact kindOf_bind_eq (kindOf_iterate pass salt _ _ intHash) (fun _ => rfl)

/-! ## Closed forms on byte strings -/

theorem writeHash_length : ∀ (n i : Nat) (st : MD5State), (writeHash n i st).length = n := by
  intro n
  induction n with
  | zero => intro i st; rfl
  | succ n ih =>
    intro i st
    simp only [writeHash]
    split
    · simp [ih]
    · split
      · simp [ih]
      · split <;> simp [ih]

theorem md5Digest_length (data : List Nat) : (md5Digest data).length = 16 := by
  simp [md5Digest, writeHash_length, HASH_SIZE]

theorem md5Msg_length (m : List Nat) : (md5Msg m).length = 16 := md5Digest_length _

theorem msgMd5_eq (m : List Nat) :
    msgMd5 m = if m.length ≤ 55 then .ok (md5Msg m) else .error .blockOverflow := by
  simp only [msgMd5, msgPad, md5Msg]
  split <;> rfl

theorem msgAppend_nil_right {m : List Nat} (h : m.length ≤ 64) : msgAppend m [] = .ok m := by
  simp [msgAppend, BLOCK_SIZE]; omega

theorem msgAppend_bind (m a b : List Nat) :
    ((msgAppend m a).bind fun m1 => msgAppend m1 b) = msgAppend m (a ++ b) := by
  simp only [msgAppend, BLOCK_SIZE]
  by_cases h1 : m.length + a.length > 64
  · have h2 : m.length + (a ++ b).length > 64 := by simp; omega
    simp only [h1, h2, if_true]
    rfl
  · simp only [h1, if_false, Except.bind, List.length_append, List.append_assoc]
    have : (m.length + a.length + b.length > 64) ↔ (m.length + (a.length + b.length) > 64) := by
      omega
    simp only [this]

theorem msgAppend_ok_le {m s m' : List Nat} (h : msgAppend m s = .ok m') : m'.length ≤ 64 := by
  unfold msgAppend at h
  split at h
  · cases h
  · cases h; simp [BLOCK_SIZE] at *; omega

theorem msgAppend_bind_gen {α : Type} (m a b : List Nat) (g : List Nat → Except HashError α) :
    ((msgAppend m a).bind fun m1 => (msgAppend m1 b).bind g) = (msgAppend m (a ++ b)).bind g := by
  rw [← msgAppend_bind]
  cases msgAppend m a <;> rfl

theorem msgAppend_ite (c : Prop) [Decidable c] {m : List Nat} (s : List Nat)
    (h : m.length ≤ 64) :
    (if c then msgAppend m s else .ok m) = msgAppend m (if c then s else []) := by
  split
  · rfl
  · exact (msgAppend_nil_right h).symm

theorem msgAppendHash_eq (intHash : List Nat) : ∀ (n i : Nat) (m : List Nat),
    i + n ≤ intHash.length → m.length ≤ 64 →
    msgAppendHash intHash n i m = msgAppend m ((intHash.drop i).take n) := by
  intro n
  induction n with
  | zero => intro i m _ hm; simp [msgAppendHash, msgAppend_nil_right hm]
  | succ n ih =>
    intro i m hi hm
    have hlt : i < intHash.length := by omega
    have hd : (intHash.drop i).take (n + 1) = [intHash.getD i 0] ++ (intHash.drop (i + 1)).take n := by
      rw [List.drop_eq_getElem_cons hlt]
      simp only [List.take_succ_cons, List.singleton_append, List.getD_eq_getElem?_getD,
        List.getElem?_eq_getElem hlt, Option.getD_some]
    simp only [msgAppendHash]
    rw [hd, ← msgAppend_bind]
    cases h1 : msgAppend m [intHash.getD i 0] with
    | error e => rfl
    | ok m1 => exact ih (i + 1) m1 (by omega) (msgAppend_ok_le h1)

theorem msgAppendAltHash_eq (altHash : List Nat) : ∀ (n i : Nat) (m : List Nat),
    i + n ≤ altHash.length → m.length ≤ 64 →
    msgAppendAltHash altHash n i m = msgAppend m ((altHash.drop i).take n) := by
  intro n
  induction n with
  | zero => intro i m _ hm; simp [msgAppendAltHash, msgAppend_nil_right hm]
  | succ n ih =>
    intro i m hi hm
    have hlt : i < altHash.length := by omega
    have hd : (altHash.drop i).take (n + 1) = [altHash.getD i 0] ++ (altHash.drop (i + 1)).take n := by
      rw [List.drop_eq_getElem_cons hlt]
      simp only [List.take_succ_cons, List.singleton_append, List.getD_eq_getElem?_getD,
        List.getElem?_eq_getElem hlt, Option.getD_some]
    simp only [msgAppendAltHash, hlt, if_true]
    rw [hd, ← msgAppend_bind]
    cases h1 : msgAppend m [altHash.getD i 0] with
    | error e => rfl
    | ok m1 => exact ih (i + 1) m1 (by omega) (msgAppend_ok_le h1)

theorem msgAppend_nil_left (s : List Nat) :
    msgAppend [] s = if s.length ≤ 64 then .ok s else .error .blockOverflow := by
  simp only [msgAppend, BLOCK_SIZE, List.length_nil, Nat.zero_add, List.nil_append]
  by_cases h : s.length ≤ 64
  · have : ¬ (s.length > 64) := by omega
    simp [h, this]
  · have : s.length > 64 := by omega
    simp [h, this]

theorem ok_bind {ε α β : Type} (a : α) (f : α → Except ε β) :
    (Except.ok a : Except ε α).bind f = f a := by
  unfold Except.bind
  rfl

theorem error_bind {ε α β : Type} (e : ε) (f : α → Except ε β) :
    (Except.error e : Except ε α).bind f = .error e := by
  unfold Except.bind
  rfl

theorem msgAppendHash_sixteen {intHash : List Nat} (hh : intHash.length = 16) (m : List Nat) :
    msgAppendHash intHash HASH_SIZE 0 m = msgAppend m intHash := by
  have hd : intHash = [intHash.getD 0 0] ++ (intHash.drop 1).take 15 := by
    cases intHash with
    | nil => simp at hh
    | cons x t =>
      simp only [List.length_cons] at hh
      simp [List.take_of_length_le, show t.length ≤ 15 by omega]
  have e16 : HASH_SIZE = 15 + 1 := rfl
  rw [e16]
  simp only [msgAppendHash]
  conv => rhs; rw [hd, ← msgAppend_bind]
  cases h1 : msgAppend m [intHash.getD 0 0] with
  | error e => rw [error_bind, error_bind]
  | ok m1 =>
    rw [ok_bind, ok_bind]
    exact msgAppendHash_eq intHash 15 1 m1 (by omega) (msgAppend_ok_le h1)

theorem msgNextBlock_eq (pass salt : List Nat) (inum : Nat) {intHash : List Nat}
    (hh : intHash.length = 16) :
    msgNextBlock pass salt inum intHash = msgAppend [] (nextMsg pass salt inum intHash) := by
  simp only [msgNextBlock, nextMsg, msgAppendHash_sixteen hh]
  split_ifs <;> simp only [ok_bind, msgAppend_bind, List.nil_append, List.append_assoc]

theorem msgNextIntermediate_eq (pass salt : List Nat) (inum : Nat) {intHash : List Nat}
    (hh : intHash.length = 16) :
    msgNextIntermediate pass salt inum intHash =
      if (nextMsg pass salt inum intHash).length ≤ 55 then
        .ok (md5Msg (nextMsg pass salt inum intHash))
      else .error .blockOverflow := by
  simp only [msgNextIntermediate, msgNextBlock_eq pass salt inum hh, msgAppend_nil_left]
  by_cases h64 : (nextMsg pass salt inum intHash).length ≤ 64
  · simp only [h64, if_true, Except.bind, msgMd5_eq]
  · have : ¬ ((nextMsg pass salt inum intHash).length ≤ 55) := by omega
    simp only [h64, this, if_false]
    rfl

theorem nextMsg_length_le (pass salt : List Nat) (inum : Nat) (intHash : List Nat) :
    (nextMsg pass salt inum intHash).length ≤ intHash.length + salt.length + 2 * pass.length := by
  simp only [nextMsg]
  split <;> split <;> split <;> simp <;> omega

theorem msgIterate_eq (pass salt : List Nat) (hle : 2 * pass.length + salt.length ≤ 39) :
    ∀ (n i : Nat) (intHash : List Nat), intHash.length = 16 →
    msgIterate pass salt n i intHash = .ok (digestIterate pass salt n i intHash) := by
  intro n
  induction n with
  | zero => intro i h _; rfl
  | succ n ih =>
    intro i h hh
    have hl := nextMsg_length_le pass salt i h
    have : (nextMsg pass salt i h).length ≤ 55 := by omega
    simp only [msgIterate, digestIterate, msgNextIntermediate_eq pass salt i hh, this, if_true,
      Except.bind]
    exact ih (i + 1) _ (md5Msg_length _)

theorem digestIterate_length (pass salt : List Nat) : ∀ (n i : Nat) (intHash : List Nat),
    intHash.length = 16 → (digestIterate pass salt n i intHash).length = 16 := by
  intro n
  induction n with
  | zero => intro i h hh; exact hh
  | succ n ih => intro i h _; exact ih (i + 1) _ (md5Msg_length _)

theorem msgAppend_of_le {m s : List Nat} (h : m.length + s.length ≤ 64) :
    msgAppend m s = .ok (m ++ s) := by
  have : ¬ (m.length + s.length > 64) := by omega
  simp only [msgAppend, BLOCK_SIZE, this, if_false]

theorem msgAppend_of_gt {m s : List Nat} (h : 64 < m.length + s.length) :
    msgAppend m s = .error .blockOverflow := by
  have : m.length + s.length > 64 := h
  simp only [msgAppend, BLOCK_SIZE, this, if_true]

theorem msgAlternateHash_eq (pass salt : List Nat) :
    msgAlternateHash pass salt =
      if 2 * pass.length + salt.length ≤ 55 then .ok (md5Msg (pass ++ (salt ++ pass)))
      else .error .blockOverflow := by
  have e : msgAlternateHash pass salt = (msgAppend [] (pass ++ (salt ++ pass))).bind msgMd5 := by
    simp only [msgAlternateHash]
    rw [msgAppend_bind_gen, msgAppend_bind_gen, List.append_assoc]
  rw [e, msgAppend_nil_left]
  have hl : (pass ++ (salt ++ pass)).length = 2 * pass.length + salt.length := by
    simp; omega
  by_cases h64 : 2 * pass.length + salt.length ≤ 64
  · rw [if_pos (by omega), ok_bind, msgMd5_eq, hl]
  · rw [if_neg (by omega), error_bind, if_neg (by omega)]

theorem and_one_cases (n : Nat) : n &&& 1 = 0 ∨ n &&& 1 = 1 := by
  rw [Nat.and_one_is_mod]
  omega

theorem msgBitWalk_ok : ∀ (fuel passwordLength k : Nat) (m : List Nat),
    passwordLength ≤ fuel → passwordLength < 2 ^ k → m.length + k ≤ 64 →
    ∃ m', msgBitWalk fuel passwordLength m = .ok m' ∧ m.length ≤ m'.length ∧
      m'.length ≤ m.length + k := by
  intro fuel
  induction fuel with
  | zero =>
    intro pl k m h0 _ _
    exact ⟨m, rfl, Nat.le_refl _, by omega⟩
  | succ fuel ih =>
    intro pl k m hf hk hm
    by_cases hz : pl = 0
    · subst hz
      exact ⟨m, by simp [msgBitWalk], Nat.le_refl _, by omega⟩
    · have hk1 : 1 ≤ k := by
        cases k with
        | zero => simp at hk; omega
        | succ k => omega
      obtain ⟨k', rfl⟩ : ∃ k', k = k' + 1 := ⟨k - 1, by omega⟩
      have hpl : pl >>> SINGLE_BIT_MOVEMENT ≤ fuel := by
        simp only [SINGLE_BIT_MOVEMENT, Nat.shiftRight_eq_div_pow, pow_one]
        omega
      have hpk : pl >>> SINGLE_BIT_MOVEMENT < 2 ^ k' := by
        simp only [SINGLE_BIT_MOVEMENT, Nat.shiftRight_eq_div_pow, pow_one]
        rw [pow_succ] at hk
        omega
      have hstore : ∀ x, msgStoreUnchecked m x = .ok (m ++ [x]) := by
        intro x
        have : m.length < 64 := by omega
        simp only [msgStoreUnchecked, BLOCK_SIZE, this, if_true]
      have key : ∀ x, ∃ m', msgBitWalk fuel (pl >>> SINGLE_BIT_MOVEMENT) (m ++ [x]) = .ok m' ∧
          m.length ≤ m'.length ∧ m'.length ≤ m.length + (k' + 1) := by
        intro x
        obtain ⟨m', h1, h2, h3⟩ := ih (pl >>> SINGLE_BIT_MOVEMENT) k' (m ++ [x]) hpl hpk
          (by simp; omega)
        simp only [List.length_append, List.length_singleton] at h2 h3
        exact ⟨m', h1, by omega, by omega⟩
      simp only [msgBitWalk, hz, ne_eq, not_false_eq_true, if_true, ZERO_BYTE_FLAG,
        FIRST_BYTE_FLAG]
      rcases and_one_cases pl with h0 | h1
      · rw [if_neg (by omega), if_pos h0, hstore, ok_bind]
        exact key _
      · rw [if_pos h1, hstore, ok_bind]
        exact key _

theorem msgFirstBlock_ok (pass salt altHash : List Nat) (hp : pass.length ≤ 16)
    (ha : altHash.length = 16) (hle : 2 * pass.length + salt.length ≤ 55) :
    ∃ m', msgFirstBlock pass salt altHash = .ok m' ∧
      2 * pass.length + salt.length + 3 ≤ m'.length ∧
      m'.length ≤ 2 * pass.length + salt.length + 8 := by
  have h3 : (bytesOf "$1$").length = 3 := by decide
  have e1 : msgAppend [] pass = .ok pass := by
    rw [msgAppend_of_le (by simp; omega)]; rfl
  have e2 : msgAppend pass (bytesOf "$1$") = .ok (pass ++ bytesOf "$1$") :=
    msgAppend_of_le (by rw [h3]; omega)
  have e3 : msgAppend (pass ++ bytesOf "$1$") salt = .ok (pass ++ bytesOf "$1$" ++ salt) :=
    msgAppend_of_le (by simp [h3]; omega)
  have e4 : msgAppendAltHash altHash pass.length 0 (pass ++ bytesOf "$1$" ++ salt) =
      .ok (pass ++ bytesOf "$1$" ++ salt ++ (altHash.drop 0).take pass.length) := by
    rw [msgAppendAltHash_eq altHash pass.length 0 _ (by omega) (by simp [h3]; omega)]
    exact msgAppend_of_le (by simp [h3, ha]; omega)
  obtain ⟨m', hm, hlo, hhi⟩ := msgBitWalk_ok pass.length pass.length 5
    (pass ++ bytesOf "$1$" ++ salt ++ (altHash.drop 0).take pass.length) (Nat.le_refl _)
    (by norm_num; omega) (by simp [h3, ha]; omega)
  refine ⟨m', ?_, ?_, ?_⟩
  · simp only [msgFirstBlock]
    rw [e1, ok_bind, e2, ok_bind, e3, ok_bind, e4, ok_bind]
    exact hm
  · simp [h3, ha] at hlo; omega
  · simp [h3, ha] at hhi; omega

theorem msgFirstIntermediate_cases (pass salt altHash : List Nat) (hp : pass.length ≤ 16)
    (ha : altHash.length = 16) (hle : 2 * pass.length + salt.length ≤ 55) :
    (∃ h, msgFirstIntermediate pass salt altHash = .ok h ∧ h.length = 16) ∨
      (47 < 2 * pass.length + salt.length ∧
        msgFirstIntermediate pass salt altHash = .error .blockOverflow) := by
  obtain ⟨m', hm, _, hhi⟩ := msgFirstBlock_ok pass salt altHash hp ha hle
  simp only [msgFirstIntermediate]
  rw [hm, ok_bind, msgMd5_eq]
  by_cases h55 : m'.length ≤ 55
  · rw [if_pos h55]
    exact Or.inl ⟨_, rfl, md5Msg_length _⟩
  · rw [if_neg h55]
    exact Or.inr ⟨by omega, rfl⟩

theorem msgHashPassword_of (pass salt altHash intHash : List Nat)
    (hle : 2 * pass.length + salt.length ≤ 39)
    (ha : msgAlternateHash pass salt = .ok altHash)
    (hf : msgFirstIntermediate pass salt altHash = .ok intHash) (hl : intHash.length = 16) :
    msgHashPassword pass salt =
      .ok (hashToString (digestIterate pass salt PW_ITERATIONS 0 intHash)) := by
  simp only [msgHashPassword]
  rw [msgAppend_of_le (by simp; omega), ok_bind, ha, ok_bind, hf, ok_bind,
    msgIterate_eq pass salt hle _ _ _ hl, ok_bind]

theorem msgHashPassword_ok (pass salt : List Nat) (hp : pass.length ≤ 16)
    (hle : 2 * pass.length + salt.length ≤ 39) :
    ∃ h, h.length = 16 ∧ msgHashPassword pass salt = .ok (hashToString h) := by
  have ha : msgAlternateHash pass salt = .ok (md5Msg (pass ++ (salt ++ pass))) := by
    rw [msgAlternateHash_eq, if_pos (by omega)]
  rcases msgFirstIntermediate_cases pass salt _ hp (md5Msg_length (pass ++ (salt ++ pass)))
    (by omega) with ⟨h, hf, hl⟩ | ⟨hgt, _⟩
  · exact ⟨_, digestIterate_length pass salt _ _ _ hl, msgHashPassword_of pass salt _ h hle ha hf hl⟩
  · omega

theorem msgIterate_succ (pass salt : List Nat) (n i : Nat) (intHash : List Nat) :
    msgIterate pass salt (n + 1) i intHash =
      (msgNextIntermediate pass salt i intHash).bind (msgIterate pass salt n (i + 1)) := rfl

theorem msgIterate_overflow (pass salt : List Nat) (hp : pass.length ≤ 16)
    (hgt : 39 < 2 * pass.length + salt.length) (intHash : List Nat) (hl : intHash.length = 16) :
    msgIterate pass salt PW_ITERATIONS 0 intHash = .error .blockOverflow := by
  have e : PW_ITERATIONS = 998 + 1 + 1 := rfl
  rw [e, msgIterate_succ]
  have h0 : (nextMsg pass salt 0 intHash).length ≤ 55 := by
    simp [nextMsg, hl]; omega
  rw [msgNextIntermediate_eq pass salt 0 hl, if_pos h0, ok_bind, msgIterate_succ]
  have h1 : ¬ (nextMsg pass salt (0 + 1) (md5Msg (nextMsg pass salt 0 intHash))).length ≤ 55 := by
    simp [nextMsg, md5Msg_length]; omega
  rw [msgNextIntermediate_eq pass salt (0 + 1) (md5Msg_length _), if_neg h1, error_bind]

theorem msgHashPassword_overflow (pass salt : List Nat) (hp : pass.length ≤ 16)
    (hgt : 39 < 2 * pass.length + salt.length) :
    msgHashPassword pass salt = .error .blockOverflow := by
  simp only [msgHashPassword]
  rw [msgAppend_of_le (by simp; omega), ok_bind, msgAlternateHash_eq]
  by_cases h55 : 2 * pass.length + salt.length ≤ 55
  · rw [if_pos h55, ok_bind]
    rcases msgFirstIntermediate_cases pass salt _ hp (md5Msg_length (pass ++ (salt ++ pass)))
      h55 with ⟨h, hf, hl⟩ | ⟨_, hf⟩
    · rw [hf, ok_bind, msgIterate_overflow pass salt hp hgt h hl, error_bind]
    · rw [hf, error_bind]
  · rw [if_neg h55, error_bind]

theorem eq_ok_of_kindOf {α : Type} {r : Except Fault α} {a : α} (h : kindOf r = .ok a) :
    r = .ok a := by
  cases r with
  | ok x => simpa [kindOf] using h
  | error f => simp [kindOf] at h

theorem eq_error_of_kindOf {α : Type} {r : Except Fault α} {e : HashError}
    (h : kindOf r = .error e) : ∃ f, r = .error f ∧ f.error = e := by
  cases r with
  | ok x => simp [kindOf] at h
  | error f => exact ⟨f, rfl, by simpa [kindOf] using h⟩

/-! ## Consequences for `block.c` and `padBlock` -/

theorem holds_take (b : Block) (hd : b.data.length = 64) (hn : b.len ≤ 64) :
    Holds b (b.data.take b.len) := by
  refine ⟨hd, ?_, rfl⟩
  simp [List.length_take, hd, hn]

theorem md5Hash_of_holds {b : Block} {m : List Nat} (h : Holds b m) (h55 : m.length ≤ 55) :
    ∃ b', md5Hash b = .ok (b', md5Msg m) ∧ b'.data = padMsg m ∧ b'.len = 64 := by
  have hs := sim_padBlock h
  simp only [msgPad, h55, if_true] at hs
  cases hp : padBlock b with
  | error f => rw [hp] at hs; cases hs
  | ok b' =>
    rw [hp] at hs
    have hh : Holds b' (padMsg m) := holds_of_sim hs
    have hl := padMsg_length h55
    obtain ⟨h1, h2, h3⟩ := hh
    have hd : b'.data = padMsg m := by
      rw [← h3, h2, hl]
      exact (List.take_of_length_le (by simp [h1, BLOCK_SIZE])).symm
    refine ⟨b', ?_, hd, by rw [h2, hl]⟩
    simp only [md5Hash, hp]
    rw [ok_bind, hd]
    rfl

theorem padBlock_error_of_gt {b : Block} {m : List Nat} (h : Holds b m) (h55 : 55 < m.length) :
    ∃ f, padBlock b = .error f ∧ f.error = .blockOverflow := by
  have hs := sim_padBlock h
  simp only [msgPad, show ¬ m.length ≤ 55 by omega, if_false] at hs
  cases hp : padBlock b with
  | error f =>
    rw [hp] at hs
    cases hs with
    | error he => exact ⟨f, rfl, he⟩
  | ok b' => rw [hp] at hs; cases hs

theorem padBlock_ok_of_le {b : Block} {m : List Nat} (h : Holds b m) (h55 : m.length ≤ 55) :
    ∃ b', padBlock b = .ok b' ∧ b'.data = padMsg m ∧ b'.len = 64 := by
  have hs := sim_padBlock h
  simp only [msgPad, h55, if_true] at hs
  cases hp : padBlock b with
  | error f => rw [hp] at hs; cases hs
  | ok b' =>
    rw [hp] at hs
    obtain ⟨h1, h2, h3⟩ := holds_of_sim hs
    have hl := padMsg_length h55
    refine ⟨b', rfl, ?_, by rw [h2, hl]⟩
    rw [← h3, h2, hl]
    exact (List.take_of_length_le (by simp [h1, BLOCK_SIZE])).symm

theorem md5Hash_error_of_padBlock {b : Block} {f : Fault} (h : padBlock b = .error f) :
    md5Hash b = .error f := by
  simp only [md5Hash, h]
  rw [error_bind]

theorem msgLength_eight (lenBytes : Nat) :
    msgLength lenBytes 8 0 =
      [lenBytes >>> 0 &&& 0xFF, lenBytes >>> 8 &&& 0xFF, lenBytes >>> 16 &&& 0xFF,
        lenBytes >>> 24 &&& 0xFF, lenBytes >>> 32 &&& 0xFF, lenBytes >>> 40 &&& 0xFF,
        lenBytes >>> 48 &&& 0xFF, lenBytes >>> 56 &&& 0xFF] := by
  simp [msgLength, BITS_IN_A_BYTE]

theorem and_255 (x : Nat) : x &&& 0xFF = x % 256 :=
  Nat.and_pow_two_sub_one_eq_mod x 8

theorem padMsg_getD (m : List Nat) (h55 : m.length ≤ 55) :
    (∀ i, i < m.length → (padMsg m).getD i 0 = m.getD i 0) ∧
    (padMsg m).getD m.length 0 = 0x80 ∧
    (∀ i, m.length < i → i ≤ 55 → (padMsg m).getD i 0 = 0) ∧
    (∀ k, k < 8 → (padMsg m).getD (56 + k) 0 = (8 * m.length) / 256 ^ k % 256) := by
  have hlb : m.length * 8 % 2 ^ 64 = 8 * m.length := by
    rw [Nat.mod_eq_of_lt (by omega)]; omega
  refine ⟨?_, ?_, ?_, ?_⟩
  · intro i hi
    simp only [padMsg, List.getD_eq_getElem?_getD]
    rw [List.getElem?_append_left hi]
  · simp only [padMsg, List.getD_eq_getElem?_getD]
    rw [List.getElem?_append_right (Nat.le_refl _)]
    simp [FIRST_VALUE_AFTER_DATA]
  · intro i h1 h2
    simp only [padMsg, List.getD_eq_getElem?_getD]
    rw [List.getElem?_append_right (by omega)]
    obtain ⟨j, hj⟩ : ∃ j, i - m.length = j + 1 := ⟨i - m.length - 1, by omega⟩
    rw [hj, List.getElem?_cons_succ, List.getElem?_append_left (by
      simp [BLOCK_ZERO_PADDING_LIMIT]; omega)]
    rw [List.getElem?_replicate_of_lt (by simp [BLOCK_ZERO_PADDING_LIMIT]; omega)]
    simp [BLOCK_DATA_PADDING]
  · intro k hk
    simp only [padMsg, List.getD_eq_getElem?_getD]
    rw [List.getElem?_append_right (by omega)]
    obtain ⟨j, hj⟩ : ∃ j, 56 + k - m.length = j + 1 := ⟨56 + k - m.length - 1, by omega⟩
    rw [hj, List.getElem?_cons_succ, List.getElem?_append_right (by
      simp [BLOCK_ZERO_PADDING_LIMIT]; omega)]
    have hj2 : j - (List.replicate (BLOCK_ZERO_PADDING_LIMIT - (m.length + 1))
        BLOCK_DATA_PADDING).length = k := by
      simp [BLOCK_ZERO_PADDING_LIMIT]; omega
    rw [hj2, BITS_IN_A_BYTE, hlb, msgLength_eight]
    simp only [and_255, Nat.shiftRight_eq_div_pow]
    interval_cases k <;> simp

/-! ## Consequences for `hashToString` -/

theorem getD_lt_of_forall {l : List Nat} {n : Nat} (h : ∀ x ∈ l, x < n) (hn : 0 < n) (i : Nat) :
    l.getD i 0 < n := by
  rw [List.getD_eq_getElem?_getD]
  cases hi : l[i]? with
  | none => simpa using hn
  | some x => simpa using h x (List.getElem?_mem hi)

theorem letters_lt (hashRearr : List Nat) (i : Nat) (h : ∀ x ∈ hashRearr, x < 256) :
    ∀ idx ∈ letters hashRearr i, idx < 64 := by
  intro idx hidx
  simp only [letters, MASK_FOR_BITS, BITS_MASK_MSB, BITS_IN_LETTER] at hidx
  have hand : ∀ x : Nat, x &&& 0x3F < 64 := fun x =>
    Nat.lt_succ_of_le (Nat.and_le_right (n := x) (m := 0x3F))
  split at hidx
  · simp only [List.mem_cons, List.mem_singleton, List.not_mem_nil, or_false] at hidx
    rcases hidx with rfl | rfl
    · exact hand _
    · have := getD_lt_of_forall h (by norm_num) (i * SET_OF_BYTES)
      rw [Nat.shiftRight_eq_div_pow]
      omega
  · simp only [List.mem_cons, List.mem_singleton, List.not_mem_nil, or_false] at hidx
    rcases hidx with rfl | rfl | rfl | rfl <;> exact hand _

theorem letterLoop_lt (hashRearr : List Nat) (h : ∀ x ∈ hashRearr, x < 256) :
    ∀ (n i : Nat), ∀ idx ∈ letterLoop hashRearr n i, idx < 64 := by
  intro n
  induction n with
  | zero => intro i idx hidx; simp [letterLoop] at hidx
  | succ n ih =>
    intro i idx hidx
    simp only [letterLoop, List.mem_append] at hidx
    rcases hidx with h1 | h1
    · exact letters_lt hashRearr i h idx h1
    · exact ih (i + 1) idx h1

theorem rearrange_lt (hash : List Nat) (h : ∀ x ∈ hash, x < 256) :
    ∀ (n i : Nat), ∀ x ∈ rearrange hash n i, x < 256 := by
  intro n
  induction n with
  | zero => intro i x hx; simp [rearrange] at hx
  | succ n ih =>
    intro i x hx
    simp only [rearrange, List.mem_cons] at hx
    rcases hx with rfl | hx
    · exact getD_lt_of_forall h (by norm_num) _
    · exact ih (i + 1) x hx

theorem hashToIndices_length (hash : List Nat) : (hashToIndices hash).length = 22 := by
  simp [hashToIndices, letterLoop, letters, BYTE_TO_CHAR_TRANSLATION_ROUNDS, SET_OF_BYTES]

theorem hashToIndices_lt (hash : List Nat) (h : ∀ x ∈ hash, x < 256) :
    ∀ idx ∈ hashToIndices hash, idx < 64 :=
  letterLoop_lt _ (rearrange_lt hash h _ _) _ _

theorem pwCode64_length : pwCode64.length = 64 := by decide

theorem hashToString_mem (hash : List Nat) (h : ∀ x ∈ hash, x < 256) :
    ∀ c ∈ hashToString hash, c ∈ pwCode64 := by
  intro c hc
  simp only [hashToString, List.mem_map] at hc
  obtain ⟨idx, hidx, rfl⟩ := hc
  have hlt : idx < pwCode64.length := by
    rw [pwCode64_length]; exact hashToIndices_lt hash h idx hidx
  rw [List.getD_eq_getElem?_getD, List.getElem?_eq_getElem hlt]
  exact List.getElem_mem hlt

theorem writeHash_lt : ∀ (n i : Nat) (st : MD5State), ∀ x ∈ writeHash n i st, x < 256 := by
  intro n
  induction n with
  | zero => intro i st x hx; simp [writeHash] at hx
  | succ n ih =>
    intro i st x hx
    simp only [writeHash] at hx
    split at hx
    · simp only [List.mem_cons] at hx
      rcases hx with rfl | hx
      · exact Nat.mod_lt _ (by norm_num)
      · exact ih _ _ x hx
    · split at hx
      · simp only [List.mem_cons] at hx
        rcases hx with rfl | hx
        · exact Nat.mod_lt _ (by norm_num)
        · exact ih _ _ x hx
      · split at hx
        · simp only [List.mem_cons] at hx
          rcases hx with rfl | hx
          · exact Nat.mod_lt _ (by norm_num)
          · exact ih _ _ x hx
        · simp only [List.mem_cons] at hx
          rcases hx with rfl | hx
          · exact Nat.mod_lt _ (by norm_num)
          · exact ih _ _ x hx

theorem md5Digest_lt (data : List Nat) : ∀ x ∈ md5Digest data, x < 256 :=
  writeHash_lt _ _ _

/-! ## Reference digests -/

theorem md5Msg_abc :
    md5Msg (bytesOf "abc") =
      [144, 1, 80, 152, 60, 210, 79, 176, 214, 150, 63, 125, 40, 225, 127, 114] := by
  decide!

theorem md5Msg_message_digest :
    md5Msg (bytesOf "message digest") =
      [249, 107, 105, 125, 124, 183, 147, 141, 82, 90, 47, 49, 170, 241, 97, 208] := by
  decide!

theorem md5Msg_nil :
    md5Msg [] = [212, 29, 140, 217, 143, 0, 178, 4, 233, 128, 9, 152, 236, 248, 66, 126] := by
  decide!

/-! ## The claims -/

/-- C10: a block with `len ≤ 64` and a string `s`. If `len + |s| ≤ 64`,
`appendString` returns the block with length `len + |s|` whose bytes in use are
the old bytes in use followed by the bytes of `s`; if `len + |s| > 64` it stops
with a block overflow, the block at that moment being the block it was given. -/
theorem appendString_contract (b : Block) (s : List Nat) (hd : b.data.length = 64)
    (hn : b.len ≤ 64) :
    (b.len + s.length ≤ 64 →
      ∃ b', appendString b s = .ok b' ∧ b'.len = b.len + s.length ∧
        b'.data.take b'.len = b.data.take b.len ++ s ∧ b'.data.length = 64) ∧
    (64 < b.len + s.length →
      appendString b s = .error { error := .blockOverflow, block := b }) := by
  have hh := holds_take b hd hn
  constructor
  · intro hle
    have h1 := holds_appendStringLoop s hh (by rw [← hh.2.1]; exact hle)
    refine ⟨appendStringLoop s b, ?_, ?_, h1.2.2, h1.1⟩
    · simp only [appendString, BLOCK_SIZE, show ¬ (b.len + s.length > 64) by omega, if_false]
    · rw [h1.2.1, List.length_append, ← hh.2.1]
  · intro hgt
    simp only [appendString, BLOCK_SIZE, show b.len + s.length > 64 from hgt, if_true]

theorem appendString_contract_witness :
    (appendStringLoop (bytesOf "abc") makeBlock).data.length = 64 ∧
    (appendStringLoop (bytesOf "abc") makeBlock).len ≤ 64 ∧
    ((appendStringLoop (bytesOf "abc") makeBlock).len + (bytesOf "de").length ≤ 64 →
      ∃ b', appendString (appendStringLoop (bytesOf "abc") makeBlock) (bytesOf "de") = .ok b' ∧
        b'.len = (appendStringLoop (bytesOf "abc") makeBlock).len + (bytesOf "de").length ∧
        b'.data.take b'.len =
          (appendStringLoop (bytesOf "abc") makeBlock).data.take
            (appendStringLoop (bytesOf "abc") makeBlock).len ++ bytesOf "de" ∧
        b'.data.length = 64) ∧
    (64 < (appendStringLoop (bytesOf "abc") makeBlock).len + (bytesOf "de").length →
      appendString (appendStringLoop (bytesOf "abc") makeBlock) (bytesOf "de") =
        .error { error := .blockOverflow, block := appendStringLoop (bytesOf "abc") makeBlock }) :=
  ⟨by decide, by decide,
    appendString_contract (appendStringLoop (bytesOf "abc") makeBlock) (bytesOf "de")
      (by decide) (by decide)⟩

/-- C8: for a block with `len` between 0 and 64, `padBlock` stops with a block
overflow exactly when `len > 55`, and so does `md5Hash`; for `len ≤ 55` both
return normally. -/
theorem padBlock_overflow_iff (b : Block) (hd : b.data.length = 64) (hn : b.len ≤ 64) :
    ((∃ f, padBlock b = .error f ∧ f.error = .blockOverflow) ↔ 55 < b.len) ∧
    ((∃ f, md5Hash b = .error f ∧ f.error = .blockOverflow) ↔ 55 < b.len) ∧
    (b.len ≤ 55 → (∃ b', padBlock b = .ok b') ∧ ∃ r, md5Hash b = .ok r) := by
  have hh := holds_take b hd hn
  have hl : (b.data.take b.len).length = b.len := hh.2.1.symm
  have hok : b.len ≤ 55 → (∃ b', padBlock b = .ok b') ∧ ∃ r, md5Hash b = .ok r := by
    intro h55
    obtain ⟨b', h1, _, _⟩ := padBlock_ok_of_le hh (by rw [hl]; exact h55)
    obtain ⟨b2, h2, _, _⟩ := md5Hash_of_holds hh (by rw [hl]; exact h55)
    exact ⟨⟨b', h1⟩, ⟨_, h2⟩⟩
  refine ⟨⟨?_, ?_⟩, ⟨?_, ?_⟩, hok⟩
  · rintro ⟨f, hf, _⟩
    by_contra hc
    obtain ⟨⟨b', h1⟩, _⟩ := hok (by omega)
    rw [h1] at hf
    cases hf
  · intro hgt
    exact padBlock_error_of_gt hh (by rw [hl]; exact hgt)
  · rintro ⟨f, hf, _⟩
    by_contra hc
    obtain ⟨_, ⟨r, h1⟩⟩ := hok (by omega)
    rw [h1] at hf
    cases hf
  · intro hgt
    obtain ⟨f, hf, he⟩ := padBlock_error_of_gt hh (by rw [hl]; exact hgt)
    exact ⟨f, md5Hash_error_of_padBlock hf, he⟩

theorem padBlock_overflow_iff_witness :
    (appendStringLoop (bytesOf "abc") makeBlock).data.length = 64 ∧
    (appendStringLoop (bytesOf "abc") makeBlock).len ≤ 64 ∧
    (((∃ f, padBlock (appendStringLoop (bytesOf "abc") makeBlock) = .error f ∧
        f.error = .blockOverflow) ↔ 55 < (appendStringLoop (bytesOf "abc") makeBlock).len) ∧
    ((∃ f, md5Hash (appendStringLoop (bytesOf "abc") makeBlock) = .error f ∧
        f.error = .blockOverflow) ↔ 55 < (appendStringLoop (bytesOf "abc") makeBlock).len) ∧
    ((appendStringLoop (bytesOf "abc") makeBlock).len ≤ 55 →
      (∃ b', padBlock (appendStringLoop (bytesOf "abc") makeBlock) = .ok b') ∧
      ∃ r, md5Hash (appendStringLoop (bytesOf "abc") makeBlock) = .ok r)) :=
  ⟨by decide, by decide,
    padBlock_overflow_iff (appendStringLoop (bytesOf "abc") makeBlock) (by decide) (by decide)⟩

/-- C9: for a block with `len = n ≤ 55`, `padBlock` returns a block of length
64 in which bytes `0 .. n-1` are unchanged, byte `n` is `0x80`, bytes
`n+1 .. 55` are `0x00` and byte `56 + k`, for `k` in `0 .. 7`, is byte `k` of
`8 * n` counted from the least significant one. -/
theorem padBlock_layout (b : Block) (hd : b.data.length = 64) (hn : b.len ≤ 55) :
    ∃ b', padBlock b = .ok b' ∧ b'.len = 64 ∧ b'.data.length = 64 ∧
      (∀ i, i < b.len → b'.data.getD i 0 = b.data.getD i 0) ∧
      b'.data.getD b.len 0 = 0x80 ∧
      (∀ i, b.len < i → i ≤ 55 → b'.data.getD i 0 = 0x00) ∧
      (∀ k, k < 8 → b'.data.getD (56 + k) 0 = (8 * b.len) / 256 ^ k % 256) := by
  have hh := holds_take b hd (by omega)
  have hl : (b.data.take b.len).length = b.len := hh.2.1.symm
  obtain ⟨b', h1, h2, h3⟩ := padBlock_ok_of_le hh (by rw [hl]; exact hn)
  obtain ⟨g1, g2, g3, g4⟩ := padMsg_getD (b.data.take b.len) (by rw [hl]; exact hn)
  rw [hl] at g1 g2 g3 g4
  refine ⟨b', h1, h3, ?_, ?_, ?_, ?_, ?_⟩
  · rw [h2]; exact padMsg_length (by rw [hl]; exact hn)
  · intro i hi
    rw [h2, g1 i hi, List.getD_eq_getElem?_getD, List.getD_eq_getElem?_getD,
      List.getElem?_take_of_lt hi]
  · rw [h2]; exact g2
  · intro i hi1 hi2
    rw [h2]; exact g3 i hi1 hi2
  · intro k hk
    rw [h2]; exact g4 k hk

theorem padBlock_layout_witness :
    (appendStringLoop (bytesOf "abc") makeBlock).data.length = 64 ∧
    (appendStringLoop (bytesOf "abc") makeBlock).len ≤ 55 ∧
    ∃ b', padBlock (appendStringLoop (bytesOf "abc") makeBlock) = .ok b' ∧ b'.len = 64 ∧
      b'.data.length = 64 ∧
      (∀ i, i < (appendStringLoop (bytesOf "abc") makeBlock).len →
        b'.data.getD i 0 = (appendStringLoop (bytesOf "abc") makeBlock).data.getD i 0) ∧
      b'.data.getD (appendStringLoop (bytesOf "abc") makeBlock).len 0 = 0x80 ∧
      (∀ i, (appendStringLoop (bytesOf "abc") makeBlock).len < i → i ≤ 55 →
        b'.data.getD i 0 = 0x00) ∧
      (∀ k, k < 8 → b'.data.getD (56 + k) 0 =
        (8 * (appendStringLoop (bytesOf "abc") makeBlock).len) / 256 ^ k % 256) :=
  ⟨by decide, by decide,
    padBlock_layout (appendStringLoop (bytesOf "abc") makeBlock) (by decide) (by decide)⟩

/-- C4: for a digest of 16 bytes, `hashToString` writes 22 characters (the
counter ends at `5 * 4 + 2`), every index it uses into the alphabet table is
below 64, and every character written is one of the 64 characters of the
alphabet `./0-9A-Za-z`. -/
theorem hashToString_alphabet (hash : List Nat) (hl : hash.length = 16)
    (hb : ∀ x ∈ hash, x < 256) :
    (hashToString hash).length = 22 ∧ (hashToIndices hash).length = 5 * 4 + 2 ∧
    (∀ idx ∈ hashToIndices hash, idx < 64) ∧
    (∀ c ∈ hashToString hash, c ∈ pwCode64) ∧
    pwCode64 = "./0123456789ABCDEFGHIJKLMNOPQRSTUVWXYZabcdefghijklmnopqrstuvwxyz".toList := by
  have _ := hl
  refine ⟨?_, hashToIndices_length hash, hashToIndices_lt hash hb, hashToString_mem hash hb, rfl⟩
  simp only [hashToString, List.length_map, hashToIndices_length]

theorem hashToString_alphabet_witness :
    (md5Msg []).length = 16 ∧ (∀ x ∈ md5Msg [], x < 256) ∧
    ((hashToString (md5Msg [])).length = 22 ∧ (hashToIndices (md5Msg [])).length = 5 * 4 + 2 ∧
    (∀ idx ∈ hashToIndices (md5Msg []), idx < 64) ∧
    (∀ c ∈ hashToString (md5Msg []), c ∈ pwCode64) ∧
    pwCode64 = "./0123456789ABCDEFGHIJKLMNOPQRSTUVWXYZabcdefghijklmnopqrstuvwxyz".toList) :=
  ⟨md5Msg_length [], md5Digest_lt _,
    hashToString_alphabet (md5Msg []) (md5Msg_length []) (md5Digest_lt _)⟩

theorem hashPassword_of_parts {pass salt altHash intHash final : List Nat}
    (hp : pass.length ≤ 64)
    (ha : computeAlternateHash pass salt = .ok altHash)
    (hf : computeFirstIntermediate pass salt altHash = .ok intHash)
    (hi : iterate pass salt PW_ITERATIONS 0 intHash = .ok final) :
    hashPassword pass salt = .ok (hashToString final) := by
  have h1 : appendString makeBlock pass = .ok (appendStringLoop pass makeBlock) := by
    have : ¬ (0 + pass.length > 64) := by omega
    simp only [appendString, makeBlock, BLOCK_SIZE, this, if_false]
  simp only [hashPassword]
  rw [h1, ok_bind, ha, ok_bind, hf, ok_bind, hi, ok_bind]

theorem hashPassword_parts_ok (pass salt : List Nat) (hp : pass.length ≤ 16)
    (hle : 2 * pass.length + salt.length ≤ 39) :
    ∃ altHash intHash final,
      computeAlternateHash pass salt = .ok altHash ∧
      computeFirstIntermediate pass salt altHash = .ok intHash ∧
      iterate pass salt PW_ITERATIONS 0 intHash = .ok final ∧
      hashPassword pass salt = .ok (hashToString final) := by
  have ha : msgAlternateHash pass salt = .ok (md5Msg (pass ++ (salt ++ pass))) := by
    rw [msgAlternateHash_eq, if_pos (by omega)]
  rcases msgFirstIntermediate_cases pass salt _ hp (md5Msg_length (pass ++ (salt ++ pass)))
    (by omega) with ⟨h, hf, hl⟩ | ⟨hgt, _⟩
  · have ha' := eq_ok_of_kindOf ((kindOf_computeAlternateHash pass salt).trans ha)
    have hf' := eq_ok_of_kindOf ((kindOf_computeFirstIntermediate pass salt _).trans hf)
    have hi' := eq_ok_of_kindOf ((kindOf_iterate pass salt PW_ITERATIONS 0 h).trans
      (msgIterate_eq pass salt hle _ _ _ hl))
    exact ⟨_, _, _, ha', hf', hi', hashPassword_of_parts (by omega) ha' hf' hi'⟩
  · omega

/-- C5: `md5Hash` on a block that holds the 3 bytes `abc` writes the digest
whose lowercase hexadecimal rendering is `900150983cd24fb0d6963f7d28e17f72`. -/
theorem md5Hash_abc (b : Block) (h : Holds b (bytesOf "abc")) :
    ∃ b' hash, md5Hash b = .ok (b', hash) ∧
      String.mk (toHex hash) = "900150983cd24fb0d6963f7d28e17f72" := by
  obtain ⟨b', h1, _, _⟩ := md5Hash_of_holds h (by decide)
  refine ⟨b', _, h1, ?_⟩
  rw [md5Msg_abc]
  decide

theorem md5Hash_abc_witness :
    Holds (appendStringLoop (bytesOf "abc") makeBlock) (bytesOf "abc") ∧
    ∃ b' hash, md5Hash (appendStringLoop (bytesOf "abc") makeBlock) = .ok (b', hash) ∧
      String.mk (toHex hash) = "900150983cd24fb0d6963f7d28e17f72" :=
  ⟨holds_appendStringLoop (bytesOf "abc") holds_makeBlock (by decide),
    md5Hash_abc (appendStringLoop (bytesOf "abc") makeBlock)
      (holds_appendStringLoop (bytesOf "abc") holds_makeBlock (by decide))⟩

/-- C6: `md5Hash` on a block that holds the 14 bytes `message digest` writes
the digest whose lowercase hexadecimal rendering is
`f96b697d7cb7938d525a2f31aaf161d0`. -/
theorem md5Hash_message_digest (b : Block) (h : Holds b (bytesOf "message digest")) :
    ∃ b' hash, md5Hash b = .ok (b', hash) ∧
      String.mk (toHex hash) = "f96b697d7cb7938d525a2f31aaf161d0" := by
  obtain ⟨b', h1, _, _⟩ := md5Hash_of_holds h (by decide)
  refine ⟨b', _, h1, ?_⟩
  rw [md5Msg_message_digest]
  decide

theorem md5Hash_message_digest_witness :
    Holds (appendStringLoop (bytesOf "message digest") makeBlock) (bytesOf "message digest") ∧
    ∃ b' hash, md5Hash (appendStringLoop (bytesOf "message digest") makeBlock) = .ok (b', hash) ∧
      String.mk (toHex hash) = "f96b697d7cb7938d525a2f31aaf161d0" :=
  ⟨holds_appendStringLoop (bytesOf "message digest") holds_makeBlock (by decide),
    md5Hash_message_digest (appendStringLoop (bytesOf "message digest") makeBlock)
      (holds_appendStringLoop (bytesOf "message digest") holds_makeBlock (by decide))⟩

theorem md5Hash_makeBlock :
    ∃ b', md5Hash makeBlock =
      .ok (b', [212, 29, 140, 217, 143, 0, 178, 4, 233, 128, 9, 152, 236, 248, 66, 126]) := by
  obtain ⟨b', h1, _, _⟩ := md5Hash_of_holds holds_makeBlock (by decide)
  rw [md5Msg_nil] at h1
  exact ⟨b', h1⟩

/-- C7, as the code has it: `md5Hash` on a freshly made block (length 0) writes
the digest whose lowercase hexadecimal rendering is the 32 characters
`d41d8cd98f00b204e9800998ecf8427e`. -/
theorem md5Hash_empty :
    ∃ b' hash, md5Hash makeBlock = .ok (b', hash) ∧
      String.mk (toHex hash) = "d41d8cd98f00b204e9800998ecf8427e" ∧
      (toHex hash).length = 32 := by
  obtain ⟨b', h1⟩ := md5Hash_makeBlock
  exact ⟨b', _, h1, by decide, by decide⟩

/-- C7, as stated, fails: the rendering of the digest that `md5Hash` writes for
a freshly made block is not the 31 characters `d41d8cd98f00b204e9800998ecf8427`. -/
theorem md5Hash_empty_not_31_chars :
    ¬ ∃ b' hash, md5Hash makeBlock = .ok (b', hash) ∧
      String.mk (toHex hash) = "d41d8cd98f00b204e9800998ecf8427" := by
  rintro ⟨b', hash, h1, h2⟩
  obtain ⟨b2, h3⟩ := md5Hash_makeBlock
  rw [h3] at h1
  cases h1
  revert h2
  decide

/-- C2: for a password of at most 15 bytes and a salt of at most 8 bytes,
`hashPassword` returns normally, and so do the alternate hash, the first
intermediate hash and the loop over the 1000 iterations inside it. -/
theorem hashPassword_completes (pass salt : List Nat) (hp : pass.length ≤ 15)
    (hs : salt.length ≤ 8) :
    ∃ altHash intHash final,
      computeAlternateHash pass salt = .ok altHash ∧
      computeFirstIntermediate pass salt altHash = .ok intHash ∧
      iterate pass salt PW_ITERATIONS 0 intHash = .ok final ∧
      hashPassword pass salt = .ok (hashToString final) :=
  hashPassword_parts_ok pass salt (by omega) (by omega)

theorem hashPassword_completes_witness :
    (bytesOf "0123456789abcde").length ≤ 15 ∧ (bytesOf "01234567").length ≤ 8 ∧
    ∃ altHash intHash final,
      computeAlternateHash (bytesOf "0123456789abcde") (bytesOf "01234567") = .ok altHash ∧
      computeFirstIntermediate (bytesOf "0123456789abcde") (bytesOf "01234567") altHash =
        .ok intHash ∧
      iterate (bytesOf "0123456789abcde") (bytesOf "01234567") PW_ITERATIONS 0 intHash =
        .ok final ∧
      hashPassword (bytesOf "0123456789abcde") (bytesOf "01234567") =
        .ok (hashToString final) :=
  ⟨by decide, by decide,
    hashPassword_completes (bytesOf "0123456789abcde") (bytesOf "01234567")
      (by decide) (by decide)⟩

theorem msgHashPassword_overflow_long (pass salt : List Nat)
    (hgt : 55 < 2 * pass.length + salt.length) :
    msgHashPassword pass salt = .error .blockOverflow := by
  simp only [msgHashPassword]
  by_cases h64 : pass.length ≤ 64
  · rw [msgAppend_of_le (by simp; omega), ok_bind, msgAlternateHash_eq, if_neg (by omega),
      error_bind]
  · rw [msgAppend_of_gt (by simp; omega), error_bind]

/-- C3, as the code has it: for a password of `p` bytes and a salt of `s`
bytes, `hashPassword` stops with a block overflow and returns nothing whenever
`2 * p + s > 55`, so for every password of 28 bytes or more and every salt of
56 bytes or more, and, for `p ≤ 16`, whenever `2 * p + s > 39`. -/
theorem hashPassword_overflow (pass salt : List Nat)
    (h : (pass.length ≤ 16 ∧ 39 < 2 * pass.length + salt.length) ∨
      55 < 2 * pass.length + salt.length ∨ 28 ≤ pass.length ∨ 56 ≤ salt.length) :
    ∃ f, hashPassword pass salt = .error f ∧ f.error = .blockOverflow := by
  apply eq_error_of_kindOf
  rw [kindOf_hashPassword]
  rcases h with ⟨hp, hgt⟩ | hgt | hgt | hgt
  · exact msgHashPassword_overflow pass salt hp hgt
  · exact msgHashPassword_overflow_long pass salt hgt
  · exact msgHashPassword_overflow_long pass salt (by omega)
  · exact msgHashPassword_overflow_long pass salt (by omega)

theorem hashPassword_overflow_witness :
    (((bytesOf "0123456789abcdef").length ≤ 16 ∧
        39 < 2 * (bytesOf "0123456789abcdef").length + (bytesOf "01234567").length) ∨
      55 < 2 * (bytesOf "0123456789abcdef").length + (bytesOf "01234567").length ∨
      28 ≤ (bytesOf "0123456789abcdef").length ∨ 56 ≤ (bytesOf "01234567").length) ∧
    (∃ f, hashPassword (bytesOf "0123456789abcdef") (bytesOf "01234567") = .error f ∧
      f.error = .blockOverflow) ∧
    (((bytesOf "0123456789abcdef0123456789ab").length ≤ 16 ∧
        39 < 2 * (bytesOf "0123456789abcdef0123456789ab").length + ([] : List Nat).length) ∨
      55 < 2 * (bytesOf "0123456789abcdef0123456789ab").length + ([] : List Nat).length ∨
      28 ≤ (bytesOf "0123456789abcdef0123456789ab").length ∨ 56 ≤ ([] : List Nat).length) ∧
    (∃ f, hashPassword (bytesOf "0123456789abcdef0123456789ab") [] = .error f ∧
      f.error = .blockOverflow) :=
  ⟨by decide,
    hashPassword_overflow (bytesOf "0123456789abcdef") (bytesOf "01234567") (by decide),
    by decide,
    hashPassword_overflow (bytesOf "0123456789abcdef0123456789ab") [] (by decide)⟩

/-- C3, as stated, fails: `hashPassword` returns normally for a password of 16
bytes with an empty salt, and for an empty password with a salt of 9 bytes. -/
theorem hashPassword_long_input_succeeds :
    (bytesOf "0123456789abcdef").length = 16 ∧
    (∃ r, hashPassword (bytesOf "0123456789abcdef") [] = .ok r) ∧
    (bytesOf "012345678").length = 9 ∧
    (∃ r, hashPassword [] (bytesOf "012345678") = .ok r) := by
  refine ⟨by decide, ?_, by decide, ?_⟩
  · obtain ⟨_, _, final, _, _, _, h⟩ :=
      hashPassword_parts_ok (bytesOf "0123456789abcdef") [] (by decide) (by decide)
    exact ⟨_, h⟩
  · obtain ⟨_, _, final, _, _, _, h⟩ :=
      hashPassword_parts_ok [] (bytesOf "012345678") (by decide) (by decide)
    exact ⟨_, h⟩

/-! ## The evaluator computes the same values -/

theorem fastNth_eq : ∀ (i : Nat) (l : List Nat), fastNth l i = l.getD i 0 := by
  intro i
  induction i with
  | zero => intro l; cases l <;> rfl
  | succ i ih =>
    intro l
    have e : fastNth l (i + 1) = fastNth l.tail i := rfl
    rw [e, ih]
    cases l <;> simp

theorem fastF_eq (r B C D : Nat) : fastF r B C D = arrayF r B C D := by
  match r with
  | 0 => rfl
  | 1 => rfl
  | 2 => rfl
  | _ + 3 => rfl

theorem fastG_eq (r i : Nat) : fastG r i = arrayG r i := by
  match r with
  | 0 => rfl
  | 1 => rfl
  | 2 => rfl
  | _ + 3 => rfl

theorem fastRotate_eq (value s : Nat) : fastRotate value s = rotateLeft value s := rfl

theorem fastStep_eq (M : List Nat) (st : MD5State) (i : Nat) :
    fastStep M st i (md5Noise.getD i 0) (md5Shift.getD i 0) = md5Iteration M st i := by
  simp only [fastStep, fastF_eq, fastG_eq, fastNth_eq, fastRotate_eq]
  rfl

theorem headD_drop (l : List Nat) (i : Nat) : (l.drop i).headD 0 = l.getD i 0 := by
  induction l generalizing i with
  | nil => simp
  | cons x t ih =>
    cases i with
    | zero => simp
    | succ i => simp [ih i]

theorem tail_drop_eq (l : List Nat) (i : Nat) : (l.drop i).tail = l.drop (i + 1) := by
  simp [List.tail_drop]

theorem fastRounds_eq (M : List Nat) : ∀ (n i : Nat) (st : MD5State),
    fastRounds M n i (md5Noise.drop i) (md5Shift.drop i) st = md5Rounds M n i st := by
  intro n
  induction n with
  | zero => intro i st; rfl
  | succ n ih =>
    intro i st
    have e : fastRounds M (n + 1) i (md5Noise.drop i) (md5Shift.drop i) st =
        fastRounds M n (i + 1) (md5Noise.drop i).tail (md5Shift.drop i).tail
          (fastStep M st i ((md5Noise.drop i).headD 0) ((md5Shift.drop i).headD 0)) := rfl
    rw [e, tail_drop_eq, tail_drop_eq, headD_drop, headD_drop, fastStep_eq, ih]
    rfl

theorem scheduleWord_eq (data : List Nat) (i : Nat) :
    scheduleWord data i =
      fastWord (data.getD (i * 4) 0) (data.getD (i * 4 + 1) 0) (data.getD (i * 4 + 2) 0)
        (data.getD (i * 4 + 3) 0) := by
  have h3 : ¬ (i * 4 + 3 = i * 4) := by omega
  have h2 : ¬ (i * 4 + 2 = i * 4) := by omega
  have h1 : ¬ (i * 4 + 1 = i * 4) := by omega
  simp only [scheduleWord, NUMBER_OF_BYTES_IN_WORD, wordLoop, Nat.add_sub_cancel,
    show i * 4 + 4 - 1 = i * 4 + 3 by omega, show i * 4 + 3 - 1 = i * 4 + 2 by omega,
    show i * 4 + 2 - 1 = i * 4 + 1 by omega, show i * 4 + 1 - 1 = i * 4 by omega,
    h3, h2, h1, if_false, if_true]
  rfl

theorem fastWords_eq (data : List Nat) : ∀ (n i : Nat),
    fastWords n (data.drop (i * 4)) = fillSchedule data n i := by
  intro n
  induction n with
  | zero => intro i; rfl
  | succ n ih =>
    intro i
    have e : fastWords (n + 1) (data.drop (i * 4)) =
        fastWord ((data.drop (i * 4)).headD 0) ((data.drop (i * 4)).tail.headD 0)
          ((data.drop (i * 4)).tail.tail.headD 0) ((data.drop (i * 4)).tail.tail.tail.headD 0) ::
          fastWords n (data.drop (i * 4)).tail.tail.tail.tail := rfl
    rw [e]
    simp only [tail_drop_eq, headD_drop]
    rw [show i * 4 + 1 + 1 + 1 + 1 = (i + 1) * 4 by omega, ih (i + 1)]
    simp only [fillSchedule, scheduleWord_eq]

theorem writeHash_eq (A B C D : Nat) :
    writeHash HASH_SIZE 0 { A := A, B := B, C := C, D := D } =
      fastBytes A (fastBytes B (fastBytes C (fastBytes D []))) := by
  simp [writeHash, HASH_SIZE, WORD_A_FIRST_BYTE, WORD_A_LAST_BYTE, WORD_B_FIRST_BYTE,
    WORD_B_LAST_BYTE, WORD_C_FIRST_BYTE, WORD_C_LAST_BYTE, BITS_IN_A_BYTE, fastBytes]
  repeat' constructor

theorem fastDigest_eq (data : List Nat) : fastDigest data = md5Digest data := by
  have hn : md5Noise.drop 0 = md5Noise := rfl
  have hs : md5Shift.drop 0 = md5Shift := rfl
  have hw : fastWords 16 data = fillSchedule data HASH_SIZE 0 := by
    have := fastWords_eq data 16 0
    simpa [HASH_SIZE] using this
  have hr : fastRounds (fastWords 16 data) 64 0 md5Noise md5Shift
      { A := INIT_VALUE_A, B := INIT_VALUE_B, C := INIT_VALUE_C, D := INIT_VALUE_D } =
      md5Compress data := by
    have := fastRounds_eq (fastWords 16 data) 64 0
      { A := INIT_VALUE_A, B := INIT_VALUE_B, C := INIT_VALUE_C, D := INIT_VALUE_D }
    rw [hn, hs] at this
    rw [this, hw]
    rfl
  simp only [md5Digest, writeHash_eq, ← hr]
  rfl

theorem fastZeros_eq (k : Nat) (rest : List Nat) :
    fastZeros k rest = List.replicate k 0 ++ rest := by
  induction k with
  | zero => rfl
  | succ k ih =>
    have e : fastZeros (k + 1) rest = 0 :: fastZeros k rest := rfl
    rw [e, ih, List.replicate_succ, List.cons_append]

theorem fastLength_eq (lenBytes : Nat) : fastLength lenBytes = msgLength lenBytes 8 0 := by
  rw [msgLength_eight]
  rfl

theorem fastPadTail_eq (n : Nat) :
    fastPadTail n = FIRST_VALUE_AFTER_DATA ::
      (List.replicate (BLOCK_ZERO_PADDING_LIMIT - (n + 1)) BLOCK_DATA_PADDING ++
        msgLength ((n * BITS_IN_A_BYTE) % 2 ^ 64) BITS_IN_A_BYTE 0) := by
  simp only [fastPadTail, fastZeros_eq, fastLength_eq]
  rfl

theorem fastAppend_eq : ∀ (fuel : Nat) (a : List Nat) (n : Nat) (k : Nat → List Nat),
    a.length ≤ fuel → fastAppend fuel a n k = a ++ k (n + a.length) := by
  intro fuel
  induction fuel with
  | zero =>
    intro a n k h
    have : a = [] := List.length_eq_zero.mp (by omega)
    subst this
    rfl
  | succ fuel ih =>
    intro a n k h
    cases a with
    | nil => rfl
    | cons x t =>
      have e : fastAppend (fuel + 1) (x :: t) n k = x :: fastAppend fuel t (n + 1) k := rfl
      simp only [List.length_cons] at h
      rw [e, ih t (n + 1) k (by omega), List.cons_append, List.length_cons]
      congr 3
      omega

theorem padMsg_append_tail (m : List Nat) : padMsg m = m ++ fastPadTail m.length := by
  rw [fastPadTail_eq]
  rfl

theorem fastNext_eq (pass salt : List Nat) (inum : Nat) (intHash : List Nat)
    (hp : pass.length ≤ 64) (hs : salt.length ≤ 64) (hh : intHash.length ≤ 64) :
    fastNext pass salt inum intHash = padMsg (nextMsg pass salt inum intHash) := by
  have h3 : (if inum % 3 ≠ 0 then salt else []).length ≤ 64 := by
    split
    · exact hs
    · simp
  have h7 : (if inum % 7 ≠ 0 then pass else []).length ≤ 64 := by
    split
    · exact hp
    · simp
  rw [padMsg_append_tail]
  simp only [fastNext, nextMsg]
  split
  · rw [fastAppend_eq 64 _ _ _ hh, fastAppend_eq 64 _ _ _ h3, fastAppend_eq 64 _ _ _ h7,
      fastAppend_eq 64 _ _ _ hp]
    simp only [List.append_assoc, List.length_append, Nat.zero_add, Nat.add_assoc]
  · rw [fastAppend_eq 64 _ _ _ hp, fastAppend_eq 64 _ _ _ h3, fastAppend_eq 64 _ _ _ h7,
      fastAppend_eq 64 _ _ _ hh]
    simp only [List.append_assoc, List.length_append, Nat.zero_add, Nat.add_assoc]

theorem seqNat_eq {α : Type} (x : Nat) (k : α) : seqNat x k = k := by
  cases x <;> rfl

theorem seqList_eq {α : Type} : ∀ (fuel : Nat) (l : List Nat) (k : α), seqList fuel l k = k := by
  intro fuel
  induction fuel with
  | zero => intro l k; rfl
  | succ fuel ih =>
    intro l k
    have e : seqList (fuel + 1) l k = seqNat (l.headD 0) (seqList fuel l.tail k) := rfl
    rw [e, seqNat_eq, ih]

theorem fastIterate_eq (pass salt : List Nat) (hp : pass.length ≤ 64) (hs : salt.length ≤ 64) :
    ∀ (n i : Nat) (intHash : List Nat), intHash.length = 16 →
    fastIterate pass salt n i intHash = digestIterate pass salt n i intHash := by
  intro n
  induction n with
  | zero => intro i h _; rfl
  | succ n ih =>
    intro i h hl
    have e : fastIterate pass salt (n + 1) i h =
        seqList 16 h (fastIterate pass salt n (i + 1) (fastDigest (fastNext pass salt i h))) := rfl
    rw [e, seqList_eq, fastDigest_eq, fastNext_eq pass salt i h hp hs (by omega)]
    have hm : md5Digest (padMsg (nextMsg pass salt i h)) = md5Msg (nextMsg pass salt i h) := rfl
    rw [hm, ih (i + 1) _ (md5Msg_length _)]
    rfl

/-! ## The run on `Xr4ilOzQ` with salt `3azHgidD` -/

theorem vector_alternate :
    msgAlternateHash (bytesOf "Xr4ilOzQ") (bytesOf "3azHgidD") =
      .ok [134, 201, 122, 215, 4, 230, 138, 18, 202, 228, 55, 141, 151, 68, 55, 161] := by
  decide!

theorem vector_first :
    msgFirstIntermediate (bytesOf "Xr4ilOzQ") (bytesOf "3azHgidD")
        [134, 201, 122, 215, 4, 230, 138, 18, 202, 228, 55, 141, 151, 68, 55, 161] =
      .ok [52, 203, 158, 123, 240, 52, 234, 178, 3, 55, 145, 233, 171, 68, 238, 190] := by
  decide!

theorem vector_iterate :
    fastIterate (bytesOf "Xr4ilOzQ") (bytesOf "3azHgidD") 1000 0
        [52, 203, 158, 123, 240, 52, 234, 178, 3, 55, 145, 233, 171, 68, 238, 190] =
      [121, 218, 186, 42, 96, 238, 202, 123, 34, 187, 239, 23, 77, 206, 128, 33] := by
  decide!

theorem vector_run :
    hashPassword (bytesOf "Xr4ilOzQ") (bytesOf "3azHgidD") =
      .ok "BdQSCjbq.8WiVgf8izCML.".toList := by
  have hi := fastIterate_eq (bytesOf "Xr4ilOzQ") (bytesOf "3azHgidD") (by decide) (by decide)
    1000 0 [52, 203, 158, 123, 240, 52, 234, 178, 3, 55, 145, 233, 171, 68, 238, 190] rfl
  rw [vector_iterate] at hi
  have hm := msgHashPassword_of (bytesOf "Xr4ilOzQ") (bytesOf "3azHgidD") _ _ (by decide)
    vector_alternate vector_first rfl
  have e : PW_ITERATIONS = 1000 := rfl
  rw [e, ← hi] at hm
  have hs : hashToString
      [121, 218, 186, 42, 96, 238, 202, 123, 34, 187, 239, 23, 77, 206, 128, 33] =
      "BdQSCjbq.8WiVgf8izCML.".toList := by decide
  rw [hs] at hm
  exact eq_ok_of_kindOf ((kindOf_hashPassword _ _).trans hm)

theorem vector_no_table (r : List Nat)
    (h : ∀ x ∈ r, x ∈ [121, 218, 186, 42, 96, 238, 202, 123, 34, 187, 239, 23, 77, 206, 128, 33]) :
    (letterLoop r BYTE_TO_CHAR_TRANSLATION_ROUNDS 0).map
        (fun letter => pwCode64.getD letter (Char.ofNat 0)) ≠
      "SDbsugeBy7toS31uKTEOr/".toList := by
  have hx : r.getD 0 0 ∈
      [0, 121, 218, 186, 42, 96, 238, 202, 123, 34, 187, 239, 23, 77, 206, 128, 33] := by
    rw [List.getD_eq_getElem?_getD]
    cases hr : r[0]? with
    | none => simp
    | some x => exact List.mem_cons_of_mem _ (by simpa using h x (List.getElem?_mem hr))
  have hL : (letterLoop r BYTE_TO_CHAR_TRANSLATION_ROUNDS 0)[0]? = some (r.getD 0 0 &&& 63) := by
    have e : letterLoop r BYTE_TO_CHAR_TRANSLATION_ROUNDS 0 =
        letters r 0 ++ letterLoop r 5 (0 + 1) := rfl
    rw [e, List.getElem?_append_left (by simp [letters, SET_OF_BYTES])]
    simp [letters, SET_OF_BYTES, BITS_MASK_MSB]
  intro hc
  have h0 := congrArg (fun l => l[0]?) hc
  simp only [List.getElem?_map, hL, Option.map_some'] at h0
  revert h0
  generalize r.getD 0 0 = x at hx
  revert x
  decide

/-- C1, as the code has it: `hashPassword` on the password `Xr4ilOzQ` and the
salt `3azHgidD` writes the 22 characters `BdQSCjbq.8WiVgf8izCML.`. -/
theorem hashPassword_vector :
    hashPassword (bytesOf "Xr4ilOzQ") (bytesOf "3azHgidD") =
      .ok "BdQSCjbq.8WiVgf8izCML.".toList ∧
    "BdQSCjbq.8WiVgf8izCML.".toList.length = 22 :=
  ⟨vector_run, by decide⟩

/-- C1, as stated, fails: what `hashPassword` writes on the password
`Xr4ilOzQ` and the salt `3azHgidD` is not `SDbsugeBy7toS31uKTEOr/`. -/
theorem hashPassword_vector_not_spec :
    hashPassword (bytesOf "Xr4ilOzQ") (bytesOf "3azHgidD") ≠
      .ok "SDbsugeBy7toS31uKTEOr/".toList := by
  rw [vector_run]
  decide

/-! ## `appendByte`, the alternate hash and the next intermediate hash -/

theorem getD_set_self (l : List Nat) (n x : Nat) (h : n < l.length) :
    (l.set n x).getD n 0 = x := by
  rw [List.getD_eq_getElem?_getD, List.getElem?_set_self h]
  rfl

theorem getD_set_ne (l : List Nat) (n i x : Nat) (h : i ≠ n) :
    (l.set n x).getD i 0 = l.getD i 0 := by
  rw [List.getD_eq_getElem?_getD, List.getD_eq_getElem?_getD,
    List.getElem?_set_ne (Ne.symm h)]

/-- C11: a block with `len = n ≤ 64` and a byte `x`. `appendByte` stops exactly
when `n = 64`, with a block overflow and the block as it was given; otherwise it
returns the block with `x` at index `n`, length `n + 1` and every other byte, in
particular bytes `0 .. n-1`, unchanged. -/
theorem appendByte_contract (b : Block) (x : Nat) (hd : b.data.length = 64) (hn : b.len ≤ 64) :
    ((∃ f, appendByte b x = .error f) ↔ b.len = 64) ∧
    (b.len = 64 → appendByte b x = .error { error := .blockOverflow, block := b }) ∧
    (b.len < 64 →
      ∃ b', appendByte b x = .ok b' ∧ b'.len = b.len + 1 ∧ b'.data.length = 64 ∧
        b'.data.getD b.len 0 = x ∧
        (∀ i, i < b.len → b'.data.getD i 0 = b.data.getD i 0) ∧
        (∀ i, i ≠ b.len → b'.data.getD i 0 = b.data.getD i 0)) := by
  have hok : b.len < 64 → appendByte b x = .ok (storeNext b x) := by
    intro h
    simp only [appendByte, BLOCK_SIZE, show ¬ (b.len + 1 > 64) by omega, if_false]
  have herr : b.len = 64 → appendByte b x = .error { error := .blockOverflow, block := b } := by
    intro h
    simp only [appendByte, BLOCK_SIZE, show b.len + 1 > 64 by omega, if_true]
  refine ⟨⟨?_, fun h => ⟨_, herr h⟩⟩, herr, ?_⟩
  · rintro ⟨f, hf⟩
    by_contra hc
    rw [hok (by omega)] at hf
    cases hf
  · intro h
    refine ⟨storeNext b x, hok h, rfl, ?_, ?_, ?_, ?_⟩
    · simp [storeNext, hd]
    · exact getD_set_self _ _ _ (by omega)
    · intro i hi
      exact getD_set_ne _ _ _ _ (by omega)
    · intro i hi
      exact getD_set_ne _ _ _ _ hi

theorem appendByte_contract_witness :
    (appendStringLoop (bytesOf "abc") makeBlock).data.length = 64 ∧
    (appendStringLoop (bytesOf "abc") makeBlock).len ≤ 64 ∧
    (((∃ f, appendByte (appendStringLoop (bytesOf "abc") makeBlock) 100 = .error f) ↔
        (appendStringLoop (bytesOf "abc") makeBlock).len = 64) ∧
    ((appendStringLoop (bytesOf "abc") makeBlock).len = 64 →
      appendByte (appendStringLoop (bytesOf "abc") makeBlock) 100 =
        .error { error := .blockOverflow, block := appendStringLoop (bytesOf "abc") makeBlock }) ∧
    ((appendStringLoop (bytesOf "abc") makeBlock).len < 64 →
      ∃ b', appendByte (appendStringLoop (bytesOf "abc") makeBlock) 100 = .ok b' ∧
        b'.len = (appendStringLoop (bytesOf "abc") makeBlock).len + 1 ∧ b'.data.length = 64 ∧
        b'.data.getD (appendStringLoop (bytesOf "abc") makeBlock).len 0 = 100 ∧
        (∀ i, i < (appendStringLoop (bytesOf "abc") makeBlock).len →
          b'.data.getD i 0 = (appendStringLoop (bytesOf "abc") makeBlock).data.getD i 0) ∧
        (∀ i, i ≠ (appendStringLoop (bytesOf "abc") makeBlock).len →
          b'.data.getD i 0 = (appendStringLoop (bytesOf "abc") makeBlock).data.getD i 0))) :=
  ⟨by decide, by decide,
    appendByte_contract (appendStringLoop (bytesOf "abc") makeBlock) 100 (by decide) (by decide)⟩

/-- C16: for a password of `p` bytes and a salt of `s` bytes with
`2 * p + s ≤ 55`, `computeAlternateHash` writes the MD5 digest of the password
followed by the salt followed by the password: the bytes `md5Hash` writes for
any block that holds this byte string. -/
theorem computeAlternateHash_digest (pass salt : List Nat)
    (h : 2 * pass.length + salt.length ≤ 55) :
    computeAlternateHash pass salt = .ok (md5Msg (pass ++ salt ++ pass)) ∧
    ∀ b, Holds b (pass ++ salt ++ pass) →
      ∃ b', md5Hash b = .ok (b', md5Msg (pass ++ salt ++ pass)) := by
  constructor
  · apply eq_ok_of_kindOf
    rw [kindOf_computeAlternateHash, msgAlternateHash_eq, if_pos h, List.append_assoc]
  · intro b hb
    obtain ⟨b', h1, _, _⟩ := md5Hash_of_holds hb (by simp; omega)
    exact ⟨b', h1⟩

theorem computeAlternateHash_digest_witness :
    2 * (bytesOf "Xr4ilOzQ").length + (bytesOf "3azHgidD").length ≤ 55 ∧
    (computeAlternateHash (bytesOf "Xr4ilOzQ") (bytesOf "3azHgidD") =
      .ok (md5Msg (bytesOf "Xr4ilOzQ" ++ bytesOf "3azHgidD" ++ bytesOf "Xr4ilOzQ")) ∧
    ∀ b, Holds b (bytesOf "Xr4ilOzQ" ++ bytesOf "3azHgidD" ++ bytesOf "Xr4ilOzQ") →
      ∃ b', md5Hash b =
        .ok (b', md5Msg (bytesOf "Xr4ilOzQ" ++ bytesOf "3azHgidD" ++ bytesOf "Xr4ilOzQ"))) :=
  ⟨by decide, computeAlternateHash_digest (bytesOf "Xr4ilOzQ") (bytesOf "3azHgidD") (by decide)⟩

theorem computeNextIntermediate_eq (pass salt : List Nat) (inum : Nat) (intHash : List Nat)
    (hh : intHash.length = 16) :
    ((nextMsg pass salt inum intHash).length ≤ 55 →
      computeNextIntermediate pass salt inum intHash =
        .ok (md5Msg (nextMsg pass salt inum intHash))) ∧
    (55 < (nextMsg pass salt inum intHash).length →
      ∃ f, computeNextIntermediate pass salt inum intHash = .error f ∧
        f.error = .blockOverflow) := by
  have hk := (kindOf_computeNextIntermediate pass salt inum intHash).trans
    (msgNextIntermediate_eq pass salt inum hh)
  constructor
  · intro hle
    rw [if_pos hle] at hk
    exact eq_ok_of_kindOf hk
  · intro hgt
    rw [if_neg (by omega)] at hk
    exact eq_error_of_kindOf hk

/-- C14: for a 16-byte intermediate hash `h` and an iteration number `inum`,
`computeNextIntermediate` writes the MD5 digest of `h`, then the salt if
`inum % 3 ≠ 0`, then the password if `inum % 7 ≠ 0`, then the password, when
`inum` is even, and of the password, then the salt if `inum % 3 ≠ 0`, then the
password if `inum % 7 ≠ 0`, then `h`, when `inum` is odd; that is when these
bytes are at most 55, and otherwise it stops with a block overflow. -/
theorem computeNextIntermediate_digest (pass salt h : List Nat) (inum : Nat)
    (hh : h.length = 16) :
    (inum % 2 = 0 →
      (((h ++ (if inum % 3 ≠ 0 then salt else []) ++ (if inum % 7 ≠ 0 then pass else []) ++
          pass).length ≤ 55 →
        computeNextIntermediate pass salt inum h =
          .ok (md5Msg (h ++ (if inum % 3 ≠ 0 then salt else []) ++
            (if inum % 7 ≠ 0 then pass else []) ++ pass))) ∧
      (55 < (h ++ (if inum % 3 ≠ 0 then salt else []) ++ (if inum % 7 ≠ 0 then pass else []) ++
          pass).length →
        ∃ f, computeNextIntermediate pass salt inum h = .error f ∧
          f.error = .blockOverflow))) ∧
    (inum % 2 = 1 →
      (((pass ++ (if inum % 3 ≠ 0 then salt else []) ++ (if inum % 7 ≠ 0 then pass else []) ++
          h).length ≤ 55 →
        computeNextIntermediate pass salt inum h =
          .ok (md5Msg (pass ++ (if inum % 3 ≠ 0 then salt else []) ++
            (if inum % 7 ≠ 0 then pass else []) ++ h))) ∧
      (55 < (pass ++ (if inum % 3 ≠ 0 then salt else []) ++ (if inum % 7 ≠ 0 then pass else []) ++
          h).length →
        ∃ f, computeNextIntermediate pass salt inum h = .error f ∧
          f.error = .blockOverflow))) ∧
    ∀ m b, Holds b m → m.length ≤ 55 → ∃ b', md5Hash b = .ok (b', md5Msg m) := by
  have key := computeNextIntermediate_eq pass salt inum h hh
  refine ⟨?_, ?_, ?_⟩
  · intro he
    have e : nextMsg pass salt inum h = h ++ (if inum % 3 ≠ 0 then salt else []) ++
        (if inum % 7 ≠ 0 then pass else []) ++ pass := by
      simp only [nextMsg, he, if_true, List.append_assoc]
    rw [← e]
    exact key
  · intro ho
    have e : nextMsg pass salt inum h = pass ++ (if inum % 3 ≠ 0 then salt else []) ++
        (if inum % 7 ≠ 0 then pass else []) ++ h := by
      simp only [nextMsg, show ¬ (inum % 2 = 0) by omega, if_false, List.append_assoc]
    rw [← e]
    exact key
  · intro m b hb hm
    obtain ⟨b', h1, _, _⟩ := md5Hash_of_holds hb hm
    exact ⟨b', h1⟩

theorem computeNextIntermediate_digest_witness :
    (md5Msg []).length = 16 ∧
    ((4 % 2 = 0 →
      (((md5Msg [] ++ (if 4 % 3 ≠ 0 then bytesOf "3azHgidD" else []) ++
          (if 4 % 7 ≠ 0 then bytesOf "Xr4ilOzQ" else []) ++ bytesOf "Xr4ilOzQ").length ≤ 55 →
        computeNextIntermediate (bytesOf "Xr4ilOzQ") (bytesOf "3azHgidD") 4 (md5Msg []) =
          .ok (md5Msg (md5Msg [] ++ (if 4 % 3 ≠ 0 then bytesOf "3azHgidD" else []) ++
            (if 4 % 7 ≠ 0 then bytesOf "Xr4ilOzQ" else []) ++ bytesOf "Xr4ilOzQ"))) ∧
      (55 < (md5Msg [] ++ (if 4 % 3 ≠ 0 then bytesOf "3azHgidD" else []) ++
          (if 4 % 7 ≠ 0 then bytesOf "Xr4ilOzQ" else []) ++ bytesOf "Xr4ilOzQ").length →
        ∃ f, computeNextIntermediate (bytesOf "Xr4ilOzQ") (bytesOf "3azHgidD") 4 (md5Msg []) =
          .error f ∧ f.error = .blockOverflow))) ∧
    (4 % 2 = 1 →
      (((bytesOf "Xr4ilOzQ" ++ (if 4 % 3 ≠ 0 then bytesOf "3azHgidD" else []) ++
          (if 4 % 7 ≠ 0 then bytesOf "Xr4ilOzQ" else []) ++ md5Msg []).length ≤ 55 →
        computeNextIntermediate (bytesOf "Xr4ilOzQ") (bytesOf "3azHgidD") 4 (md5Msg []) =
          .ok (md5Msg (bytesOf "Xr4ilOzQ" ++ (if 4 % 3 ≠ 0 then bytesOf "3azHgidD" else []) ++
            (if 4 % 7 ≠ 0 then bytesOf "Xr4ilOzQ" else []) ++ md5Msg []))) ∧
      (55 < (bytesOf "Xr4ilOzQ" ++ (if 4 % 3 ≠ 0 then bytesOf "3azHgidD" else []) ++
          (if 4 % 7 ≠ 0 then bytesOf "Xr4ilOzQ" else []) ++ md5Msg []).length →
        ∃ f, computeNextIntermediate (bytesOf "Xr4ilOzQ") (bytesOf "3azHgidD") 4 (md5Msg []) =
          .error f ∧ f.error = .blockOverflow))) ∧
    ∀ m b, Holds b m → m.length ≤ 55 → ∃ b', md5Hash b = .ok (b', md5Msg m)) :=
  ⟨md5Msg_length [],
    computeNextIntermediate_digest (bytesOf "Xr4ilOzQ") (bytesOf "3azHgidD") (md5Msg []) 4
      (md5Msg_length [])⟩

/-! ## The buffer invariant -/

theorem inBounds_makeBlock : InBounds makeBlock := by
  simp [InBounds, makeBlock, BLOCK_SIZE]

theorem inBounds_storeNext {b : Block} (x : Nat) (h : InBounds b) (hlt : b.len < 64) :
    InBounds (storeNext b x) := by
  obtain ⟨h1, _⟩ := h
  refine ⟨by simp [storeNext, h1], ?_⟩
  simp only [storeNext, BLOCK_SIZE]
  omega

theorem bounded_bind {r : Except Fault Block} {g : Block → Except Fault Block}
    (hr : Bounded r) (hg : ∀ b, InBounds b → Bounded (g b)) : Bounded (r.bind g) := by
  cases r with
  | ok b => exact hg b hr
  | error f => exact hr

theorem faultInBounds_bind {α : Type} {r : Except Fault Block} {g : Block → Except Fault α}
    (hr : Bounded r) (hg : ∀ b, InBounds b → FaultInBounds (g b)) :
    FaultInBounds (r.bind g) := by
  cases r with
  | ok b => exact hg b hr
  | error f => exact hr

theorem faultInBounds_bind_any {α β : Type} {r : Except Fault α} {g : α → Except Fault β}
    (hr : FaultInBounds r) (hg : ∀ a, FaultInBounds (g a)) : FaultInBounds (r.bind g) := by
  cases r with
  | ok a => exact hg a
  | error f => exact hr

theorem bounded_appendByte {b : Block} (x : Nat) (h : InBounds b) :
    Bounded (appendByte b x) := by
  unfold appendByte
  split
  · exact h
  · rename_i hle
    simp only [BLOCK_SIZE] at hle
    exact inBounds_storeNext x h (by omega)

theorem inBounds_appendStringLoop (s : List Nat) : ∀ {b : Block}, InBounds b →
    b.len + s.length ≤ 64 → InBounds (appendStringLoop s b) := by
  induction s with
  | nil => intro b h _; exact h
  | cons c rest ih =>
    intro b h hle
    simp only [List.length_cons] at hle
    have h1 := inBounds_storeNext c h (by omega)
    exact ih h1 (by simp only [storeNext]; omega)

theorem bounded_appendString {b : Block} (s : List Nat) (h : InBounds b) :
    Bounded (appendString b s) := by
  simp only [appendString]
  split
  · exact h
  · rename_i hle
    simp only [BLOCK_SIZE] at hle
    exact inBounds_appendStringLoop s h (by omega)

theorem bounded_storeUnchecked {b : Block} (x : Nat) (h : InBounds b) :
    Bounded (storeUnchecked b x) := by
  unfold storeUnchecked
  split
  · rename_i hlt
    rw [h.1] at hlt
    exact inBounds_storeNext x h hlt
  · exact h

theorem bounded_padZeros : ∀ (fuel : Nat) {b : Block}, InBounds b → Bounded (padZeros fuel b) := by
  intro fuel
  induction fuel with
  | zero => intro b h; exact h
  | succ fuel ih =>
    intro b h
    simp only [padZeros]
    split
    · exact bounded_bind (bounded_appendByte _ h) (fun b1 h1 => ih h1)
    · exact h

theorem bounded_padLength (lenBytes : Nat) : ∀ (n i : Nat) {b : Block}, InBounds b →
    Bounded (padLength lenBytes n i b) := by
  intro n
  induction n with
  | zero => intro i b h; exact h
  | succ n ih =>
    intro i b h
    simp only [padLength]
    exact bounded_bind (bounded_appendByte _ h) (fun b1 h1 => ih (i + 1) h1)

theorem bounded_padBlock {b : Block} (h : InBounds b) : Bounded (padBlock b) := by
  simp only [padBlock]
  refine bounded_bind (bounded_appendByte _ h) (fun b1 h1 => ?_)
  exact bounded_bind (bounded_padZeros _ h1) (fun b2 h2 => bounded_padLength _ _ _ h2)

theorem faultInBounds_md5Hash {b : Block} (h : InBounds b) :
    FaultInBounds ((md5Hash b).bind fun r => .ok r.2) := by
  have hp := bounded_padBlock h
  simp only [md5Hash]
  cases hq : padBlock b with
  | ok b' => exact True.intro
  | error f => rw [hq] at hp; exact hp

theorem bounded_appendAltHash (altHash : List Nat) : ∀ (n i : Nat) {b : Block}, InBounds b →
    Bounded (appendAltHash altHash n i b) := by
  intro n
  induction n with
  | zero => intro i b h; exact h
  | succ n ih =>
    intro i b h
    simp only [appendAltHash]
    split
    · exact bounded_bind (bounded_appendByte _ h) (fun b1 h1 => ih (i + 1) h1)
    · exact h

theorem bounded_bitWalk : ∀ (fuel passwordLength : Nat) {b : Block}, InBounds b →
    Bounded (bitWalk fuel passwordLength b) := by
  intro fuel
  induction fuel with
  | zero => intro pl b h; exact h
  | succ fuel ih =>
    intro pl b h
    simp only [bitWalk]
    split
    · split
      · exact bounded_bind (bounded_storeUnchecked _ h) (fun b1 h1 => ih _ h1)
      · split
        · exact bounded_bind (bounded_storeUnchecked _ h) (fun b1 h1 => ih _ h1)
        · exact ih _ h
    · exact h

theorem bounded_firstIntermediateBlock (pass salt altHash : List Nat) :
    Bounded (firstIntermediateBlock pass salt altHash) := by
  simp only [firstIntermediateBlock]
  refine bounded_bind (bounded_appendString _ inBounds_makeBlock) (fun b1 h1 => ?_)
  refine bounded_bind (bounded_appendString _ h1) (fun b2 h2 => ?_)
  refine bounded_bind (bounded_appendString _ h2) (fun b3 h3 => ?_)
  exact bounded_bind (bounded_appendAltHash altHash _ _ h3) (fun b4 h4 => bounded_bitWalk _ _ h4)

theorem bounded_appendHash (intHash : List Nat) : ∀ (n i : Nat) {b : Block}, InBounds b →
    Bounded (appendHash intHash n i b) := by
  intro n
  induction n with
  | zero => intro i b h; exact h
  | succ n ih =>
    intro i b h
    simp only [appendHash]
    exact bounded_bind (bounded_appendByte _ h) (fun b1 h1 => ih (i + 1) h1)

theorem bounded_ite (c : Prop) [Decidable c] {b : Block} (s : List Nat) (h : InBounds b) :
    Bounded (if c then appendString b s else .ok b) := by
  split
  · exact bounded_appendString s h
  · exact h

theorem bounded_nextIntermediateBlock (pass salt : List Nat) (inum : Nat) (intHash : List Nat) :
    Bounded (nextIntermediateBlock pass salt inum intHash) := by
  simp only [nextIntermediateBlock]
  split
  · refine bounded_bind (bounded_appendHash intHash _ _ inBounds_makeBlock) (fun b1 h1 => ?_)
    refine bounded_bind (bounded_ite _ salt h1) (fun b2 h2 => ?_)
    exact bounded_bind (bounded_ite _ pass h2) (fun b3 h3 => bounded_appendString _ h3)
  · refine bounded_bind (bounded_appendString _ inBounds_makeBlock) (fun b1 h1 => ?_)
    refine bounded_bind (bounded_ite _ salt h1) (fun b2 h2 => ?_)
    exact bounded_bind (bounded_ite _ pass h2) (fun b3 h3 => bounded_appendHash intHash _ _ h3)

theorem faultInBounds_computeAlternateHash (pass salt : List Nat) :
    FaultInBounds (computeAlternateHash pass salt) := by
  simp only [computeAlternateHash]
  refine faultInBounds_bind (bounded_appendString _ inBounds_makeBlock) (fun b1 h1 => ?_)
  refine faultInBounds_bind (bounded_appendString _ h1) (fun b2 h2 => ?_)
  exact faultInBounds_bind (bounded_appendString _ h2) (fun b3 h3 => faultInBounds_md5Hash h3)

theorem faultInBounds_computeFirstIntermediate (pass salt altHash : List Nat) :
    FaultInBounds (computeFirstIntermediate pass salt altHash) :=
  faultInBounds_bind (bounded_firstIntermediateBlock pass salt altHash)
    (fun _ h => faultInBounds_md5Hash h)

theorem faultInBounds_computeNextIntermediate (pass salt : List Nat) (inum : Nat)
    (intHash : List Nat) : FaultInBounds (computeNextIntermediate pass salt inum intHash) :=
  faultInBounds_bind (bounded_nextIntermediateBlock pass salt inum intHash)
    (fun _ h => faultInBounds_md5Hash h)

theorem faultInBounds_iterate (pass salt : List Nat) : ∀ (n i : Nat) (intHash : List Nat),
    FaultInBounds (iterate pass salt n i intHash) := by
  intro n
  induction n with
  | zero => intro i h; exact True.intro
  | succ n ih =>
    intro i h
    exact faultInBounds_bind_any (faultInBounds_computeNextIntermediate pass salt i h)
      (fun a => ih (i + 1) a)

theorem faultInBounds_hashPassword (pass salt : List Nat) :
    FaultInBounds (hashPassword pass salt) := by
  simp only [hashPassword]
  refine faultInBounds_bind (bounded_appendString _ inBounds_makeBlock) (fun _ _ => ?_)
  refine faultInBounds_bind_any (faultInBounds_computeAlternateHash pass salt) (fun altHash => ?_)
  refine faultInBounds_bind_any (faultInBounds_computeFirstIntermediate pass salt altHash)
    (fun intHash => ?_)
  exact faultInBounds_bind_any (faultInBounds_iterate pass salt _ _ intHash)
    (fun _ => True.intro)

theorem bind_ne_error {α β : Type} {r : Except HashError α} {g : α → Except HashError β}
    (e : HashError) (hr : r ≠ .error e) (hg : ∀ a, r = .ok a → g a ≠ .error e) :
    r.bind g ≠ .error e := by
  cases r with
  | ok a => rw [ok_bind]; exact hg a rfl
  | error e1 =>
    rw [error_bind]
    intro h
    apply hr
    cases h
    rfl

theorem msgAppend_ne_store (m s : List Nat) : msgAppend m s ≠ .error .storeOutsideBlock := by
  unfold msgAppend
  split <;> simp

theorem msgMd5_ne_store (m : List Nat) : msgMd5 m ≠ .error .storeOutsideBlock := by
  rw [msgMd5_eq]
  split <;> simp

theorem msgAppendAltHash_ne_store (altHash : List Nat) : ∀ (n i : Nat) (m : List Nat),
    msgAppendAltHash altHash n i m ≠ .error .storeOutsideBlock := by
  intro n
  induction n with
  | zero => intro i m; simp [msgAppendAltHash]
  | succ n ih =>
    intro i m
    simp only [msgAppendAltHash]
    split
    · exact bind_ne_error _ (msgAppend_ne_store _ _) (fun a _ => ih (i + 1) a)
    · simp

theorem msgAppendAltHash_length (altHash : List Nat) : ∀ (n i : Nat) (m m' : List Nat),
    msgAppendAltHash altHash n i m = .ok m' → m'.length = m.length + n := by
  intro n
  induction n with
  | zero => intro i m m' h; cases h; rfl
  | succ n ih =>
    intro i m m' h
    simp only [msgAppendAltHash] at h
    split at h
    · cases h1 : msgAppend m [altHash.getD i 0] with
      | error e => rw [h1, error_bind] at h; cases h
      | ok m1 =>
        rw [h1, ok_bind] at h
        have := ih (i + 1) m1 m' h
        rw [this, msgAppend_ok h1]
        simp
        omega
    · cases h

theorem msgFirstBlock_ne_store (pass salt altHash : List Nat)
    (hle : 2 * pass.length + salt.length ≤ 55) :
    msgFirstBlock pass salt altHash ≠ .error .storeOutsideBlock := by
  have h3 : (bytesOf "$1$").length = 3 := by decide
  simp only [msgFirstBlock]
  refine bind_ne_error _ (msgAppend_ne_store _ _) (fun m1 e1 => ?_)
  refine bind_ne_error _ (msgAppend_ne_store _ _) (fun m2 e2 => ?_)
  refine bind_ne_error _ (msgAppend_ne_store _ _) (fun m3 e3 => ?_)
  refine bind_ne_error _ (msgAppendAltHash_ne_store _ _ _ _) (fun m4 e4 => ?_)
  have l1 := congrArg List.length (msgAppend_ok e1)
  have l2 := congrArg List.length (msgAppend_ok e2)
  have l3 := congrArg List.length (msgAppend_ok e3)
  have l4 := msgAppendAltHash_length _ _ _ _ _ e4
  simp only [List.length_append, List.length_nil, h3] at l1 l2 l3
  obtain ⟨m', hm, _, _⟩ := msgBitWalk_ok pass.length pass.length 5 m4 (Nat.le_refl _)
    (by norm_num; omega) (by omega)
  rw [hm]
  simp

theorem msgFirstIntermediate_ne_store (pass salt altHash : List Nat)
    (hle : 2 * pass.length + salt.length ≤ 55) :
    msgFirstIntermediate pass salt altHash ≠ .error .storeOutsideBlock :=
  bind_ne_error _ (msgFirstBlock_ne_store pass salt altHash hle) (fun m _ => msgMd5_ne_store m)

theorem msgAppendHash_ne_store (intHash : List Nat) : ∀ (n i : Nat) (m : List Nat),
    msgAppendHash intHash n i m ≠ .error .storeOutsideBlock := by
  intro n
  induction n with
  | zero => intro i m; simp [msgAppendHash]
  | succ n ih =>
    intro i m
    simp only [msgAppendHash]
    exact bind_ne_error _ (msgAppend_ne_store _ _) (fun a _ => ih (i + 1) a)

theorem msgAppend_ite_ne_store (c : Prop) [Decidable c] (m s : List Nat) :
    (if c then msgAppend m s else .ok m) ≠ .error .storeOutsideBlock := by
  split
  · exact msgAppend_ne_store m s
  · simp

theorem msgNextBlock_ne_store (pass salt : List Nat) (inum : Nat) (intHash : List Nat) :
    msgNextBlock pass salt inum intHash ≠ .error .storeOutsideBlock := by
  simp only [msgNextBlock]
  split
  · refine bind_ne_error _ (msgAppendHash_ne_store _ _ _ _) (fun m1 _ => ?_)
    refine bind_ne_error _ (msgAppend_ite_ne_store _ _ _) (fun m2 _ => ?_)
    exact bind_ne_error _ (msgAppend_ite_ne_store _ _ _) (fun m3 _ => msgAppend_ne_store _ _)
  · refine bind_ne_error _ (msgAppend_ne_store _ _) (fun m1 _ => ?_)
    refine bind_ne_error _ (msgAppend_ite_ne_store _ _ _) (fun m2 _ => ?_)
    exact bind_ne_error _ (msgAppend_ite_ne_store _ _ _)
      (fun m3 _ => msgAppendHash_ne_store _ _ _ _)

theorem msgIterate_ne_store (pass salt : List Nat) : ∀ (n i : Nat) (intHash : List Nat),
    msgIterate pass salt n i intHash ≠ .error .storeOutsideBlock := by
  intro n
  induction n with
  | zero => intro i h; simp [msgIterate]
  | succ n ih =>
    intro i h
    rw [msgIterate_succ]
    refine bind_ne_error _ ?_ (fun a _ => ih (i + 1) a)
    exact bind_ne_error _ (msgNextBlock_ne_store pass salt i h) (fun m _ => msgMd5_ne_store m)

theorem msgAlternateHash_ok_le {pass salt altHash : List Nat}
    (h : msgAlternateHash pass salt = .ok altHash) : 2 * pass.length + salt.length ≤ 55 := by
  rw [msgAlternateHash_eq] at h
  by_contra hn
  rw [if_neg hn] at h
  cases h

theorem msgHashPassword_ne_store (pass salt : List Nat) :
    msgHashPassword pass salt ≠ .error .storeOutsideBlock := by
  simp only [msgHashPassword]
  refine bind_ne_error _ (msgAppend_ne_store _ _) (fun _ _ => ?_)
  refine bind_ne_error _ ?_ (fun altHash ha => ?_)
  · rw [msgAlternateHash_eq]
    split <;> simp
  refine bind_ne_error _ (msgFirstIntermediate_ne_store pass salt altHash
    (msgAlternateHash_ok_le ha)) (fun intHash _ => ?_)
  refine bind_ne_error _ (msgIterate_ne_store pass salt _ _ intHash) (fun _ _ => ?_)
  simp

theorem sim_error {f : Fault} {q : Except HashError (List Nat)} (h : Sim (.error f) q) :
    q = .error f.error := by
  cases h with
  | error he => rw [he]

/-- C12: the buffer invariant of a `hashPassword` run, for every password and
salt. Whenever the run stops early, the block being filled has 64 entries and
a length of at most 64, and the stop is never a store outside the array. Once
`computeAlternateHash` has returned, the block of `computeFirstIntermediate`
keeps the invariant whatever the bytes read from `altHash` are, and its
bit-walk, which stores at `data[ len++ ]` without a capacity check, never
stores outside the array. The block of `computeNextIntermediate` keeps the
invariant in every iteration, and `appendByte`, `appendString`, the unchecked
store and `padBlock` keep it on every block that has it. -/
theorem hashPassword_buffer_invariant (pass salt : List Nat) :
    (∀ f, hashPassword pass salt = .error f →
      InBounds f.block ∧ f.error ≠ .storeOutsideBlock) ∧
    (∀ h, computeAlternateHash pass salt = .ok h → ∀ altHash,
      Bounded (firstIntermediateBlock pass salt altHash) ∧
      ∀ f, firstIntermediateBlock pass salt altHash = .error f →
        f.error ≠ .storeOutsideBlock) ∧
    (∀ inum intHash, Bounded (nextIntermediateBlock pass salt inum intHash)) ∧
    (∀ b, InBounds b →
      (∀ x, Bounded (appendByte b x)) ∧ (∀ s, Bounded (appendString b s)) ∧
      (∀ x, Bounded (storeUnchecked b x)) ∧ Bounded (padBlock b)) := by
  refine ⟨?_, ?_, ?_, ?_⟩
  · intro f hf
    have hb := faultInBounds_hashPassword pass salt
    rw [hf] at hb
    refine ⟨hb, fun he => ?_⟩
    have hk := kindOf_hashPassword pass salt
    rw [hf] at hk
    apply msgHashPassword_ne_store pass salt
    rw [← hk, ← he]
    rfl
  · intro h hh altHash
    have hk := kindOf_computeAlternateHash pass salt
    rw [hh] at hk
    have hle : 2 * pass.length + salt.length ≤ 55 := msgAlternateHash_ok_le hk.symm
    refine ⟨bounded_firstIntermediateBlock pass salt altHash, fun f hf he => ?_⟩
    have hs := sim_firstIntermediateBlock pass salt altHash
    rw [hf] at hs
    apply msgFirstBlock_ne_store pass salt altHash hle
    rw [sim_error hs, he]
  · exact fun inum intHash => bounded_nextIntermediateBlock pass salt inum intHash
  · exact fun b hb => ⟨fun x => bounded_appendByte x hb, fun s => bounded_appendString s hb,
      fun x => bounded_storeUnchecked x hb, bounded_padBlock hb⟩

theorem hashPassword_buffer_invariant_witness :
    ∃ f, hashPassword (bytesOf "0123456789abcdef") (bytesOf "01234567") = .error f ∧
      InBounds f.block ∧ f.error ≠ .storeOutsideBlock := by
  obtain ⟨f, hf, _⟩ := eq_error_of_kindOf
    ((kindOf_hashPassword (bytesOf "0123456789abcdef") (bytesOf "01234567")).trans
      (msgHashPassword_overflow (bytesOf "0123456789abcdef") (bytesOf "01234567")
        (by decide) (by decide)))
  exact ⟨f, hf,
    (hashPassword_buffer_invariant (bytesOf "0123456789abcdef") (bytesOf "01234567")).1 f hf⟩

/-! ## Reading the output string back -/

theorem or_shift_eq (a b k : Nat) (hb : b < 2 ^ k) : (a <<< k) ||| b = 2 ^ k * a + b := by
  rw [Nat.shiftLeft_eq, Nat.mul_comm, Nat.mul_add_lt_is_or hb]

theorem and_63 (x : Nat) : x &&& 0x3F = x % 64 :=
  Nat.and_pow_two_sub_one_eq_mod x 6

theorem letters_decode (R : List Nat) (i : Nat) (hi : i < 5) (hb : ∀ x ∈ R, x < 256)
    (rest : List Nat) :
    decodeGroups (letters R i ++ rest) =
      R.getD (i * 3) 0 :: R.getD (i * 3 + 1) 0 :: R.getD (i * 3 + 2) 0 :: decodeGroups rest := by
  have h0 := getD_lt_of_forall hb (by norm_num : 0 < 256) (i * 3)
  have h1 := getD_lt_of_forall hb (by norm_num : 0 < 256) (i * 3 + 1)
  have h2 := getD_lt_of_forall hb (by norm_num : 0 < 256) (i * 3 + 2)
  have hne : ¬ (i * 3 = 15) := by omega
  simp only [letters, SET_OF_BYTES, hne, if_false, MASK_FOR_BITS, BITS_MASK_MSB, BITS_IN_LETTER,
    SECOND_BYTE_IN_SET, THIRD_BYTE_IN_SET, LEFTOVER_BITS_LSB, LEFTOVER_BITS_MIDDLE,
    LEFTOVER_BITS_MSB, List.cons_append, List.nil_append, decodeGroups, Nat.or_zero]
  generalize R.getD (i * 3) 0 = b0 at h0
  generalize R.getD (i * 3 + 1) 0 = b1 at h1
  generalize R.getD (i * 3 + 2) 0 = b2 at h2
  have e1 : (b1 <<< 2) ||| (b0 >>> 6) = 2 ^ 2 * b1 + b0 >>> 6 :=
    or_shift_eq b1 (b0 >>> 6) 2 (by rw [Nat.shiftRight_eq_div_pow]; omega)
  have e2 : (b2 <<< 4) ||| (b1 >>> 4) = 2 ^ 4 * b2 + b1 >>> 4 :=
    or_shift_eq b2 (b1 >>> 4) 4 (by rw [Nat.shiftRight_eq_div_pow]; omega)
  rw [e1, e2]
  simp only [and_63, Nat.shiftRight_eq_div_pow]
  refine congrArg₂ _ ?_ (congrArg₂ _ ?_ (congrArg₂ _ ?_ rfl)) <;> omega

theorem letters_decode_last (R : List Nat) (hb : ∀ x ∈ R, x < 256) :
    decodeGroups (letters R 5 ++ []) = [R.getD 15 0] := by
  have h0 := getD_lt_of_forall hb (by norm_num : 0 < 256) 15
  simp only [letters, SET_OF_BYTES, if_true, MASK_FOR_BITS, BITS_IN_LETTER,
    List.cons_append, List.nil_append, decodeGroups, and_63, Nat.shiftRight_eq_div_pow]
  generalize R.getD 15 0 = b at h0
  congr 1
  omega

theorem list_eq_getD_sixteen (l : List Nat) (h : l.length = 16) :
    [l.getD 0 0, l.getD 1 0, l.getD 2 0, l.getD 3 0, l.getD 4 0, l.getD 5 0, l.getD 6 0,
      l.getD 7 0, l.getD 8 0, l.getD 9 0, l.getD 10 0, l.getD 11 0, l.getD 12 0, l.getD 13 0,
      l.getD 14 0, l.getD 15 0] = l := by
  apply List.ext_getElem
  · simp [h]
  · intro n h1 h2
    simp only [List.length_cons, List.length_nil] at h1
    rw [← List.getD_eq_getElem l 0 h2]
    interval_cases n <;> rfl

theorem decodeGroups_letterLoop (R : List Nat) (hl : R.length = 16) (hb : ∀ x ∈ R, x < 256) :
    decodeGroups (letterLoop R BYTE_TO_CHAR_TRANSLATION_ROUNDS 0) = R := by
  have e : letterLoop R BYTE_TO_CHAR_TRANSLATION_ROUNDS 0 =
      letters R 0 ++ (letters R 1 ++ (letters R 2 ++ (letters R 3 ++ (letters R 4 ++
        (letters R 5 ++ []))))) := rfl
  rw [e, letters_decode R 0 (by decide) hb, letters_decode R 1 (by decide) hb,
    letters_decode R 2 (by decide) hb, letters_decode R 3 (by decide) hb,
    letters_decode R 4 (by decide) hb, letters_decode_last R hb]
  exact list_eq_getD_sixteen R hl

theorem rearrange_length (hash : List Nat) : ∀ (n i : Nat), (rearrange hash n i).length = n := by
  intro n
  induction n with
  | zero => intro i; rfl
  | succ n ih => intro i; simp [rearrange, ih]

theorem rearrange_getD (hash : List Nat) : ∀ (n i k : Nat), k < n →
    (rearrange hash n i).getD k 0 = hash.getD (pwPerm.getD (i + k) 0) 0 := by
  intro n
  induction n with
  | zero => intro i k hk; omega
  | succ n ih =>
    intro i k hk
    cases k with
    | zero => rfl
    | succ k =>
      simp only [rearrange, List.getD_cons_succ]
      rw [ih (i + 1) k (by omega)]
      congr 2
      omega

theorem charIndex_getD : ∀ i, i < 64 → charIndex (pwCode64.getD i (Char.ofNat 0)) = i := by
  decide

theorem map_charIndex_hashToString (hash : List Nat) (hb : ∀ x ∈ hash, x < 256) :
    (hashToString hash).map charIndex = hashToIndices hash := by
  simp only [hashToString, List.map_map]
  conv => rhs; rw [← List.map_id (hashToIndices hash)]
  apply List.map_congr_left
  intro idx hidx
  exact charIndex_getD idx (hashToIndices_lt hash hb idx hidx)

theorem decodeString_hashToString (hash : List Nat) (hb : ∀ x ∈ hash, x < 256) :
    decodeString (hashToString hash) = rearrange hash HASH_SIZE 0 := by
  simp only [decodeString, map_charIndex_hashToString hash hb, hashToIndices]
  exact decodeGroups_letterLoop _ (rearrange_length hash _ _) (rearrange_lt hash hb _ _)

theorem pwPerm_onto : ∀ j, j < 16 → ∃ i, i < 16 ∧ pwPerm.getD i 0 = j := by
  decide

theorem eq_of_rearrange_eq (hash hash' : List Nat) (hl : hash.length = 16)
    (hl' : hash'.length = 16)
    (h : rearrange hash' HASH_SIZE 0 = rearrange hash HASH_SIZE 0) : hash' = hash := by
  apply List.ext_getElem
  · rw [hl, hl']
  · intro j h1 h2
    rw [← List.getD_eq_getElem hash' 0 h1, ← List.getD_eq_getElem hash 0 h2]
    obtain ⟨i, hi, hij⟩ := pwPerm_onto j (by omega)
    have := congrArg (fun l => l.getD i 0) h
    simp only [HASH_SIZE] at this
    rw [rearrange_getD hash' 16 0 i hi, rearrange_getD hash 16 0 i hi, Nat.zero_add, hij] at this
    exact this

/-- C13: for a 16-byte digest, `hashToString` writes 22 characters, and
reading each of them back as its index in the alphabet and reassembling these
6-bit values, least significant bits first (four values for each group of
three bytes, two for the last byte), gives back the 16 permuted bytes
`hash[ pwPerm[ i ] ]`. The table `pwPerm` lists each of 0..15 once and the
alphabet has 64 distinct characters, so two 16-byte digests with the same
string are equal. -/
theorem hashToString_decode (hash : List Nat) (hl : hash.length = 16)
    (hb : ∀ x ∈ hash, x < 256) :
    (hashToString hash).length = 22 ∧
    decodeString (hashToString hash) = rearrange hash HASH_SIZE 0 ∧
    (rearrange hash HASH_SIZE 0).length = 16 ∧
    (∀ i, i < 16 → (rearrange hash HASH_SIZE 0).getD i 0 = hash.getD (pwPerm.getD i 0) 0) ∧
    (pwPerm.Nodup ∧ pwPerm.length = 16 ∧ ∀ x ∈ pwPerm, x < 16) ∧
    (pwCode64.Nodup ∧ pwCode64.length = 64) ∧
    (∀ hash' : List Nat, hash'.length = 16 → (∀ x ∈ hash', x < 256) →
      hashToString hash' = hashToString hash → hash' = hash) := by
  refine ⟨?_, decodeString_hashToString hash hb, rearrange_length hash _ _, ?_,
    ⟨by decide, by decide, by decide⟩, ⟨by decide, by decide⟩, ?_⟩
  · simp only [hashToString, List.length_map, hashToIndices_length]
  · intro i hi
    have := rearrange_getD hash 16 0 i hi
    rw [Nat.zero_add] at this
    exact this
  · intro hash' hl' hb' he
    apply eq_of_rearrange_eq hash hash' hl hl'
    rw [← decodeString_hashToString hash hb, ← decodeString_hashToString hash' hb', he]

theorem hashToString_decode_witness :
    (List.range 16).length = 16 ∧ (∀ x ∈ List.range 16, x < 256) ∧
    decodeString (hashToString (List.range 16)) = rearrange (List.range 16) HASH_SIZE 0 :=
  ⟨by decide, by decide, (hashToString_decode (List.range 16) (by decide) (by decide)).2.1⟩

/-! ## The first intermediate hash -/

theorem walkBytes_zero (first : Nat) : walkBytes first 0 = [] := by
  simp [walkBytes]

theorem walkBytes_pos (first : Nat) {p : Nat} (hp : p ≠ 0) :
    walkBytes first p = (if p % 2 = 1 then 0x00 else first) :: walkBytes first (p / 2) := by
  simp only [walkBytes]
  rw [Nat.digits_def' (by decide) (by omega)]
  rfl

theorem getD_append_singleton {m : List Nat} (hm : m ≠ []) (x : Nat) :
    (m ++ [x]).getD 0 0 = m.getD 0 0 := by
  cases m with
  | nil => exact absurd rfl hm
  | cons a t => rfl

theorem msgBitWalk_eq : ∀ (fuel passwordLength : Nat) (m : List Nat),
    passwordLength ≤ fuel → m ≠ [] → m.length ≤ 64 →
    msgBitWalk fuel passwordLength m =
      if (m ++ walkBytes (m.getD 0 0) passwordLength).length ≤ 64 then
        .ok (m ++ walkBytes (m.getD 0 0) passwordLength)
      else .error .storeOutsideBlock := by
  intro fuel
  induction fuel with
  | zero =>
    intro pl m h0 _ hl
    have : pl = 0 := by omega
    subst this
    rw [walkBytes_zero, List.append_nil, if_pos hl]
    rfl
  | succ fuel ih =>
    intro pl m hf hm hl
    by_cases hz : pl = 0
    · subst hz
      rw [walkBytes_zero, List.append_nil, if_pos hl]
      simp [msgBitWalk]
    · have hpl : pl >>> SINGLE_BIT_MOVEMENT ≤ fuel := by
        simp only [SINGLE_BIT_MOVEMENT, Nat.shiftRight_eq_div_pow, pow_one]
        omega
      have hsh : pl >>> SINGLE_BIT_MOVEMENT = pl / 2 := by
        simp only [SINGLE_BIT_MOVEMENT, Nat.shiftRight_eq_div_pow, pow_one]
      have key : ∀ x, (msgStoreUnchecked m x).bind (msgBitWalk fuel (pl >>> SINGLE_BIT_MOVEMENT)) =
          if (m ++ x :: walkBytes (m.getD 0 0) (pl / 2)).length ≤ 64 then
            .ok (m ++ x :: walkBytes (m.getD 0 0) (pl / 2))
          else .error .storeOutsideBlock := by
        intro x
        by_cases hlt : m.length < 64
        · have hs : msgStoreUnchecked m x = .ok (m ++ [x]) := by
            simp only [msgStoreUnchecked, BLOCK_SIZE, hlt, if_true]
          rw [hs, ok_bind, ih _ (m ++ [x]) hpl (by simp) (by simp; omega),
            getD_append_singleton hm, hsh, List.append_assoc, List.singleton_append]
        · have hs : msgStoreUnchecked m x = .error .storeOutsideBlock := by
            simp only [msgStoreUnchecked, BLOCK_SIZE, hlt, if_false]
          rw [hs, error_bind, if_neg (by simp; omega)]
      rw [walkBytes_pos _ hz]
      simp only [msgBitWalk, hz, ne_eq, not_false_eq_true, if_true, ZERO_BYTE_FLAG,
        FIRST_BYTE_FLAG, FIRST_BYTE_OF_BLOCK_DATA_IDX]
      rcases and_one_cases pl with h0 | h1
      · have hb : ¬ (pl % 2 = 1) := by rw [Nat.and_one_is_mod] at h0; omega
        rw [if_neg (by omega), if_pos h0, key, if_neg hb]
      · have hb : pl % 2 = 1 := by rw [Nat.and_one_is_mod] at h1; exact h1
        rw [if_pos h1, key, if_pos hb]

theorem getD_zero_append {m : List Nat} (hm : m ≠ []) (t : List Nat) :
    (m ++ t).getD 0 0 = m.getD 0 0 := by
  cases m with
  | nil => exact absurd rfl hm
  | cons a t => rfl

theorem firstMsg_length (pass salt altHash : List Nat) (hp : pass.length ≤ 16)
    (ha : altHash.length = 16) :
    (firstMsg pass salt altHash).length =
      pass.length + 3 + salt.length + pass.length +
        (walkBytes (pass.getD 0 0) pass.length).length := by
  have h3 : (bytesOf "$1$").length = 3 := by decide
  have ht : (altHash.take pass.length).length = pass.length := by
    rw [List.length_take, ha]; omega
  simp only [firstMsg, List.length_append, h3, ht]

theorem msgFirstBlock_eq (pass salt altHash : List Nat) (hp : pass.length ≤ 16)
    (ha : altHash.length = 16) (hl : (firstMsg pass salt altHash).length ≤ 64) :
    msgFirstBlock pass salt altHash = .ok (firstMsg pass salt altHash) := by
  have h3 : (bytesOf "$1$").length = 3 := by decide
  have hw := firstMsg_length pass salt altHash hp ha
  have ht : (altHash.take pass.length).length = pass.length := by
    rw [List.length_take, ha]; omega
  have e1 : msgAppend [] pass = .ok pass := by
    rw [msgAppend_of_le (by simp; omega)]; rfl
  have e2 : msgAppend pass (bytesOf "$1$") = .ok (pass ++ bytesOf "$1$") :=
    msgAppend_of_le (by rw [h3]; omega)
  have e3 : msgAppend (pass ++ bytesOf "$1$") salt = .ok (pass ++ bytesOf "$1$" ++ salt) :=
    msgAppend_of_le (by simp [h3]; omega)
  have e4 : msgAppendAltHash altHash pass.length 0 (pass ++ bytesOf "$1$" ++ salt) =
      .ok (pass ++ bytesOf "$1$" ++ salt ++ altHash.take pass.length) := by
    rw [msgAppendAltHash_eq altHash pass.length 0 _ (by omega) (by simp [h3]; omega)]
    exact msgAppend_of_le (by simp [h3, ha]; omega)
  have hne : pass ++ bytesOf "$1$" ++ salt ++ altHash.take pass.length ≠ [] := by
    intro h
    have := congrArg List.length h
    simp [h3] at this
  have hfirst : walkBytes ((pass ++ bytesOf "$1$" ++ salt ++ altHash.take pass.length).getD 0 0)
      pass.length = walkBytes (pass.getD 0 0) pass.length := by
    by_cases hz : pass = []
    · subst hz
      simp [walkBytes_zero]
    · rw [List.append_assoc, List.append_assoc, getD_zero_append hz]
  simp only [msgFirstBlock]
  rw [e1, ok_bind, e2, ok_bind, e3, ok_bind, e4, ok_bind,
    msgBitWalk_eq _ _ _ (Nat.le_refl _) hne (by simp [h3, ht]; omega), hfirst, if_pos]
  · rfl
  · simp only [List.length_append, h3, ht]
    omega

theorem msgFirstBlock_ok_eq (pass salt altHash : List Nat) (hp : pass.length ≤ 16)
    (ha : altHash.length = 16) {m : List Nat} (h : msgFirstBlock pass salt altHash = .ok m) :
    m = firstMsg pass salt altHash := by
  have h3 : (bytesOf "$1$").length = 3 := by decide
  have ht : (altHash.take pass.length).length = pass.length := by
    rw [List.length_take, ha]; omega
  have e1 : msgAppend [] pass = .ok pass := by
    rw [msgAppend_of_le (by simp; omega)]; rfl
  have e2 : msgAppend pass (bytesOf "$1$") = .ok (pass ++ bytesOf "$1$") :=
    msgAppend_of_le (by rw [h3]; omega)
  simp only [msgFirstBlock] at h
  rw [e1, ok_bind, e2, ok_bind] at h
  by_cases h64 : pass.length + 3 + salt.length + pass.length ≤ 64
  · have e3 : msgAppend (pass ++ bytesOf "$1$") salt = .ok (pass ++ bytesOf "$1$" ++ salt) :=
      msgAppend_of_le (by simp [h3]; omega)
    have e4 : msgAppendAltHash altHash pass.length 0 (pass ++ bytesOf "$1$" ++ salt) =
        .ok (pass ++ bytesOf "$1$" ++ salt ++ altHash.take pass.length) := by
      rw [msgAppendAltHash_eq altHash pass.length 0 _ (by omega) (by simp [h3]; omega)]
      exact msgAppend_of_le (by simp [h3, ha]; omega)
    have hne : pass ++ bytesOf "$1$" ++ salt ++ altHash.take pass.length ≠ [] := by
      intro h
      have := congrArg List.length h
      simp [h3] at this
    have hfirst : walkBytes ((pass ++ bytesOf "$1$" ++ salt ++ altHash.take pass.length).getD 0 0)
        pass.length = walkBytes (pass.getD 0 0) pass.length := by
      by_cases hz : pass = []
      · subst hz
        simp [walkBytes_zero]
      · rw [List.append_assoc, List.append_assoc, getD_zero_append hz]
    rw [e3, ok_bind, e4, ok_bind,
      msgBitWalk_eq _ _ _ (Nat.le_refl _) hne (by simp [h3, ht]; omega), hfirst] at h
    split at h
    · cases h
      rfl
    · cases h
  · by_cases h3s : pass.length + 3 + salt.length ≤ 64
    · have e3 : msgAppend (pass ++ bytesOf "$1$") salt = .ok (pass ++ bytesOf "$1$" ++ salt) :=
        msgAppend_of_le (by simp [h3]; omega)
      have e4 : msgAppendAltHash altHash pass.length 0 (pass ++ bytesOf "$1$" ++ salt) =
          .error .blockOverflow := by
        rw [msgAppendAltHash_eq altHash pass.length 0 _ (by omega) (by simp [h3]; omega)]
        exact msgAppend_of_gt (by simp [h3, ha]; omega)
      rw [e3, ok_bind, e4, error_bind] at h
      cases h
    · have e3 : msgAppend (pass ++ bytesOf "$1$") salt = .error .blockOverflow :=
        msgAppend_of_gt (by simp [h3]; omega)
      rw [e3, error_bind] at h
      cases h

theorem sim_ok {r : Except Fault Block} {m : List Nat} (h : Sim r (.ok m)) :
    ∃ b, r = .ok b ∧ Holds b m := by
  cases h with
  | ok hh => exact ⟨_, rfl, hh⟩

theorem digits_two_getD : ∀ (j n : Nat), (Nat.digits 2 n).getD j 0 = n / 2 ^ j % 2 := by
  intro j
  induction j with
  | zero =>
    intro n
    by_cases hn : n = 0
    · subst hn; simp
    · rw [Nat.digits_def' (by decide) (by omega)]
      simp
  | succ j ih =>
    intro n
    by_cases hn : n = 0
    · subst hn; simp
    · rw [Nat.digits_def' (by decide) (by omega), List.getD_cons_succ, ih, pow_succ,
        Nat.div_div_eq_div_mul, Nat.mul_comm]

/-- C15: for a password of at most 16 bytes and a 16-byte alternate hash,
`computeFirstIntermediate` returns normally exactly when the bytes below are
at most 55, and then the block it digests holds these bytes and the result is
their MD5 digest: the password, the three bytes of `$1$`, the salt, the first
`p` bytes of the alternate hash, and one byte per binary digit of `p`, from
the least significant digit upward, `0x00` for a digit 1 and the byte at index
0 of the block (the first byte of the password) for a digit 0. There are
`floor (log2 p) + 1` such bytes for `p ≥ 1` and none for `p = 0`, and digit
`j` is `p / 2 ^ j % 2`. -/
theorem computeFirstIntermediate_digest (pass salt altHash : List Nat)
    (hp : pass.length ≤ 16) (ha : altHash.length = 16) :
    ((∃ h, computeFirstIntermediate pass salt altHash = .ok h) ↔
      (firstMsg pass salt altHash).length ≤ 55) ∧
    ((firstMsg pass salt altHash).length ≤ 55 →
      (∃ b, firstIntermediateBlock pass salt altHash = .ok b ∧
        Holds b (firstMsg pass salt altHash) ∧
        (pass ≠ [] → b.data.getD 0 0 = pass.getD 0 0)) ∧
      computeFirstIntermediate pass salt altHash = .ok (md5Msg (firstMsg pass salt altHash))) ∧
    firstMsg pass salt altHash =
      pass ++ bytesOf "$1$" ++ salt ++ altHash.take pass.length ++
        (Nat.digits 2 pass.length).map (fun d => if d = 1 then 0x00 else pass.getD 0 0) ∧
    (Nat.digits 2 pass.length).length =
      (if pass.length = 0 then 0 else Nat.log 2 pass.length + 1) ∧
    (∀ j, (Nat.digits 2 pass.length).getD j 0 = pass.length / 2 ^ j % 2) := by
  have hk := kindOf_computeFirstIntermediate pass salt altHash
  have hok : (firstMsg pass salt altHash).length ≤ 55 →
      msgFirstIntermediate pass salt altHash = .ok (md5Msg (firstMsg pass salt altHash)) := by
    intro h55
    simp only [msgFirstIntermediate]
    rw [msgFirstBlock_eq pass salt altHash hp ha (by omega), ok_bind, msgMd5_eq, if_pos h55]
  refine ⟨⟨?_, ?_⟩, ?_, rfl, ?_, fun j => digits_two_getD j pass.length⟩
  · rintro ⟨h, hh⟩
    rw [hh] at hk
    simp only [msgFirstIntermediate] at hk
    cases hm : msgFirstBlock pass salt altHash with
    | error e => rw [hm, error_bind] at hk; cases hk
    | ok m =>
      rw [hm, ok_bind, msgMd5_eq] at hk
      have := msgFirstBlock_ok_eq pass salt altHash hp ha hm
      subst this
      by_contra hn
      rw [if_neg hn] at hk
      cases hk
  · intro h55
    exact ⟨_, eq_ok_of_kindOf (hk.trans (hok h55))⟩
  · intro h55
    refine ⟨?_, eq_ok_of_kindOf (hk.trans (hok h55))⟩
    have hs := sim_firstIntermediateBlock pass salt altHash
    rw [msgFirstBlock_eq pass salt altHash hp ha (by omega)] at hs
    obtain ⟨b, hb, hh⟩ := sim_ok hs
    refine ⟨b, hb, hh, fun hne => ?_⟩
    have hne2 : firstMsg pass salt altHash ≠ [] := by
      simp [firstMsg, hne]
    rw [holds_getD_zero hh hne2]
    simp only [firstMsg, List.append_assoc]
    exact getD_zero_append hne _
  · by_cases hz : pass.length = 0
    · rw [hz, if_pos rfl]
      simp
    · rw [if_neg hz]
      exact Nat.digits_len 2 pass.length (by decide) hz

theorem computeFirstIntermediate_digest_witness :
    (bytesOf "Xr4ilOzQ").length ≤ 16 ∧
    (md5Msg (bytesOf "Xr4ilOzQ" ++ bytesOf "3azHgidD" ++ bytesOf "Xr4ilOzQ")).length = 16 ∧
    (firstMsg (bytesOf "Xr4ilOzQ") (bytesOf "3azHgidD")
        (md5Msg (bytesOf "Xr4ilOzQ" ++ bytesOf "3azHgidD" ++ bytesOf "Xr4ilOzQ"))).length ≤ 55 ∧
    computeFirstIntermediate (bytesOf "Xr4ilOzQ") (bytesOf "3azHgidD")
        (md5Msg (bytesOf "Xr4ilOzQ" ++ bytesOf "3azHgidD" ++ bytesOf "Xr4ilOzQ")) =
      .ok (md5Msg (firstMsg (bytesOf "Xr4ilOzQ") (bytesOf "3azHgidD")
        (md5Msg (bytesOf "Xr4ilOzQ" ++ bytesOf "3azHgidD" ++ bytesOf "Xr4ilOzQ")))) := by
  have hl : (firstMsg (bytesOf "Xr4ilOzQ") (bytesOf "3azHgidD")
      (md5Msg (bytesOf "Xr4ilOzQ" ++ bytesOf "3azHgidD" ++ bytesOf "Xr4ilOzQ"))).length ≤ 55 := by
    simp [firstMsg, walkBytes, md5Msg_length, bytesOf]
  exact ⟨by decide, md5Msg_length _, hl,
    ((computeFirstIntermediate_digest (bytesOf "Xr4ilOzQ") (bytesOf "3azHgidD")
      (md5Msg (bytesOf "Xr4ilOzQ" ++ bytesOf "3azHgidD" ++ bytesOf "Xr4ilOzQ"))
      (by decide) (md5Msg_length _)).2.1 hl).2⟩

/-! ## The chain of intermediate hashes -/

theorem bind_eq_ok {ε α β : Type} {r : Except ε α} {f : α → Except ε β} {x : β}
    (h : r.bind f = .ok x) : ∃ a, r = .ok a ∧ f a = .ok x := by
  cases r with
  | error e => rw [error_bind] at h; cases h
  | ok a => rw [ok_bind] at h; exact ⟨a, rfl, h⟩

theorem iterate_succ (pass salt : List Nat) (n i : Nat) (intHash : List Nat) :
    iterate pass salt (n + 1) i intHash =
      (computeNextIntermediate pass salt i intHash).bind (iterate pass salt n (i + 1)) := rfl

theorem iterate_chain (pass salt : List Nat) : ∀ (n i : Nat) (first final : List Nat),
    iterate pass salt n i first = .ok final →
    ∃ h : Nat → List Nat, h i = first ∧ h (i + n) = final ∧
      ∀ k, i ≤ k → k < i + n → computeNextIntermediate pass salt k (h k) = .ok (h (k + 1)) := by
  intro n
  induction n with
  | zero =>
    intro i first final hr
    have : first = final := by
      have e : iterate pass salt 0 i first = .ok first := rfl
      rw [e] at hr
      cases hr
      rfl
    exact ⟨fun _ => first, rfl, this, fun k h1 h2 => by omega⟩
  | succ n ih =>
    intro i first final hr
    rw [iterate_succ] at hr
    obtain ⟨h1, hn, hrest⟩ := bind_eq_ok hr
    obtain ⟨h', e1, e2, e3⟩ := ih (i + 1) h1 final hrest
    refine ⟨fun k => if k ≤ i then first else h' k, by simp, ?_, ?_⟩
    · have : ¬ (i + (n + 1) ≤ i) := by omega
      simp only [this, if_false]
      rw [← e2]
      congr 1
      omega
    · intro k hk1 hk2
      by_cases hki : k = i
      · subst hki
        simp only [Nat.le_refl, if_true, show ¬ (k + 1 ≤ k) by omega, if_false, e1]
        exact hn
      · have h1' : ¬ (k ≤ i) := by omega
        have h2' : ¬ (k + 1 ≤ i) := by omega
        simp only [h1', h2', if_false]
        exact e3 k (by omega) (by omega)

/-- C17: when `hashPassword` returns, what it returns is `hashToString` of
`h 1000`, where `h 0` is the first intermediate hash, computed from the
alternate hash, and `h (k + 1)` is what `computeNextIntermediate` writes for
iteration `k` on `h k`, for `k = 0, 1, ..., 999`. -/
theorem hashPassword_chain (pass salt : List Nat) (result : List Char)
    (hr : hashPassword pass salt = .ok result) :
    ∃ (altHash : List Nat) (h : Nat → List Nat),
      computeAlternateHash pass salt = .ok altHash ∧
      computeFirstIntermediate pass salt altHash = .ok (h 0) ∧
      (∀ k, k < 1000 → computeNextIntermediate pass salt k (h k) = .ok (h (k + 1))) ∧
      result = hashToString (h 1000) := by
  simp only [hashPassword] at hr
  obtain ⟨_, _, hr⟩ := bind_eq_ok hr
  obtain ⟨altHash, ha, hr⟩ := bind_eq_ok hr
  obtain ⟨intHash, hf, hr⟩ := bind_eq_ok hr
  obtain ⟨final, hi, hr⟩ := bind_eq_ok hr
  obtain ⟨h, e1, e2, e3⟩ := iterate_chain pass salt PW_ITERATIONS 0 intHash final hi
  refine ⟨altHash, h, ha, by rw [e1]; exact hf, ?_, ?_⟩
  · intro k hk
    exact e3 k (Nat.zero_le _) (by simpa [PW_ITERATIONS] using hk)
  · have e : h 1000 = final := by
      rw [← e2]
      rfl
    rw [e]
    cases hr
    rfl

theorem hashPassword_chain_witness :
    hashPassword (bytesOf "Xr4ilOzQ") (bytesOf "3azHgidD") =
      .ok "BdQSCjbq.8WiVgf8izCML.".toList ∧
    ∃ (altHash : List Nat) (h : Nat → List Nat),
      computeAlternateHash (bytesOf "Xr4ilOzQ") (bytesOf "3azHgidD") = .ok altHash ∧
      computeFirstIntermediate (bytesOf "Xr4ilOzQ") (bytesOf "3azHgidD") altHash = .ok (h 0) ∧
      (∀ k, k < 1000 →
        computeNextIntermediate (bytesOf "Xr4ilOzQ") (bytesOf "3azHgidD") k (h k) =
          .ok (h (k + 1))) ∧
      "BdQSCjbq.8WiVgf8izCML.".toList = hashToString (h 1000) :=
  ⟨vector_run,
    hashPassword_chain (bytesOf "Xr4ilOzQ") (bytesOf "3azHgidD") "BdQSCjbq.8WiVgf8izCML.".toList
      vector_run⟩

/-! ## The MD5 core in arithmetic -/

theorem wordNot_eq (x : Nat) (h : x < 2 ^ 32) : wordNot x = 2 ^ 32 - 1 - x := by
  have e : 2 ^ 32 - 1 - x = 2 ^ 32 - (x + 1) := by omega
  rw [e]
  apply Nat.eq_of_testBit_eq
  intro i
  have hm : (0xFFFFFFFF : Nat) = 2 ^ 32 - 1 := by norm_num
  rw [wordNot, hm, Nat.testBit_xor, Nat.testBit_two_pow_sub_one,
    Nat.testBit_two_pow_sub_succ h]
  by_cases hi : i < 32
  · simp [hi]
  · have : x.testBit i = false :=
      Nat.testBit_lt_two_pow (Nat.lt_of_lt_of_le h (Nat.pow_le_pow_right (by norm_num) (by omega)))
    simp [hi, this]

theorem arrayF_eq_specF (r B C D : Nat) (hr : r ≤ 3) (hB : B < 2 ^ 32) (hD : D < 2 ^ 32) :
    arrayF r B C D = specF r B C D := by
  interval_cases r
  · simp only [arrayF, fVersion0, specF, wordNot_eq B hB]
  · simp only [arrayF, fVersion1, specF, wordNot_eq D hD]
  · simp only [arrayF, fVersion2, specF]
  · simp only [arrayF, fVersion3, specF, wordNot_eq D hD]

theorem arrayG_eq_specG (r i : Nat) (hr : r ≤ 3) : arrayG r i = specG r i := by
  interval_cases r <;> rfl

/-- C18: for a state `(A, B, C, D)` of 32-bit words, a schedule `M` and `i` in
`0 .. 63`, `md5Iteration` yields
`(D, B + rotateLeft (A + F_r (B, C, D) + M[G_r (i)] + noise[i], shift[i]), B, C)`
with the additions modulo `2 ^ 32` and `r = i / 16`, `F_r` and `G_r` being the
functions `specF r` and `specG r`. -/
theorem md5Iteration_formula (M : List Nat) (st : MD5State) (i : Nat) (hi : i < 64)
    (hB : st.B < 2 ^ 32) (hD : st.D < 2 ^ 32) :
    md5Iteration M st i =
      { A := st.D,
        B := (st.B + rotateLeft ((st.A + specF (i / 16) st.B st.C st.D +
          M.getD (specG (i / 16) i) 0 + md5Noise.getD i 0) % 2 ^ 32) (md5Shift.getD i 0)) % 2 ^ 32,
        C := st.B,
        D := st.C } ∧
    i / 16 ≤ 3 := by
  have hr : i / 16 ≤ 3 := by omega
  refine ⟨?_, hr⟩
  simp only [md5Iteration, SIZE_OF_ROUND, arrayF_eq_specF _ _ _ _ hr hB hD,
    arrayG_eq_specG _ _ hr]
  congr 1
  rw [Nat.add_comm st.B]
  congr 3
  omega

theorem md5Iteration_formula_witness :
    (5 : Nat) < 64 ∧ (0xefcdab89 : Nat) < 2 ^ 32 ∧ (0x10325476 : Nat) < 2 ^ 32 ∧
    (md5Iteration (fillSchedule (padMsg (bytesOf "abc")) 16 0)
        { A := 0x67452301, B := 0xefcdab89, C := 0x98badcfe, D := 0x10325476 } 5 =
      { A := 0x10325476,
        B := (0xefcdab89 + rotateLeft ((0x67452301 + specF (5 / 16) 0xefcdab89 0x98badcfe
          0x10325476 + (fillSchedule (padMsg (bytesOf "abc")) 16 0).getD (specG (5 / 16) 5) 0 +
          md5Noise.getD 5 0) % 2 ^ 32) (md5Shift.getD 5 0)) % 2 ^ 32,
        C := 0xefcdab89,
        D := 0x98badcfe } ∧
    5 / 16 ≤ 3) :=
  ⟨by decide, by decide, by decide,
    md5Iteration_formula (fillSchedule (padMsg (bytesOf "abc")) 16 0)
      { A := 0x67452301, B := 0xefcdab89, C := 0x98badcfe, D := 0x10325476 } 5
      (by decide) (by decide) (by decide)⟩

/-! ## The message schedule and the digest bytes -/

theorem fastWord_value (d0 d1 d2 d3 : Nat) (h0 : d0 < 256) (h1 : d1 < 256) (h2 : d2 < 256)
    (h3 : d3 < 256) :
    fastWord d0 d1 d2 d3 = d0 + 2 ^ 8 * d1 + 2 ^ 16 * d2 + 2 ^ 24 * d3 := by
  have e : fastWord d0 d1 d2 d3 =
      ((((((0 ||| d3) <<< 8) % 2 ^ 32 ||| d2) <<< 8) % 2 ^ 32 ||| d1) <<< 8) % 2 ^ 32 ||| d0 := rfl
  have s1 : ((0 ||| d3) <<< 8) % 2 ^ 32 = 2 ^ 8 * d3 := by
    rw [Nat.zero_or, Nat.shiftLeft_eq, Nat.mod_eq_of_lt (by omega)]
    omega
  have s2 : ((2 ^ 8 * d3 ||| d2) <<< 8) % 2 ^ 32 = 2 ^ 8 * (2 ^ 8 * d3 + d2) := by
    rw [← Nat.mul_add_lt_is_or (by omega), Nat.shiftLeft_eq, Nat.mod_eq_of_lt (by omega)]
    omega
  have s3 : ((2 ^ 8 * (2 ^ 8 * d3 + d2) ||| d1) <<< 8) % 2 ^ 32 =
      2 ^ 8 * (2 ^ 8 * (2 ^ 8 * d3 + d2) + d1) := by
    rw [← Nat.mul_add_lt_is_or (by omega), Nat.shiftLeft_eq, Nat.mod_eq_of_lt (by omega)]
    omega
  rw [e, s1, s2, s3, ← Nat.mul_add_lt_is_or (by omega)]
  omega

theorem fillSchedule_getD (data : List Nat) : ∀ (n j i : Nat), i < n →
    (fillSchedule data n j).getD i 0 = scheduleWord data (j + i) := by
  intro n
  induction n with
  | zero => intro j i hi; omega
  | succ n ih =>
    intro j i hi
    cases i with
    | zero => simp [fillSchedule]
    | succ i =>
      simp only [fillSchedule, List.getD_cons_succ]
      rw [ih (j + 1) i (by omega)]
      congr 1
      omega

/-- C19: for a padded block of 64 bytes and `i` in `0 .. 15`, the word `M[ i ]`
that `md5Hash` builds is made of the bytes `4i .. 4i+3`, byte `4i+3` the most
significant: `M[i] = data[4i] + 2^8 * data[4i+1] + 2^16 * data[4i+2] +
2^24 * data[4i+3]`. -/
theorem schedule_word_value (data : List Nat) (hl : data.length = 64)
    (hb : ∀ x ∈ data, x < 256) (i : Nat) (hi : i < 16) :
    (fillSchedule data HASH_SIZE 0).getD i 0 =
      data.getD (4 * i) 0 + 2 ^ 8 * data.getD (4 * i + 1) 0 + 2 ^ 16 * data.getD (4 * i + 2) 0 +
        2 ^ 24 * data.getD (4 * i + 3) 0 := by
  have _ := hl
  have hg : ∀ k, data.getD k 0 < 256 := getD_lt_of_forall hb (by norm_num)
  rw [fillSchedule_getD data HASH_SIZE 0 i (by simpa [HASH_SIZE] using hi), Nat.zero_add,
    scheduleWord_eq, Nat.mul_comm i 4]
  exact fastWord_value _ _ _ _ (hg _) (hg _) (hg _) (hg _)

theorem padMsg_lt (m : List Nat) (hm : ∀ x ∈ m, x < 256) : ∀ x ∈ padMsg m, x < 256 := by
  intro x hx
  simp only [padMsg, List.mem_append, List.mem_cons, List.mem_replicate, msgLength_eight,
    BITS_IN_A_BYTE, List.mem_singleton, List.not_mem_nil, or_false, and_255] at hx
  rcases hx with h | h | h | h
  · exact hm x h
  · rw [h]; decide
  · rw [h.2]; decide
  · rcases h with h | h | h | h | h | h | h | h <;> (rw [h]; exact Nat.mod_lt _ (by norm_num))

theorem schedule_word_value_witness :
    (padMsg (bytesOf "abc")).length = 64 ∧ (∀ x ∈ padMsg (bytesOf "abc"), x < 256) ∧
    (3 : Nat) < 16 ∧
    (fillSchedule (padMsg (bytesOf "abc")) HASH_SIZE 0).getD 3 0 =
      (padMsg (bytesOf "abc")).getD (4 * 3) 0 + 2 ^ 8 * (padMsg (bytesOf "abc")).getD (4 * 3 + 1) 0 +
        2 ^ 16 * (padMsg (bytesOf "abc")).getD (4 * 3 + 2) 0 +
        2 ^ 24 * (padMsg (bytesOf "abc")).getD (4 * 3 + 3) 0 :=
  ⟨by decide, padMsg_lt _ (by decide), by decide,
    schedule_word_value (padMsg (bytesOf "abc")) (by decide) (padMsg_lt _ (by decide)) 3
      (by decide)⟩

theorem fastBytes_getD (A : Nat) (rest : List Nat) (k : Nat) (hk : k < 4) :
    (fastBytes A rest).getD k 0 = (A >>> (8 * k)) % 256 := by
  have e2 : (A >>> 8) >>> 8 = A >>> 16 := (Nat.shiftRight_add A 8 8).symm
  have e3 : (A >>> 16) >>> 8 = A >>> 24 := (Nat.shiftRight_add A 16 8).symm
  have e : fastBytes A rest =
      A % 256 :: (A >>> 8) % 256 :: ((A >>> 8) >>> 8) % 256 ::
        (((A >>> 8) >>> 8) >>> 8) % 256 :: rest := rfl
  rw [e, e2, e3]
  interval_cases k <;> simp

theorem fastBytes_getD_add (A : Nat) (rest : List Nat) (k : Nat) :
    (fastBytes A rest).getD (4 + k) 0 = rest.getD k 0 := by
  have e : fastBytes A rest =
      A % 256 :: (A >>> 8) % 256 :: ((A >>> 8) >>> 8) % 256 ::
        (((A >>> 8) >>> 8) >>> 8) % 256 :: rest := rfl
  rw [e, show 4 + k = k + 1 + 1 + 1 + 1 by omega]
  simp only [List.getD_cons_succ]

theorem md5Digest_bytes (data : List Nat) :
    md5Digest data =
      fastBytes (((md5Compress data).A + INIT_VALUE_A) % 2 ^ 32)
        (fastBytes (((md5Compress data).B + INIT_VALUE_B) % 2 ^ 32)
          (fastBytes (((md5Compress data).C + INIT_VALUE_C) % 2 ^ 32)
            (fastBytes (((md5Compress data).D + INIT_VALUE_D) % 2 ^ 32) []))) :=
  writeHash_eq (((md5Compress data).A + INIT_VALUE_A) % 2 ^ 32)
    (((md5Compress data).B + INIT_VALUE_B) % 2 ^ 32)
    (((md5Compress data).C + INIT_VALUE_C) % 2 ^ 32)
    (((md5Compress data).D + INIT_VALUE_D) % 2 ^ 32)

theorem fastBytes_four_getD (a b c d ia ib ic id : Nat) (w k : Nat) (hw : w < 4)
    (hk : k < 4) :
    (fastBytes ((a + ia) % 2 ^ 32) (fastBytes ((b + ib) % 2 ^ 32)
        (fastBytes ((c + ic) % 2 ^ 32) (fastBytes ((d + id) % 2 ^ 32) [])))).getD
        (4 * w + k) 0 =
      ((([a, b, c, d].getD w 0 + [ia, ib, ic, id].getD w 0) % 2 ^ 32) >>> (8 * k)) % 256 := by
  interval_cases w
  · rw [Nat.mul_zero, Nat.zero_add]
    exact fastBytes_getD ((a + ia) % 2 ^ 32) _ k hk
  · rw [Nat.mul_one, fastBytes_getD_add]
    exact fastBytes_getD ((b + ib) % 2 ^ 32) _ k hk
  · rw [show 4 * 2 + k = 4 + (4 + k) by omega, fastBytes_getD_add, fastBytes_getD_add]
    exact fastBytes_getD ((c + ic) % 2 ^ 32) _ k hk
  · rw [show 4 * 3 + k = 4 + (4 + (4 + k)) by omega, fastBytes_getD_add, fastBytes_getD_add,
      fastBytes_getD_add]
    exact fastBytes_getD ((d + id) % 2 ^ 32) _ k hk

theorem md5Digest_getD (data : List Nat) (w k : Nat) (hw : w < 4) (hk : k < 4) :
    (md5Digest data).getD (4 * w + k) 0 =
      ((([(md5Compress data).A, (md5Compress data).B, (md5Compress data).C,
          (md5Compress data).D].getD w 0 +
        [INIT_VALUE_A, INIT_VALUE_B, INIT_VALUE_C, INIT_VALUE_D].getD w 0) % 2 ^ 32) >>>
        (8 * k)) % 256 := by
  rw [md5Digest_bytes]
  exact fastBytes_four_getD (md5Compress data).A (md5Compress data).B (md5Compress data).C
    (md5Compress data).D INIT_VALUE_A INIT_VALUE_B INIT_VALUE_C INIT_VALUE_D w k hw hk

/-- C20: for a block with `len ≤ 55`, `md5Hash` pads it and writes 16 bytes:
with `(A, B, C, D)` the state after the 64 iterations on the padded block,
started from `(0x67452301, 0xefcdab89, 0x98badcfe, 0x10325476)`, byte `4w + k`
of the digest is byte `k`, counted from the least significant one, of word `w`
of `A + 0x67452301`, `B + 0xefcdab89`, `C + 0x98badcfe`, `D + 0x10325476`, each
taken modulo `2 ^ 32`. -/
theorem md5Hash_digest_bytes (b : Block) (hd : b.data.length = 64) (hn : b.len ≤ 55) :
    ∃ b' hash, padBlock b = .ok b' ∧ md5Hash b = .ok (b', hash) ∧ hash.length = 16 ∧
      ∃ st : MD5State,
        st = md5Rounds (fillSchedule b'.data HASH_SIZE 0) BLOCK_SIZE 0
          { A := 0x67452301, B := 0xefcdab89, C := 0x98badcfe, D := 0x10325476 } ∧
        ∀ w k, w < 4 → k < 4 →
          hash.getD (4 * w + k) 0 =
            ((([st.A, st.B, st.C, st.D].getD w 0 +
              [0x67452301, 0xefcdab89, 0x98badcfe, 0x10325476].getD w 0) % 2 ^ 32) >>>
              (8 * k)) % 256 := by
  have hh := holds_take b hd (by omega)
  have hl : (b.data.take b.len).length = b.len := hh.2.1.symm
  obtain ⟨b', h1, h2, _⟩ := padBlock_ok_of_le hh (by rw [hl]; exact hn)
  refine ⟨b', md5Digest b'.data, h1, ?_, md5Digest_length _, md5Compress b'.data, rfl, ?_⟩
  · simp only [md5Hash, h1]
    rw [ok_bind]
  · intro w k hw hk
    exact md5Digest_getD b'.data w k hw hk

theorem md5Hash_digest_bytes_witness :
    (appendStringLoop (bytesOf "abc") makeBlock).data.length = 64 ∧
    (appendStringLoop (bytesOf "abc") makeBlock).len ≤ 55 ∧
    ∃ b' hash, padBlock (appendStringLoop (bytesOf "abc") makeBlock) = .ok b' ∧
      md5Hash (appendStringLoop (bytesOf "abc") makeBlock) = .ok (b', hash) ∧
      hash.length = 16 ∧
      ∃ st : MD5State,
        st = md5Rounds (fillSchedule b'.data HASH_SIZE 0) BLOCK_SIZE 0
          { A := 0x67452301, B := 0xefcdab89, C := 0x98badcfe, D := 0x10325476 } ∧
        ∀ w k, w < 4 → k < 4 →
          hash.getD (4 * w + k) 0 =
            ((([st.A, st.B, st.C, st.D].getD w 0 +
              [0x67452301, 0xefcdab89, 0x98badcfe, 0x10325476].getD w 0) % 2 ^ 32) >>>
              (8 * k)) % 256 :=
  ⟨by decide, by decide,
    md5Hash_digest_bytes (appendStringLoop (bytesOf "abc") makeBlock) (by decide) (by decide)⟩

/-! ## `rotateLeft` -/

theorem testBit_of_lt_word {v : Nat} (hv : v < 2 ^ 32) {i : Nat} (hi : 32 ≤ i) :
    v.testBit i = false :=
  Nat.testBit_lt_two_pow (Nat.lt_of_lt_of_le hv (Nat.pow_le_pow_right (by norm_num) hi))

theorem rotateLeft_testBit (v s i : Nat) :
    (rotateLeft v s).testBit i =
      ((decide (i < 32) && (decide (s ≤ i) && v.testBit (i - s))) || v.testBit (32 - s + i)) := by
  simp only [rotateLeft, WORD_BIT_SIZE, Nat.testBit_or, Nat.testBit_mod_two_pow,
    Nat.testBit_shiftLeft, Nat.testBit_shiftRight, ge_iff_le]

/-- C21: for a 32-bit word `v` and `1 ≤ s ≤ 31`, `rotateLeft v s` is
`((v << s) | (v >> (32 - s)))` modulo `2 ^ 32`, it is a 32-bit word, and it is
the cyclic left rotation of `v` by `s`: bit `(k + s) mod 32` of the result is
bit `k` of `v`, for every `k` in `0 .. 31`. -/
theorem rotateLeft_rotation (v s : Nat) (hv : v < 2 ^ 32) (h1 : 1 ≤ s) (h2 : s ≤ 31) :
    rotateLeft v s = ((v <<< s) ||| (v >>> (32 - s))) % 2 ^ 32 ∧
    rotateLeft v s < 2 ^ 32 ∧
    ∀ k, k < 32 → (rotateLeft v s).testBit ((k + s) % 32) = v.testBit k := by
  have hform : rotateLeft v s = ((v <<< s) ||| (v >>> (32 - s))) % 2 ^ 32 := by
    apply Nat.eq_of_testBit_eq
    intro i
    rw [rotateLeft_testBit v s]
    simp only [Nat.testBit_mod_two_pow, Nat.testBit_or, Nat.testBit_shiftLeft,
      Nat.testBit_shiftRight, ge_iff_le]
    by_cases hi : i < 32
    · simp [hi]
    · have : v.testBit (32 - s + i) = false := testBit_of_lt_word hv (by omega)
      simp [hi, this]
  refine ⟨hform, ?_, ?_⟩
  · rw [hform]
    exact Nat.mod_lt _ (by norm_num)
  · intro k hk
    rw [rotateLeft_testBit v s]
    have hlt : (k + s) % 32 < 32 := Nat.mod_lt _ (by norm_num)
    by_cases hks : k + s < 32
    · have e : (k + s) % 32 = k + s := Nat.mod_eq_of_lt hks
      have hz : v.testBit (32 - s + (k + s)) = false := testBit_of_lt_word hv (by omega)
      rw [e, hz]
      simp [hks]
    · have e : (k + s) % 32 = k + s - 32 := by omega
      have hn : ¬ (s ≤ k + s - 32) := by omega
      have e2 : 32 - s + (k + s - 32) = k := by omega
      rw [e, e2]
      simp [hn]

theorem rotateLeft_rotation_witness :
    (0x80000001 : Nat) < 2 ^ 32 ∧ 1 ≤ 7 ∧ 7 ≤ 31 ∧
    (rotateLeft 0x80000001 7 = ((0x80000001 <<< 7) ||| (0x80000001 >>> (32 - 7))) % 2 ^ 32 ∧
    rotateLeft 0x80000001 7 < 2 ^ 32 ∧
    ∀ k, k < 32 → (rotateLeft 0x80000001 7).testBit ((k + 7) % 32) =
      (0x80000001 : Nat).testBit k) :=
  ⟨by decide, by decide, by decide,
    rotateLeft_rotation 0x80000001 7 (by decide) (by decide) (by decide)⟩

/-! ## The choice of message words -/

theorem fillSchedule_length (data : List Nat) : ∀ (n i : Nat),
    (fillSchedule data n i).length = n := by
  intro n
  induction n with
  | zero => intro i; rfl
  | succ n ih => intro i; simp [fillSchedule, ih]

/-- C27: for every `i` in `0 .. 63` the round number `i / 16` is at most 3 and
the index `arrayG[ i / 16 ]( i )` at which `md5Iteration` reads the schedule
is below 16, the number of words `md5Hash` puts in `M`. In each round `r` the
16 indices for `i = 16r .. 16r+15` are pairwise distinct, so every index
`0 .. 15` is read exactly once in the round. -/
theorem arrayG_in_bounds_and_distinct :
    (∀ i, i < 64 → i / SIZE_OF_ROUND ≤ 3 ∧ arrayG (i / SIZE_OF_ROUND) i < 16) ∧
    (∀ data, (fillSchedule data HASH_SIZE 0).length = 16) ∧
    (∀ r, r ≤ 3 → ∀ i, i < 16 → ∀ j, j < 16 →
      arrayG r (16 * r + i) = arrayG r (16 * r + j) → i = j) ∧
    (∀ r, r ≤ 3 → ∀ w, w < 16 → ∃ i, i < 16 ∧ arrayG r (16 * r + i) = w ∧
      (16 * r + i) / SIZE_OF_ROUND = r) := by
  refine ⟨by decide, fun data => fillSchedule_length data _ _, by decide, by decide⟩

/-! ## The 6-bit values of `hashToString` -/

theorem letters_eq (R : List Nat) (i : Nat) (hi : i < 5) (hb : ∀ x ∈ R, x < 256) :
    letters R i =
      [R.getD (i * 3) 0 % 64,
        R.getD (i * 3) 0 / 64 + 4 * (R.getD (i * 3 + 1) 0 % 16),
        R.getD (i * 3 + 1) 0 / 16 + 16 * (R.getD (i * 3 + 2) 0 % 4),
        R.getD (i * 3 + 2) 0 / 4] := by
  have h0 := getD_lt_of_forall hb (by norm_num : 0 < 256) (i * 3)
  have h1 := getD_lt_of_forall hb (by norm_num : 0 < 256) (i * 3 + 1)
  have h2 := getD_lt_of_forall hb (by norm_num : 0 < 256) (i * 3 + 2)
  have hne : ¬ (i * 3 = 15) := by omega
  simp only [letters, SET_OF_BYTES, hne, if_false, MASK_FOR_BITS, BITS_MASK_MSB, BITS_IN_LETTER,
    SECOND_BYTE_IN_SET, THIRD_BYTE_IN_SET, LEFTOVER_BITS_LSB, LEFTOVER_BITS_MIDDLE,
    LEFTOVER_BITS_MSB, Nat.or_zero]
  generalize R.getD (i * 3) 0 = b0 at h0
  generalize R.getD (i * 3 + 1) 0 = b1 at h1
  generalize R.getD (i * 3 + 2) 0 = b2 at h2
  have e1 : (b1 <<< 2) ||| (b0 >>> 6) = 2 ^ 2 * b1 + b0 >>> 6 :=
    or_shift_eq b1 (b0 >>> 6) 2 (by rw [Nat.shiftRight_eq_div_pow]; omega)
  have e2 : (b2 <<< 4) ||| (b1 >>> 4) = 2 ^ 4 * b2 + b1 >>> 4 :=
    or_shift_eq b2 (b1 >>> 4) 4 (by rw [Nat.shiftRight_eq_div_pow]; omega)
  rw [e1, e2]
  simp only [and_63, Nat.shiftRight_eq_div_pow]
  refine congrArg₂ _ ?_ (congrArg₂ _ ?_ (congrArg₂ _ ?_ (congrArg₂ _ ?_ rfl))) <;> omega

theorem letters_last_eq (R : List Nat) :
    letters R 5 = [R.getD 15 0 % 64, R.getD 15 0 / 64] := by
  simp only [letters, SET_OF_BYTES, if_true, MASK_FOR_BITS, BITS_IN_LETTER, and_63,
    Nat.shiftRight_eq_div_pow]

theorem hashToIndices_eq (hash : List Nat) :
    hashToIndices hash =
      letters (rearrange hash HASH_SIZE 0) 0 ++ (letters (rearrange hash HASH_SIZE 0) 1 ++
        (letters (rearrange hash HASH_SIZE 0) 2 ++ (letters (rearrange hash HASH_SIZE 0) 3 ++
          (letters (rearrange hash HASH_SIZE 0) 4 ++
            (letters (rearrange hash HASH_SIZE 0) 5 ++ []))))) := rfl

theorem hashToIndices_group (hash : List Nat) (hb : ∀ x ∈ hash, x < 256) (i : Nat)
    (hi : i < 5) :
    [(hashToIndices hash).getD (4 * i) 0, (hashToIndices hash).getD (4 * i + 1) 0,
      (hashToIndices hash).getD (4 * i + 2) 0, (hashToIndices hash).getD (4 * i + 3) 0] =
    [(rearrange hash HASH_SIZE 0).getD (i * 3) 0 % 64,
      (rearrange hash HASH_SIZE 0).getD (i * 3) 0 / 64 +
        4 * ((rearrange hash HASH_SIZE 0).getD (i * 3 + 1) 0 % 16),
      (rearrange hash HASH_SIZE 0).getD (i * 3 + 1) 0 / 16 +
        16 * ((rearrange hash HASH_SIZE 0).getD (i * 3 + 2) 0 % 4),
      (rearrange hash HASH_SIZE 0).getD (i * 3 + 2) 0 / 4] := by
  have hR := rearrange_lt hash hb HASH_SIZE 0
  rw [hashToIndices_eq, letters_eq _ 0 (by decide) hR, letters_eq _ 1 (by decide) hR,
    letters_eq _ 2 (by decide) hR, letters_eq _ 3 (by decide) hR,
    letters_eq _ 4 (by decide) hR, letters_last_eq]
  generalize rearrange hash HASH_SIZE 0 = R
  interval_cases i <;> rfl

theorem hashToIndices_last (hash : List Nat) (hb : ∀ x ∈ hash, x < 256) :
    [(hashToIndices hash).getD 20 0, (hashToIndices hash).getD 21 0] =
    [(rearrange hash HASH_SIZE 0).getD 15 0 % 64,
      (rearrange hash HASH_SIZE 0).getD 15 0 / 64] := by
  have hR := rearrange_lt hash hb HASH_SIZE 0
  rw [hashToIndices_eq, letters_eq _ 0 (by decide) hR, letters_eq _ 1 (by decide) hR,
    letters_eq _ 2 (by decide) hR, letters_eq _ 3 (by decide) hR,
    letters_eq _ 4 (by decide) hR, letters_last_eq]
  rfl

theorem hashToString_getD (hash : List Nat) (k : Nat) (hk : k < 22) :
    (hashToString hash).getD k (Char.ofNat 0) =
      pwCode64.getD ((hashToIndices hash).getD k 0) (Char.ofNat 0) := by
  have hl : k < (hashToIndices hash).length := by rw [hashToIndices_length]; exact hk
  simp only [hashToString, List.getD_eq_getElem?_getD, List.getElem?_map,
    List.getElem?_eq_getElem hl, Option.map_some', Option.getD_some]

/-- C22: for the group `i` (of the first five) of three bytes `b0`, `b1`, `b2`
of the permuted digest, the four alphabet indices `v0`, `v1`, `v2`, `v3` that
`hashToString` uses at the output positions `4i .. 4i+3` are below 64, they are
`b0 mod 64`, `b0 div 64 + 4 * (b1 mod 16)`, `b1 div 16 + 16 * (b2 mod 4)` and
`b2 div 4`, and `v0 + 64 * v1 + 64^2 * v2 + 64^3 * v3` is
`b0 + 256 * b1 + 65536 * b2`. -/
theorem hashToString_group (hash : List Nat) (hb : ∀ x ∈ hash, x < 256) (i : Nat)
    (hi : i < 5) :
    ∃ b0 b1 b2 v0 v1 v2 v3,
      b0 = (rearrange hash HASH_SIZE 0).getD (3 * i) 0 ∧
      b1 = (rearrange hash HASH_SIZE 0).getD (3 * i + 1) 0 ∧
      b2 = (rearrange hash HASH_SIZE 0).getD (3 * i + 2) 0 ∧
      letters (rearrange hash HASH_SIZE 0) i = [v0, v1, v2, v3] ∧
      (hashToIndices hash).getD (4 * i) 0 = v0 ∧
      (hashToIndices hash).getD (4 * i + 1) 0 = v1 ∧
      (hashToIndices hash).getD (4 * i + 2) 0 = v2 ∧
      (hashToIndices hash).getD (4 * i + 3) 0 = v3 ∧
      (hashToString hash).getD (4 * i) (Char.ofNat 0) = pwCode64.getD v0 (Char.ofNat 0) ∧
      (hashToString hash).getD (4 * i + 1) (Char.ofNat 0) = pwCode64.getD v1 (Char.ofNat 0) ∧
      (hashToString hash).getD (4 * i + 2) (Char.ofNat 0) = pwCode64.getD v2 (Char.ofNat 0) ∧
      (hashToString hash).getD (4 * i + 3) (Char.ofNat 0) = pwCode64.getD v3 (Char.ofNat 0) ∧
      v0 < 64 ∧ v1 < 64 ∧ v2 < 64 ∧ v3 < 64 ∧
      v0 + 64 * v1 + 64 ^ 2 * v2 + 64 ^ 3 * v3 = b0 + 256 * b1 + 65536 * b2 ∧
      v0 = b0 % 64 ∧ v1 = b0 / 64 + 4 * (b1 % 16) ∧ v2 = b1 / 16 + 16 * (b2 % 4) ∧
      v3 = b2 / 4 := by
  have hR := rearrange_lt hash hb HASH_SIZE 0
  have hg := hashToIndices_group hash hb i hi
  have hl := letters_eq (rearrange hash HASH_SIZE 0) i hi hR
  have h0 := getD_lt_of_forall hR (by norm_num : 0 < 256) (i * 3)
  have h1 := getD_lt_of_forall hR (by norm_num : 0 < 256) (i * 3 + 1)
  have h2 := getD_lt_of_forall hR (by norm_num : 0 < 256) (i * 3 + 2)
  rw [Nat.mul_comm i 3] at hl hg h0 h1 h2
  simp only [List.cons.injEq, and_true] at hg
  obtain ⟨g0, g1, g2, g3⟩ := hg
  refine ⟨_, _, _, _, _, _, _, rfl, rfl, rfl, hl, g0, g1, g2, g3, ?_, ?_, ?_, ?_, ?_, ?_, ?_,
    ?_, ?_, rfl, rfl, rfl, rfl⟩
  · rw [hashToString_getD hash _ (by omega), g0]
  · rw [hashToString_getD hash _ (by omega), g1]
  · rw [hashToString_getD hash _ (by omega), g2]
  · rw [hashToString_getD hash _ (by omega), g3]
  · omega
  · omega
  · omega
  · omega
  · omega

theorem hashToString_group_witness :
    (∀ x ∈ List.range 16, x < 256) ∧ 2 < 5 ∧
    ∃ b0 b1 b2 v0 v1 v2 v3,
      b0 = (rearrange (List.range 16) HASH_SIZE 0).getD (3 * 2) 0 ∧
      b1 = (rearrange (List.range 16) HASH_SIZE 0).getD (3 * 2 + 1) 0 ∧
      b2 = (rearrange (List.range 16) HASH_SIZE 0).getD (3 * 2 + 2) 0 ∧
      letters (rearrange (List.range 16) HASH_SIZE 0) 2 = [v0, v1, v2, v3] ∧
      (hashToIndices (List.range 16)).getD (4 * 2) 0 = v0 ∧
      (hashToIndices (List.range 16)).getD (4 * 2 + 1) 0 = v1 ∧
      (hashToIndices (List.range 16)).getD (4 * 2 + 2) 0 = v2 ∧
      (hashToIndices (List.range 16)).getD (4 * 2 + 3) 0 = v3 ∧
      (hashToString (List.range 16)).getD (4 * 2) (Char.ofNat 0) =
        pwCode64.getD v0 (Char.ofNat 0) ∧
      (hashToString (List.range 16)).getD (4 * 2 + 1) (Char.ofNat 0) =
        pwCode64.getD v1 (Char.ofNat 0) ∧
      (hashToString (List.range 16)).getD (4 * 2 + 2) (Char.ofNat 0) =
        pwCode64.getD v2 (Char.ofNat 0) ∧
      (hashToString (List.range 16)).getD (4 * 2 + 3) (Char.ofNat 0) =
        pwCode64.getD v3 (Char.ofNat 0) ∧
      v0 < 64 ∧ v1 < 64 ∧ v2 < 64 ∧ v3 < 64 ∧
      v0 + 64 * v1 + 64 ^ 2 * v2 + 64 ^ 3 * v3 = b0 + 256 * b1 + 65536 * b2 ∧
      v0 = b0 % 64 ∧ v1 = b0 / 64 + 4 * (b1 % 16) ∧ v2 = b1 / 16 + 16 * (b2 % 4) ∧
      v3 = b2 / 4 :=
  ⟨by decide, by decide, hashToString_group (List.range 16) (by decide) 2 (by decide)⟩

theorem first_four_of_le : ∀ v, v ≤ 3 →
    pwCode64.getD v (Char.ofNat 0) ∈ ['.', '/', '0', '1'] := by
  decide

/-- C23: for the last group, the single permuted byte `b` at index 15,
`hashToString` uses exactly two alphabet indices, `b mod 64` and `b div 64`,
at the output positions 20 and 21, which are the last of the 22. The second
index is at most 3, so the 22nd character is one of `.`, `/`, `0`, `1`. -/
theorem hashToString_last_group (hash : List Nat) (hb : ∀ x ∈ hash, x < 256) :
    letters (rearrange hash HASH_SIZE 0) 5 =
      [(rearrange hash HASH_SIZE 0).getD 15 0 % 64,
        (rearrange hash HASH_SIZE 0).getD 15 0 / 64] ∧
    (hashToString hash).length = 22 ∧
    (hashToIndices hash).getD 20 0 = (rearrange hash HASH_SIZE 0).getD 15 0 % 64 ∧
    (hashToIndices hash).getD 21 0 = (rearrange hash HASH_SIZE 0).getD 15 0 / 64 ∧
    (hashToString hash).getD 20 (Char.ofNat 0) =
      pwCode64.getD ((rearrange hash HASH_SIZE 0).getD 15 0 % 64) (Char.ofNat 0) ∧
    (hashToString hash).getD 21 (Char.ofNat 0) =
      pwCode64.getD ((rearrange hash HASH_SIZE 0).getD 15 0 / 64) (Char.ofNat 0) ∧
    (rearrange hash HASH_SIZE 0).getD 15 0 / 64 ≤ 3 ∧
    (hashToString hash).getD 21 (Char.ofNat 0) ∈ ['.', '/', '0', '1'] := by
  have hR := rearrange_lt hash hb HASH_SIZE 0
  have h15 := getD_lt_of_forall hR (by norm_num : 0 < 256) 15
  have hg := hashToIndices_last hash hb
  simp only [List.cons.injEq, and_true] at hg
  obtain ⟨g0, g1⟩ := hg
  have hle : (rearrange hash HASH_SIZE 0).getD 15 0 / 64 ≤ 3 := by omega
  have c20 := hashToString_getD hash 20 (by decide)
  have c21 := hashToString_getD hash 21 (by decide)
  rw [g0] at c20
  rw [g1] at c21
  refine ⟨letters_last_eq _, ?_, g0, g1, c20, c21, hle, ?_⟩
  · simp only [hashToString, List.length_map, hashToIndices_length]
  · rw [c21]
    exact first_four_of_le _ hle

theorem hashToString_last_group_witness :
    (∀ x ∈ List.range 16, x < 256) ∧
    (hashToString (List.range 16)).getD 21 (Char.ofNat 0) ∈ ['.', '/', '0', '1'] :=
  ⟨by decide, (hashToString_last_group (List.range 16) (by decide)).2.2.2.2.2.2.2⟩

/-! ## Counting the digests -/

theorem bind_assoc_ok {ε α β γ : Type} (r : Except ε α) (f : α → Except ε β)
    (g : β → Except ε γ) : (r.bind f).bind g = r.bind fun a => (f a).bind g := by
  cases r with
  | ok a => rw [ok_bind, ok_bind]
  | error e => rw [error_bind, error_bind, error_bind]

theorem bind_congr_ok {ε α β : Type} (r : Except ε α) {f g : α → Except ε β}
    (h : ∀ a, f a = g a) : r.bind f = r.bind g := by
  have : f = g := funext h
  rw [this]

theorem md5HashCounted_eq (b : Block) (calls : Nat) :
    ((md5HashCounted b calls).bind fun r => (.ok (r.1.2, r.2) : Except Fault (List Nat × Nat))) =
      ((md5Hash b).bind fun r => .ok r.2).bind fun h => .ok (h, calls + 1) := by
  unfold md5HashCounted
  cases md5Hash b with
  | ok r => rw [ok_bind, ok_bind, ok_bind, ok_bind]
  | error e => rw [error_bind, error_bind, error_bind, error_bind]

theorem computeAlternateHashCounted_eq (pass salt : List Nat) (calls : Nat) :
    computeAlternateHashCounted pass salt calls =
      (computeAlternateHash pass salt).bind fun h => .ok (h, calls + 1) := by
  simp only [computeAlternateHashCounted, computeAlternateHash, md5HashCounted_eq, bind_assoc_ok]

theorem computeFirstIntermediateCounted_eq (pass salt altHash : List Nat) (calls : Nat) :
    computeFirstIntermediateCounted pass salt altHash calls =
      (computeFirstIntermediate pass salt altHash).bind fun h => .ok (h, calls + 1) := by
  simp only [computeFirstIntermediateCounted, computeFirstIntermediate, md5HashCounted_eq,
    bind_assoc_ok]

theorem computeNextIntermediateCounted_eq (pass salt : List Nat) (inum : Nat)
    (intHash : List Nat) (calls : Nat) :
    computeNextIntermediateCounted pass salt inum intHash calls =
      (computeNextIntermediate pass salt inum intHash).bind fun h => .ok (h, calls + 1) := by
  simp only [computeNextIntermediateCounted, computeNextIntermediate, md5HashCounted_eq,
    bind_assoc_ok]

theorem iterateCounted_succ (pass salt : List Nat) (n i : Nat) (intHash : List Nat)
    (calls : Nat) :
    iterateCounted pass salt (n + 1) i intHash calls =
      (computeNextIntermediateCounted pass salt i intHash calls).bind fun r =>
        iterateCounted pass salt n (i + 1) r.1 r.2 := rfl

theorem iterateCounted_eq (pass salt : List Nat) : ∀ (n i : Nat) (intHash : List Nat)
    (calls : Nat),
    iterateCounted pass salt n i intHash calls =
      (iterate pass salt n i intHash).bind fun h => .ok (h, calls + n) := by
  intro n
  induction n with
  | zero => intro i h c; rfl
  | succ n ih =>
    intro i h c
    rw [iterateCounted_succ, iterate_succ, computeNextIntermediateCounted_eq, bind_assoc_ok,
      bind_assoc_ok]
    apply bind_congr_ok
    intro a
    rw [ok_bind, ih (i + 1) a (c + 1)]
    apply bind_congr_ok
    intro a2
    congr 2
    omega

theorem hashPasswordCounted_eq (pass salt : List Nat) :
    hashPasswordCounted pass salt =
      (hashPassword pass salt).bind fun r => .ok (r, 1 + 1 + PW_ITERATIONS) := by
  simp only [hashPasswordCounted, hashPassword]
  rw [bind_assoc_ok]
  apply bind_congr_ok
  intro _
  rw [computeAlternateHashCounted_eq, bind_assoc_ok, bind_assoc_ok]
  apply bind_congr_ok
  intro altHash
  rw [ok_bind, computeFirstIntermediateCounted_eq, bind_assoc_ok, bind_assoc_ok]
  apply bind_congr_ok
  intro intHash
  rw [ok_bind, iterateCounted_eq, bind_assoc_ok, bind_assoc_ok]
  apply bind_congr_ok
  intro final
  rw [ok_bind, ok_bind]

/-- C24, as the code has it: `hashPasswordCounted` is `hashPassword` with a
counter of the calls of `md5Hash`, starting at 0. It stops early exactly when
`hashPassword` does, and when `hashPassword` returns, it returns the same
string and the count 1002: one call for the alternate hash, one for the first
intermediate hash and one in each of the 1000 iterations. -/
theorem hashPassword_md5_calls (pass salt : List Nat) :
    (∀ result, hashPassword pass salt = .ok result →
      hashPasswordCounted pass salt = .ok (result, 1002)) ∧
    (∀ f, hashPassword pass salt = .error f → hashPasswordCounted pass salt = .error f) ∧
    (∀ calls altHash, computeAlternateHash pass salt = .ok altHash →
      computeAlternateHashCounted pass salt calls = .ok (altHash, calls + 1)) ∧
    (∀ calls altHash intHash, computeFirstIntermediate pass salt altHash = .ok intHash →
      computeFirstIntermediateCounted pass salt altHash calls = .ok (intHash, calls + 1)) ∧
    (∀ calls inum intHash next, computeNextIntermediate pass salt inum intHash = .ok next →
      computeNextIntermediateCounted pass salt inum intHash calls = .ok (next, calls + 1)) ∧
    (∀ calls intHash final, iterate pass salt PW_ITERATIONS 0 intHash = .ok final →
      iterateCounted pass salt PW_ITERATIONS 0 intHash calls = .ok (final, calls + 1000)) := by
  refine ⟨?_, ?_, ?_, ?_, ?_, ?_⟩
  · intro result h
    rw [hashPasswordCounted_eq, h, ok_bind]
    rfl
  · intro f h
    rw [hashPasswordCounted_eq, h, error_bind]
  · intro calls altHash h
    rw [computeAlternateHashCounted_eq, h, ok_bind]
  · intro calls altHash intHash h
    rw [computeFirstIntermediateCounted_eq, h, ok_bind]
  · intro calls inum intHash next h
    rw [computeNextIntermediateCounted_eq, h, ok_bind]
  · intro calls intHash final h
    rw [iterateCounted_eq, h, ok_bind]
    rfl

theorem hashPassword_md5_calls_witness :
    hashPassword (bytesOf "Xr4ilOzQ") (bytesOf "3azHgidD") =
      .ok "BdQSCjbq.8WiVgf8izCML.".toList ∧
    hashPasswordCounted (bytesOf "Xr4ilOzQ") (bytesOf "3azHgidD") =
      .ok ("BdQSCjbq.8WiVgf8izCML.".toList, 1002) :=
  ⟨vector_run,
    (hashPassword_md5_calls (bytesOf "Xr4ilOzQ") (bytesOf "3azHgidD")).1 _ vector_run⟩

/-- C24, as stated, fails: the run on `Xr4ilOzQ` with salt `3azHgidD` returns
normally and makes 1002 calls of `md5Hash`, not 1001. -/
theorem hashPassword_md5_calls_not_1001 :
    ∃ result, hashPassword (bytesOf "Xr4ilOzQ") (bytesOf "3azHgidD") = .ok result ∧
      hashPasswordCounted (bytesOf "Xr4ilOzQ") (bytesOf "3azHgidD") = .ok (result, 1002) ∧
      hashPasswordCounted (bytesOf "Xr4ilOzQ") (bytesOf "3azHgidD") ≠ .ok (result, 1001) := by
  have e : hashPasswordCounted (bytesOf "Xr4ilOzQ") (bytesOf "3azHgidD") =
      .ok ("BdQSCjbq.8WiVgf8izCML.".toList, 1002) := by
    rw [hashPasswordCounted_eq, vector_run, ok_bind]
    rfl
  refine ⟨_, vector_run, e, ?_⟩
  rw [e]
  intro h
  cases h

/-! ## The capacity boundary of `hashPassword` -/

theorem nextMsg_one_length (pass salt h : List Nat) :
    (nextMsg pass salt 1 h).length = h.length + salt.length + 2 * pass.length := by
  simp [nextMsg]
  omega

theorem padBlock_ok_iff (b : Block) (hd : b.data.length = 64) (hn : b.len ≤ 64) :
    (∃ b', padBlock b = .ok b') ↔ b.len ≤ 55 := by
  have hh := holds_take b hd hn
  have hl : (b.data.take b.len).length = b.len := hh.2.1.symm
  constructor
  · rintro ⟨b', hb⟩
    by_contra hc
    obtain ⟨f, hf, _⟩ := padBlock_error_of_gt hh (by rw [hl]; omega)
    rw [hf] at hb
    cases hb
  · intro hle
    obtain ⟨b', hb, _, _⟩ := padBlock_ok_of_le hh (by rw [hl]; exact hle)
    exact ⟨b', hb⟩

/-- C25: for a password of `p ≤ 16` bytes and a salt of `s` bytes,
`hashPassword` returns normally if and only if `2 * p + s ≤ 39`, and otherwise
it stops with a block overflow. The block of iteration 1 holds
`16 + s + 2 * p` bytes (that of iteration 0 holds `16 + p`), no iteration
holds more, and iteration 1 returns
normally if and only if these are at most 55, the most that `padBlock`
accepts; when they are, the alternate hash and the first intermediate hash
return normally too. -/
theorem hashPassword_capacity (pass salt : List Nat) (hp : pass.length ≤ 16) :
    ((∃ result, hashPassword pass salt = .ok result) ↔
      2 * pass.length + salt.length ≤ 39) ∧
    (39 < 2 * pass.length + salt.length →
      ∃ f, hashPassword pass salt = .error f ∧ f.error = .blockOverflow) ∧
    (∀ h : List Nat, h.length = 16 →
      (nextMsg pass salt 0 h).length = 16 + pass.length ∧
      (nextMsg pass salt 1 h).length = 16 + salt.length + 2 * pass.length ∧
      (∀ inum, (nextMsg pass salt inum h).length ≤ 16 + salt.length + 2 * pass.length) ∧
      (16 + salt.length + 2 * pass.length ≤ 55 →
        ∃ b, nextIntermediateBlock pass salt 1 h = .ok b ∧ Holds b (nextMsg pass salt 1 h) ∧
          b.len = 16 + salt.length + 2 * pass.length) ∧
      ((∃ next, computeNextIntermediate pass salt 1 h = .ok next) ↔
        16 + salt.length + 2 * pass.length ≤ 55) ∧
      (55 < 16 + salt.length + 2 * pass.length →
        ∃ f, computeNextIntermediate pass salt 1 h = .error f ∧ f.error = .blockOverflow)) ∧
    (∀ b : Block, b.data.length = 64 → b.len ≤ 64 →
      ((∃ b', padBlock b = .ok b') ↔ b.len ≤ 55)) ∧
    (16 + salt.length + 2 * pass.length ≤ 55 →
      ∃ altHash intHash, computeAlternateHash pass salt = .ok altHash ∧
        computeFirstIntermediate pass salt altHash = .ok intHash) := by
  have hover : 39 < 2 * pass.length + salt.length →
      ∃ f, hashPassword pass salt = .error f ∧ f.error = .blockOverflow := fun hgt =>
    eq_error_of_kindOf ((kindOf_hashPassword pass salt).trans
      (msgHashPassword_overflow pass salt hp hgt))
  refine ⟨⟨?_, ?_⟩, hover, ?_, padBlock_ok_iff, ?_⟩
  · rintro ⟨r, hr⟩
    by_contra hc
    obtain ⟨f, hf, _⟩ := hover (by omega)
    rw [hf] at hr
    cases hr
  · intro hle
    obtain ⟨_, _, final, _, _, _, h⟩ := hashPassword_parts_ok pass salt hp hle
    exact ⟨_, h⟩
  · intro h hh
    have hl1 := nextMsg_one_length pass salt h
    rw [hh] at hl1
    have key := computeNextIntermediate_eq pass salt 1 h hh
    refine ⟨by simp [nextMsg, hh], hl1, ?_, ?_, ⟨?_, ?_⟩, ?_⟩
    · intro inum
      have := nextMsg_length_le pass salt inum h
      omega
    · intro hle
      have hs := sim_nextIntermediateBlock pass salt 1 h
      rw [msgNextBlock_eq pass salt 1 hh, msgAppend_nil_left, if_pos (by omega)] at hs
      obtain ⟨b, hb, hholds⟩ := sim_ok hs
      exact ⟨b, hb, hholds, by rw [hholds.2.1, hl1]⟩
    · rintro ⟨next, hnext⟩
      by_contra hc
      obtain ⟨f, hf, _⟩ := key.2 (by omega)
      rw [hf] at hnext
      cases hnext
    · intro hle
      exact ⟨_, key.1 (by omega)⟩
    · intro hgt
      exact key.2 (by omega)
  · intro hle
    obtain ⟨altHash, intHash, _, ha, hf, _, _⟩ := hashPassword_parts_ok pass salt hp (by omega)
    exact ⟨altHash, intHash, ha, hf⟩

theorem hashPassword_capacity_witness :
    (bytesOf "0123456789abcdef").length ≤ 16 ∧
    ((∃ result, hashPassword (bytesOf "0123456789abcdef") (bytesOf "0123456") = .ok result) ↔
      2 * (bytesOf "0123456789abcdef").length + (bytesOf "0123456").length ≤ 39) :=
  ⟨by decide, (hashPassword_capacity (bytesOf "0123456789abcdef") (bytesOf "0123456")
    (by decide)).1⟩

/-! ## The bit-walk never writes index 0 -/

theorem storeUnchecked_ok {b b' : Block} {x : Nat} (h : storeUnchecked b x = .ok b')
    (hl : 1 ≤ b.len) :
    b'.len = b.len + 1 ∧ b'.data.getD 0 0 = b.data.getD 0 0 ∧
      ∀ i, i ≠ b.len → b'.data.getD i 0 = b.data.getD i 0 := by
  unfold storeUnchecked at h
  split at h
  · cases h
    refine ⟨rfl, ?_, ?_⟩
    · exact getD_set_ne _ _ _ _ (by omega)
    · intro i hi
      exact getD_set_ne _ _ _ _ hi
  · cases h

theorem bitWalk_eq_frozen (frozen : Block) : ∀ (fuel passwordLength : Nat) (b : Block),
    1 ≤ b.len → b.data.getD 0 0 = frozen.data.getD 0 0 →
    bitWalk fuel passwordLength b = bitWalkFrozen frozen fuel passwordLength b := by
  intro fuel
  induction fuel with
  | zero => intro pl b _ _; rfl
  | succ fuel ih =>
    intro pl b hl h0
    have key : ∀ x, (storeUnchecked b x).bind (bitWalk fuel (pl >>> SINGLE_BIT_MOVEMENT)) =
        (storeUnchecked b x).bind (bitWalkFrozen frozen fuel (pl >>> SINGLE_BIT_MOVEMENT)) := by
      intro x
      cases hs : storeUnchecked b x with
      | error f => rw [error_bind, error_bind]
      | ok b1 =>
        obtain ⟨e1, e2, _⟩ := storeUnchecked_ok hs hl
        rw [ok_bind, ok_bind]
        exact ih _ b1 (by omega) (by rw [e2, h0])
    simp only [bitWalk, bitWalkFrozen, FIRST_BYTE_OF_BLOCK_DATA_IDX]
    rw [h0, key, key, ih pl b hl h0]

theorem bitWalk_keeps_first : ∀ (fuel passwordLength : Nat) (b b' : Block),
    1 ≤ b.len → bitWalk fuel passwordLength b = .ok b' →
    b.len ≤ b'.len ∧ ∀ i, i < b.len → b'.data.getD i 0 = b.data.getD i 0 := by
  intro fuel
  induction fuel with
  | zero =>
    intro pl b b' _ h
    cases h
    exact ⟨Nat.le_refl _, fun _ _ => rfl⟩
  | succ fuel ih =>
    intro pl b b' hl h
    have key : ∀ x, (storeUnchecked b x).bind (bitWalk fuel (pl >>> SINGLE_BIT_MOVEMENT)) =
        .ok b' → b.len ≤ b'.len ∧ ∀ i, i < b.len → b'.data.getD i 0 = b.data.getD i 0 := by
      intro x hx
      obtain ⟨b1, hs, hr⟩ := bind_eq_ok hx
      obtain ⟨e1, _, e3⟩ := storeUnchecked_ok hs hl
      obtain ⟨r1, r2⟩ := ih _ b1 b' (by omega) hr
      refine ⟨by omega, fun i hi => ?_⟩
      rw [r2 i (by omega), e3 i (by omega)]
    simp only [bitWalk] at h
    split at h
    · split at h
      · exact key _ h
      · split at h
        · exact key _ h
        · exact ih pl b b' hl h
    · cases h
      exact ⟨Nat.le_refl _, fun _ _ => rfl⟩

theorem firstIntermediateBlock_eq (pass salt altHash : List Nat) :
    firstIntermediateBlock pass salt altHash =
      (firstBlockBeforeWalk pass salt altHash).bind (bitWalk pass.length pass.length) := by
  simp only [firstIntermediateBlock, firstBlockBeforeWalk, bind_assoc_ok]

theorem sim_ok_left {b : Block} {q : Except HashError (List Nat)} (h : Sim (.ok b) q) :
    ∃ m, q = .ok m ∧ Holds b m := by
  cases h with
  | ok hh => exact ⟨_, rfl, hh⟩

theorem msgAppendAltHash_getD_zero (altHash : List Nat) : ∀ (n i : Nat) {m m' : List Nat},
    msgAppendAltHash altHash n i m = .ok m' → m ≠ [] → m'.getD 0 0 = m.getD 0 0 := by
  intro n
  induction n with
  | zero => intro i m m' h _; cases h; rfl
  | succ n ih =>
    intro i m m' h hm
    simp only [msgAppendAltHash] at h
    split at h
    · obtain ⟨m1, h1, hr⟩ := bind_eq_ok h
      have e := msgAppend_ok h1
      subst e
      rw [ih (i + 1) hr (by simp), getD_append_singleton hm]
    · cases h

theorem firstBlockBeforeWalk_ok {pass salt altHash : List Nat} {b : Block}
    (h : firstBlockBeforeWalk pass salt altHash = .ok b) :
    pass.length + 3 ≤ b.len ∧ (pass ≠ [] → b.data.getD 0 0 = pass.getD 0 0) := by
  have h3 : (bytesOf "$1$").length = 3 := by decide
  simp only [firstBlockBeforeWalk] at h
  obtain ⟨b1, h1, h⟩ := bind_eq_ok h
  obtain ⟨b2, h2, h⟩ := bind_eq_ok h
  obtain ⟨b3, h3', h⟩ := bind_eq_ok h
  have s1 := sim_appendString pass holds_makeBlock
  rw [h1] at s1
  obtain ⟨m1, q1, hh1⟩ := sim_ok_left s1
  have s2 := sim_appendString (bytesOf "$1$") hh1
  rw [h2] at s2
  obtain ⟨m2, q2, hh2⟩ := sim_ok_left s2
  have s3 := sim_appendString salt hh2
  rw [h3'] at s3
  obtain ⟨m3, q3, hh3⟩ := sim_ok_left s3
  have s4 := sim_appendAltHash altHash pass.length 0 hh3
  rw [h] at s4
  obtain ⟨m4, q4, hh4⟩ := sim_ok_left s4
  have e1 := msgAppend_ok q1
  have e2 := msgAppend_ok q2
  have e3 := msgAppend_ok q3
  rw [List.nil_append] at e1
  subst e1 e2 e3
  have hne3 : m1 ++ bytesOf "$1$" ++ salt ≠ [] := by
    intro hc
    have := congrArg List.length hc
    simp [h3] at this
  have hne4 := msgAppendAltHash_ne_nil altHash _ _ q4 hne3
  have l4 := msgAppendAltHash_length altHash _ _ _ _ q4
  refine ⟨?_, fun hp => ?_⟩
  · rw [hh4.2.1, l4]
    simp only [List.length_append, h3]
    omega
  · rw [holds_getD_zero hh4 hne4, msgAppendAltHash_getD_zero altHash _ _ q4 hne3,
      List.append_assoc, getD_zero_append hp]

/-- C26: the bit-walk of `computeFirstIntermediate` never writes index 0 of
the block, for every password and salt and whatever the alternate hash is.
When the loop is reached the block has at least `p + 3` bytes, and for a
non-empty password its byte at index 0 is the first byte of the password. The
loop leaves every byte below that length as it was, it agrees with the loop
that reads a copy of the block frozen before it, and so
`firstIntermediateBlock` is the block obtained with the frozen copy. For an
empty password the loop does not run. -/
theorem bitWalk_frozen_copy (pass salt altHash : List Nat) :
    firstIntermediateBlock pass salt altHash =
      firstIntermediateBlockFrozen pass salt altHash ∧
    firstIntermediateBlock pass salt altHash =
      (firstBlockBeforeWalk pass salt altHash).bind (bitWalk pass.length pass.length) ∧
    (∀ b, firstBlockBeforeWalk pass salt altHash = .ok b →
      1 ≤ b.len ∧ pass.length + 3 ≤ b.len ∧
      (pass ≠ [] → b.data.getD 0 0 = pass.getD 0 0) ∧
      bitWalk pass.length pass.length b = bitWalkFrozen b pass.length pass.length b ∧
      (∀ b', bitWalk pass.length pass.length b = .ok b' →
        b.len ≤ b'.len ∧ (∀ i, i < b.len → b'.data.getD i 0 = b.data.getD i 0) ∧
        b'.data.getD 0 0 = b.data.getD 0 0)) ∧
    (pass = [] → ∀ b, bitWalk pass.length pass.length b = .ok b) := by
  have hfirst := firstIntermediateBlock_eq pass salt altHash
  refine ⟨?_, hfirst, ?_, ?_⟩
  · rw [hfirst, firstIntermediateBlockFrozen]
    cases hb : firstBlockBeforeWalk pass salt altHash with
    | error f => rw [error_bind, error_bind]
    | ok b =>
      rw [ok_bind, ok_bind]
      exact bitWalk_eq_frozen b _ _ b (by have := (firstBlockBeforeWalk_ok hb).1; omega) rfl
  · intro b hb
    obtain ⟨hlen, h0⟩ := firstBlockBeforeWalk_ok hb
    have h1 : 1 ≤ b.len := by omega
    refine ⟨h1, hlen, h0, bitWalk_eq_frozen b _ _ b h1 rfl, fun b' hw => ?_⟩
    obtain ⟨r1, r2⟩ := bitWalk_keeps_first _ _ b b' h1 hw
    exact ⟨r1, r2, r2 0 (by omega)⟩
  · intro hp b
    subst hp
    rfl

theorem bitWalk_frozen_copy_witness :
    ∃ b, firstBlockBeforeWalk (bytesOf "abc") (bytesOf "de") (List.range 16) = .ok b ∧
      1 ≤ b.len ∧
      bitWalk (bytesOf "abc").length (bytesOf "abc").length b =
        bitWalkFrozen b (bytesOf "abc").length (bytesOf "abc").length b := by
  have h : ∃ b, firstBlockBeforeWalk (bytesOf "abc") (bytesOf "de") (List.range 16) = .ok b :=
    ⟨_, rfl⟩
  obtain ⟨b, hb⟩ := h
  have key := (bitWalk_frozen_copy (bytesOf "abc") (bytesOf "de") (List.range 16)).2.2.1 b hb
  exact ⟨b, hb, key.1, key.2.2.2.1⟩

end PasswordCracker
